import Mathlib

/-!
Verification of the tallinn-bot message pipeline.

This file gives a shallow embedding, in Lean 4, of the core data model and
operations of the bot repository (URL normalisation and degraded-info payloads,
the conversation-context store, the rate limiter, the fact memory, the URL
fetcher with its result cache, the response router and the spontaneous-reply
scheduler), and proves or refutes the stated properties of those operations.

Python strings are modelled as `List Char` (Python `str` indexes by code
points, exactly as `List Char` does); Python `float` timestamps are modelled
as natural-number seconds; Python dictionaries are modelled as association
lists in insertion order (CPython dicts preserve insertion order).
-/

namespace TallinnBot

/-! ## Python string primitives (over `List Char`)

Models of the CPython `str` operations used by the repository:
`str.split(sep, 1)` / `str.split(sep)`, `str.join`, `str.replace`,
`str.lower`, `str.startswith` and the `in` substring test.
-/

/-- Model of `s.split(sep, 1)` restricted to what callers need: the part
before the first occurrence of `sep`, and — when `sep` occurs — the part
after it. -/
def pySplitFirst (sep : Char) : List Char → List Char × Option (List Char)
  | [] => ([], none)
  | c :: cs =>
    if c = sep then ([], some cs)
    else
      let r := pySplitFirst sep cs
      (c :: r.1, r.2)

/-- Model of `s.split(sep)` for a one-character separator
(`"".split(sep) == ['']`). -/
def splitOnC (sep : Char) : List Char → List (List Char)
  | [] => [[]]
  | c :: cs =>
    if c = sep then [] :: splitOnC sep cs
    else
      match splitOnC sep cs with
      | g :: gs => (c :: g) :: gs
      | [] => [[c]]

/-- Model of `sep.join(parts)` for a one-character separator. -/
def joinC (sep : Char) : List (List Char) → List Char
  | [] => []
  | [x] => x
  | x :: xs => x ++ sep :: joinC sep xs

/-- Model of `s.replace(pat, rep)` (left-to-right, non-overlapping), written
with explicit fuel so that it is structurally recursive (every step consumes
at least one character, so fuel = input length always suffices).  The source
only calls this with a non-empty pattern; for an empty pattern this model is
the identity. -/
def pyReplaceF (pat rep : List Char) : Nat → List Char → List Char
  | 0, l => l
  | _ + 1, [] => []
  | fuel + 1, c :: cs =>
    if pat ≠ [] ∧ pat.isPrefixOf (c :: cs) then
      rep ++ pyReplaceF pat rep fuel ((c :: cs).drop pat.length)
    else
      c :: pyReplaceF pat rep fuel cs

def pyReplace (pat rep : List Char) (l : List Char) : List Char :=
  pyReplaceF pat rep l.length l

/-- Model of `str.lower` restricted to the ASCII and Cyrillic ranges
(the only cased characters compared against constants anywhere in the
repository). -/
def pyLowerChar (c : Char) : Char :=
  if 'A' ≤ c ∧ c ≤ 'Z' then Char.ofNat (c.toNat + 32)
  else if 0x410 ≤ c.toNat ∧ c.toNat ≤ 0x42F then Char.ofNat (c.toNat + 0x20)
  else if c.toNat = 0x401 then Char.ofNat 0x451
  else c

def pyLower (l : List Char) : List Char := l.map pyLowerChar

/-- Model of `sub in s` (the Python substring test). -/
def listContainsSub (sub : List Char) : List Char → Bool
  | [] => sub.isEmpty
  | c :: cs => sub.isPrefixOf (c :: cs) || listContainsSub sub cs

/-! ## UTF-8 encoding and decoding

`quote_plus` encodes the UTF-8 bytes of a string and `unquote` decodes
percent-escaped bytes back through UTF-8 (`errors='replace'`).  The encoder
below is exactly `str.encode('utf-8')`; the decoder is the standard (WHATWG)
incremental UTF-8 decoder with U+FFFD replacement, i.e. `bytes.decode('utf-8',
errors='replace')`.  Bytes are modelled as `Nat` values `< 256`.
-/

/-- UTF-8 encoding of a single scalar value (Lean `Char` is a Unicode scalar
value, as is each element of a Python `str` that can be UTF-8 encoded). -/
def utf8EncChar (c : Char) : List Nat :=
  let n := c.toNat
  if n < 0x80 then [n]
  else if n < 0x800 then [0xC0 + n / 64, 0x80 + n % 64]
  else if n < 0x10000 then [0xE0 + n / 4096, 0x80 + n / 64 % 64, 0x80 + n % 64]
  else [0xF0 + n / 262144, 0x80 + n / 4096 % 64, 0x80 + n / 64 % 64, 0x80 + n % 64]

def utf8Enc (l : List Char) : List Nat := l.flatMap utf8EncChar

/-- U+FFFD REPLACEMENT CHARACTER. -/
def replChar : Char := Char.ofNat 0xFFFD

/-- Decoder state: `(needed, codepoint-so-far, lower, upper)` bounds for the
next continuation byte, following the WHATWG UTF-8 decoding algorithm. -/
abbrev Utf8St := Nat × Nat × Nat × Nat

/-- Classify an initial byte: either a finished character, a new multi-byte
state, or an error. -/
def utf8Start (b : Nat) : List Char × Option Utf8St :=
  if b < 0x80 then ([Char.ofNat b], none)
  else if 0xC2 ≤ b ∧ b ≤ 0xDF then ([], some (1, b - 0xC0, 0x80, 0xBF))
  else if 0xE0 ≤ b ∧ b ≤ 0xEF then
    ([], some (2, b - 0xE0, if b = 0xE0 then 0xA0 else 0x80,
               if b = 0xED then 0x9F else 0xBF))
  else if 0xF0 ≤ b ∧ b ≤ 0xF4 then
    ([], some (3, b - 0xF0, if b = 0xF0 then 0x90 else 0x80,
               if b = 0xF4 then 0x8F else 0xBF))
  else ([replChar], none)

/-- One step of the decoder.  In a continuation state an out-of-range byte
emits U+FFFD and is then reprocessed as an initial byte. -/
def utf8Step (st : Option Utf8St) (b : Nat) : List Char × Option Utf8St :=
  match st with
  | none => utf8Start b
  | some (needed, cp, lo, hi) =>
    if lo ≤ b ∧ b ≤ hi then
      let cp' := cp * 64 + (b - 0x80)
      if needed = 1 then ([Char.ofNat cp'], none)
      else ([], some (needed - 1, cp', 0x80, 0xBF))
    else
      let r := utf8Start b
      (replChar :: r.1, r.2)

def utf8DecGo (st : Option Utf8St) : List Nat → List Char
  | [] => match st with
    | none => []
    | some _ => [replChar]
  | b :: bs =>
    let r := utf8Step st b
    r.1 ++ utf8DecGo r.2 bs

/-- `bytes.decode('utf-8', errors='replace')`. -/
def utf8Dec (bs : List Nat) : List Char := utf8DecGo none bs

theorem utf8DecGo_cons (st : Option Utf8St) (b : Nat) (bs : List Nat) :
    utf8DecGo st (b :: bs) = (utf8Step st b).1 ++ utf8DecGo (utf8Step st b).2 bs := rfl

theorem utf8Step_none_ascii {b : Nat} (h : b < 0x80) :
    utf8Step none b = ([Char.ofNat b], none) := by
  simp [utf8Step, utf8Start, h]

theorem utf8Step_none_two {b : Nat} (h1 : 0xC2 ≤ b) (h2 : b ≤ 0xDF) :
    utf8Step none b = ([], some (1, b - 0xC0, 0x80, 0xBF)) := by
  simp only [utf8Step, utf8Start]
  rw [if_neg (by omega), if_pos ⟨h1, h2⟩]

theorem utf8Step_none_three {b : Nat} (h1 : 0xE0 ≤ b) (h2 : b ≤ 0xEF) :
    utf8Step none b = ([], some (2, b - 0xE0, if b = 0xE0 then 0xA0 else 0x80,
      if b = 0xED then 0x9F else 0xBF)) := by
  simp only [utf8Step, utf8Start]
  rw [if_neg (by omega), if_neg (by omega), if_pos ⟨h1, h2⟩]

theorem utf8Step_none_four {b : Nat} (h1 : 0xF0 ≤ b) (h2 : b ≤ 0xF4) :
    utf8Step none b = ([], some (3, b - 0xF0, if b = 0xF0 then 0x90 else 0x80,
      if b = 0xF4 then 0x8F else 0xBF)) := by
  simp only [utf8Step, utf8Start]
  rw [if_neg (by omega), if_neg (by omega), if_neg (by omega), if_pos ⟨h1, h2⟩]

theorem utf8Step_cont_done {cp lo hi b : Nat} (h : lo ≤ b ∧ b ≤ hi) :
    utf8Step (some (1, cp, lo, hi)) b = ([Char.ofNat (cp * 64 + (b - 0x80))], none) := by
  simp [utf8Step, h]

theorem utf8Step_cont_more {k cp lo hi b : Nat} (h : lo ≤ b ∧ b ≤ hi) (hk : k ≠ 1) :
    utf8Step (some (k, cp, lo, hi)) b =
      ([], some (k - 1, cp * 64 + (b - 0x80), 0x80, 0xBF)) := by
  simp [utf8Step, h, hk]

/-- Validity of a Lean `Char` as a `Nat` scalar value. -/
theorem char_toNat_valid (c : Char) :
    c.toNat < 0xD800 ∨ (0xE000 ≤ c.toNat ∧ c.toNat < 0x110000) := by
  have h := c.valid
  rcases h with h | h
  · left
    exact h
  · right
    have hc : c.toNat = c.val.toNat := rfl
    exact ⟨by omega, h.2⟩

/-- Decoding inverts encoding, one character at a time, with any remaining
bytes processed from the fresh state. -/
theorem utf8DecGo_encChar (c : Char) (bs : List Nat) :
    utf8DecGo none (utf8EncChar c ++ bs) = c :: utf8DecGo none bs := by
  have hv := char_toNat_valid c
  by_cases h1 : c.toNat < 0x80
  · rw [utf8EncChar, if_pos h1]
    rw [List.cons_append, List.nil_append, utf8DecGo_cons, utf8Step_none_ascii h1]
    simp [Char.ofNat_toNat]
  · by_cases h2 : c.toNat < 0x800
    · rw [utf8EncChar, if_neg h1, if_pos h2]
      rw [List.cons_append, List.cons_append, List.nil_append,
        utf8DecGo_cons, utf8Step_none_two (by omega) (by omega)]
      rw [List.nil_append, utf8DecGo_cons, utf8Step_cont_done (by omega)]
      have he : (0xC0 + c.toNat / 64 - 0xC0) * 64 + (0x80 + c.toNat % 64 - 0x80)
          = c.toNat := by omega
      rw [he, Char.ofNat_toNat]
      rfl
    · by_cases h3 : c.toNat < 0x10000
      · rw [utf8EncChar, if_neg h1, if_neg h2, if_pos h3]
        rw [List.cons_append, List.cons_append, List.cons_append, List.nil_append,
          utf8DecGo_cons, utf8Step_none_three (by omega) (by omega)]
        rw [List.nil_append, utf8DecGo_cons,
          utf8Step_cont_more (by constructor <;> split <;> omega) (by omega)]
        rw [List.nil_append, utf8DecGo_cons, utf8Step_cont_done (by omega)]
        have he : ((0xE0 + c.toNat / 4096 - 0xE0) * 64 + (0x80 + c.toNat / 64 % 64 - 0x80))
            * 64 + (0x80 + c.toNat % 64 - 0x80) = c.toNat := by omega
        rw [he, Char.ofNat_toNat]
        rfl
      · rw [utf8EncChar, if_neg h1, if_neg h2, if_neg h3]
        rw [List.cons_append, List.cons_append, List.cons_append, List.cons_append,
          List.nil_append, utf8DecGo_cons, utf8Step_none_four (by omega) (by omega)]
        rw [List.nil_append, utf8DecGo_cons,
          utf8Step_cont_more (by constructor <;> split <;> omega) (by omega)]
        rw [List.nil_append, utf8DecGo_cons,
          utf8Step_cont_more (by omega) (by omega)]
        rw [List.nil_append, utf8DecGo_cons, utf8Step_cont_done (by omega)]
        have he : (((0xF0 + c.toNat / 262144 - 0xF0) * 64
            + (0x80 + c.toNat / 4096 % 64 - 0x80)) * 64
            + (0x80 + c.toNat / 64 % 64 - 0x80)) * 64
            + (0x80 + c.toNat % 64 - 0x80) = c.toNat := by omega
        rw [he, Char.ofNat_toNat]
        rfl

/-- Full UTF-8 round trip. -/
theorem utf8Dec_utf8Enc (l : List Char) : utf8Dec (utf8Enc l) = l := by
  induction l with
  | nil => rfl
  | cons c cs ih =>
    show utf8DecGo none (utf8EncChar c ++ utf8Enc cs) = c :: cs
    rw [utf8DecGo_encChar]
    exact congrArg (c :: ·) ih

theorem toNat_charOfNat {n : Nat} (h : n.isValidChar) : (Char.ofNat n).toNat = n := by
  simp [Char.ofNat, h, Char.ofNatAux, Char.toNat, UInt32.toNat, UInt32.ofNatCore]

theorem valid_of_lt_d800 {n : Nat} (h : n < 0xD800) : n.isValidChar := Or.inl h

/-! ## Percent-encoding: `urllib.parse.quote_plus` and `unquote` -/

/-- Upper-case hexadecimal digit (as produced by `quote`). -/
def hexUp (n : Nat) : Char :=
  if n < 10 then Char.ofNat (48 + n) else Char.ofNat (55 + n)

/-- Bytes `quote` leaves unescaped with `safe=''`: ASCII alphanumerics and
`_ . - ~` (`urllib.parse._ALWAYS_SAFE`). -/
def isSafeByte (b : Nat) : Bool :=
  (48 ≤ b ∧ b ≤ 57) ∨ (65 ≤ b ∧ b ≤ 90) ∨ (97 ≤ b ∧ b ≤ 122)
    ∨ b = 95 ∨ b = 46 ∨ b = 45 ∨ b = 126

/-- How `quote_plus` renders one UTF-8 byte: safe bytes stand for themselves,
a space becomes `+`, anything else becomes `%HH`. -/
def quoteByte (b : Nat) : List Char :=
  if isSafeByte b then [Char.ofNat b]
  else if b = 32 then ['+']
  else ['%', hexUp (b / 16), hexUp (b % 16)]

/-- `urllib.parse.quote_plus(s, safe='')`. -/
def quotePlusL (s : List Char) : List Char := (utf8Enc s).flatMap quoteByte

/-- Value of one hexadecimal digit, if any (both cases, as in
`urllib.parse._hextobyte`). -/
def hexVal? (c : Char) : Option Nat :=
  if '0' ≤ c ∧ c ≤ '9' then some (c.toNat - 48)
  else if 'A' ≤ c ∧ c ≤ 'F' then some (c.toNat - 55)
  else if 'a' ≤ c ∧ c ≤ 'f' then some (c.toNat - 87)
  else none

/-- A lexed unit of a percent-encoded string: either a literal character or a
decoded `%HH` byte. -/
inductive QTok where
  | ch (c : Char)
  | byte (b : Nat)
deriving DecidableEq

/-- Lex a percent-encoded string: `%HH` with two hex digits yields a byte,
a `%` not followed by two hex digits is literal (as in `unquote_to_bytes`). -/
def qTokenize : List Char → List QTok
  | [] => []
  | '%' :: c1 :: c2 :: rest =>
    match hexVal? c1, hexVal? c2 with
    | some h, some l => .byte (h * 16 + l) :: qTokenize rest
    | _, _ => .ch '%' :: qTokenize (c1 :: c2 :: rest)
  | c :: rest => .ch c :: qTokenize rest

/-- Split the leading run of byte tokens. -/
def spanBytes : List QTok → List Nat × List QTok
  | .byte b :: rest =>
    let r := spanBytes rest
    (b :: r.1, r.2)
  | ts => ([], ts)

theorem spanBytes_len_le (ts : List QTok) : (spanBytes ts).2.length ≤ ts.length := by
  induction ts with
  | nil => simp [spanBytes]
  | cons t rest ih =>
    cases t with
    | ch c => simp [spanBytes]
    | byte b =>
      simp only [spanBytes]
      exact Nat.le_succ_of_le ih

/-- Reassemble lexed tokens into a string: each maximal run of bytes is
decoded as UTF-8 with replacement (CPython decodes each maximal ASCII chunk
of percent-decoded bytes as a whole; on the image of `quote` the two
behaviours agree, since literal ASCII bytes decode to themselves). -/
def qDetok : List QTok → List Char
  | [] => []
  | .ch c :: rest => c :: qDetok rest
  | .byte b :: rest =>
    let r := spanBytes rest
    utf8Dec (b :: r.1) ++ qDetok r.2
termination_by ts => ts.length
decreasing_by
  · simp
  · have := spanBytes_len_le rest
    simp
    omega

/-- Structurally recursive form of `qDetok` (same function, re-associated
around an accumulator of pending bytes, so that concrete inputs evaluate
inside the kernel); `qDetokAcc_eq` below proves the agreement. -/
def qDetokAcc : List QTok → List Nat → List Char
  | [], acc => utf8Dec acc
  | .byte b :: rest, acc => qDetokAcc rest (acc ++ [b])
  | .ch c :: rest, acc => utf8Dec acc ++ c :: qDetokAcc rest []

/-- `urllib.parse.unquote(s, errors='replace')`. -/
def pyUnquote (s : List Char) : List Char := qDetokAcc (qTokenize s) []

/-- `urllib.parse.unquote_plus`: `+` becomes a space, then percent-decode. -/
def unquotePlusL (s : List Char) : List Char :=
  pyUnquote (s.map fun c => if c = '+' then ' ' else c)

/-! ### Round trip: `unquote_plus (quote_plus s) = s` -/

theorem char_le_iff {a b : Char} : a ≤ b ↔ a.toNat ≤ b.toNat := Iff.rfl

theorem charOfNat_ne {b : Nat} (hb : b < 0xD800) {c : Char} (h : b ≠ c.toNat) :
    Char.ofNat b ≠ c := by
  intro he
  exact h (by rw [← toNat_charOfNat (valid_of_lt_d800 hb), he])

theorem utf8EncChar_lt_256 (c : Char) : ∀ b ∈ utf8EncChar c, b < 256 := by
  have hv := char_toNat_valid c
  intro b hb
  simp only [utf8EncChar] at hb
  split_ifs at hb <;> simp at hb <;> omega

theorem utf8Enc_lt_256 (s : List Char) : ∀ b ∈ utf8Enc s, b < 256 := by
  intro b hb
  unfold utf8Enc at hb
  obtain ⟨c, _, h2⟩ := List.mem_flatMap.mp hb
  exact utf8EncChar_lt_256 c b h2

theorem utf8EncChar_ne_nil (c : Char) : utf8EncChar c ≠ [] := by
  simp only [utf8EncChar]
  split_ifs <;> simp

theorem utf8EncChar_ge_128 {c : Char} (h : ¬ c.toNat < 0x80) :
    ∀ b ∈ utf8EncChar c, 0x80 ≤ b := by
  intro b hb
  simp only [utf8EncChar] at hb
  split_ifs at hb <;> simp at hb <;> omega

theorem hexVal?_hexUp {n : Nat} (h : n ≤ 15) : hexVal? (hexUp n) = some n := by
  have c0 : ('0' : Char).toNat = 48 := rfl
  have c9 : ('9' : Char).toNat = 57 := rfl
  have cA : ('A' : Char).toNat = 65 := rfl
  have cF : ('F' : Char).toNat = 70 := rfl
  by_cases h10 : n < 10
  · have ht : (Char.ofNat (48 + n)).toNat = 48 + n :=
      toNat_charOfNat (valid_of_lt_d800 (by omega))
    rw [hexUp, if_pos h10, hexVal?,
      if_pos (by rw [char_le_iff, char_le_iff, ht, c0, c9]; omega)]
    rw [ht]
    simp only [Option.some.injEq]
    omega
  · have ht : (Char.ofNat (55 + n)).toNat = 55 + n :=
      toNat_charOfNat (valid_of_lt_d800 (by omega))
    rw [hexUp, if_neg h10, hexVal?,
      if_neg (by rw [char_le_iff, char_le_iff, ht, c0, c9]; omega),
      if_pos (by rw [char_le_iff, char_le_iff, ht, cA, cF]; omega)]
    rw [ht]
    simp only [Option.some.injEq]
    omega

theorem qTokenize_ch {c : Char} (h : c ≠ '%') (rest : List Char) :
    qTokenize (c :: rest) = .ch c :: qTokenize rest := by
  match rest with
  | [] => simp [qTokenize, h]
  | [c1] => simp [qTokenize, h]
  | c1 :: c2 :: r => simp [qTokenize, h]

theorem qTokenize_pct {c1 c2 : Char} {hi lo : Nat} (h1 : hexVal? c1 = some hi)
    (h2 : hexVal? c2 = some lo) (rest : List Char) :
    qTokenize ('%' :: c1 :: c2 :: rest) = .byte (hi * 16 + lo) :: qTokenize rest := by
  simp [qTokenize, h1, h2]

theorem spanBytes_ch (c : Char) (ts : List QTok) :
    spanBytes (.ch c :: ts) = ([], .ch c :: ts) := rfl

theorem spanBytes_byte (b : Nat) (ts : List QTok) :
    spanBytes (.byte b :: ts) = (b :: (spanBytes ts).1, (spanBytes ts).2) := rfl

theorem spanBytes_map_byte (bs : List Nat) (ts : List QTok) :
    spanBytes (bs.map .byte ++ ts) = (bs ++ (spanBytes ts).1, (spanBytes ts).2) := by
  induction bs with
  | nil => simp
  | cons b bs ih => simp [spanBytes_byte, ih]

theorem qDetok_nil : qDetok [] = [] := by simp [qDetok]

theorem qDetok_ch (c : Char) (ts : List QTok) :
    qDetok (.ch c :: ts) = c :: qDetok ts := by
  simp [qDetok]

theorem qDetok_byte (b : Nat) (ts : List QTok) :
    qDetok (.byte b :: ts) =
      utf8Dec (b :: (spanBytes ts).1) ++ qDetok (spanBytes ts).2 := by
  simp [qDetok]

/-- A non-empty run of byte tokens merges with any byte tokens that follow. -/
theorem qDetok_byteRun (b : Nat) (bs : List Nat) (ts : List QTok) :
    qDetok ((b :: bs).map .byte ++ ts) =
      utf8Dec (b :: bs ++ (spanBytes ts).1) ++ qDetok (spanBytes ts).2 := by
  rw [List.map_cons, List.cons_append, qDetok_byte, spanBytes_map_byte]
  simp

theorem qDetok_span (ts : List QTok) :
    utf8Dec ((spanBytes ts).1) ++ qDetok ((spanBytes ts).2) = qDetok ts := by
  match ts with
  | [] => simp [spanBytes, qDetok_nil, utf8Dec, utf8DecGo]
  | .ch c :: r => simp [spanBytes_ch, utf8Dec, utf8DecGo]
  | .byte b :: r => rw [spanBytes_byte, qDetok_byte]

theorem qDetokAcc_spec (ts : List QTok) : ∀ acc : List Nat,
    qDetokAcc ts acc = utf8Dec (acc ++ (spanBytes ts).1) ++ qDetok ((spanBytes ts).2) := by
  induction ts with
  | nil => intro acc; simp [qDetokAcc, spanBytes, qDetok_nil]
  | cons t rest ih =>
    intro acc
    cases t with
    | byte b =>
      rw [show qDetokAcc (QTok.byte b :: rest) acc = qDetokAcc rest (acc ++ [b]) from rfl,
        ih, spanBytes_byte]
      simp
    | ch c =>
      rw [show qDetokAcc (QTok.ch c :: rest) acc
          = utf8Dec acc ++ c :: qDetokAcc rest [] from rfl,
        ih, spanBytes_ch]
      simp only [List.nil_append, List.append_nil]
      rw [qDetok_span, qDetok_ch]

theorem qDetokAcc_eq (ts : List QTok) : qDetokAcc ts [] = qDetok ts := by
  rw [qDetokAcc_spec, List.nil_append, qDetok_span]

/-- `quote_plus` followed by the `+`-to-space map, per byte. -/
def quoteByteSp (b : Nat) : List Char :=
  if isSafeByte b then [Char.ofNat b]
  else if b = 32 then [' ']
  else ['%', hexUp (b / 16), hexUp (b % 16)]

theorem map_plus_quoteByte {b : Nat} (hb : b < 256) :
    (quoteByte b).map (fun c => if c = '+' then ' ' else c) = quoteByteSp b := by
  unfold quoteByte quoteByteSp
  split_ifs with h1 h2
  · have hno : Char.ofNat b ≠ '+' := by
      apply charOfNat_ne (by omega)
      simp only [isSafeByte, decide_eq_true_eq] at h1
      show b ≠ 43
      omega
    simp [hno]
  · simp
  · have hx : ∀ n : Nat, n ≤ 15 → hexUp n ≠ '+' := by
      intro n hn
      unfold hexUp
      split_ifs
      · exact charOfNat_ne (by omega) (show 48 + n ≠ 43 by omega)
      · exact charOfNat_ne (by omega) (show 55 + n ≠ 43 by omega)
    have h16 : b / 16 ≤ 15 := by omega
    have h16' : b % 16 ≤ 15 := by omega
    simp [hx _ h16, hx _ h16', show ('%' : Char) ≠ '+' by decide]

theorem map_plus_quotePlus (s : List Char) :
    (quotePlusL s).map (fun c => if c = '+' then ' ' else c)
      = (utf8Enc s).flatMap quoteByteSp := by
  unfold quotePlusL
  rw [List.map_flatMap]
  apply List.flatMap_congr
  intro b hb
  exact map_plus_quoteByte (utf8Enc_lt_256 s b hb)

/-- Token view of one quoted byte after `+`-to-space. -/
def tokOfByte (b : Nat) : List QTok :=
  if isSafeByte b ∨ b = 32 then [QTok.ch (Char.ofNat b)] else [QTok.byte b]

theorem qTokenize_quoteSp (bs : List Nat) (hb : ∀ b ∈ bs, b < 256) :
    qTokenize (bs.flatMap quoteByteSp) = bs.flatMap tokOfByte := by
  induction bs with
  | nil => simp [qTokenize]
  | cons b rest ih =>
    have hb256 : b < 256 := hb b (by simp)
    have ihr := ih (fun x hx => hb x (by simp [hx]))
    rw [List.flatMap_cons, List.flatMap_cons]
    by_cases h1 : isSafeByte b
    · have hq : quoteByteSp b = [Char.ofNat b] := by rw [quoteByteSp, if_pos h1]
      have htk : tokOfByte b = [QTok.ch (Char.ofNat b)] := by
        rw [tokOfByte, if_pos (Or.inl h1)]
      have hno : Char.ofNat b ≠ '%' := by
        apply charOfNat_ne (by omega)
        simp only [isSafeByte, decide_eq_true_eq] at h1
        show b ≠ 37
        omega
      rw [hq, htk, List.cons_append, List.nil_append, qTokenize_ch hno, ihr]
      rfl
    · by_cases h2 : b = 32
      · have hq : quoteByteSp b = [' '] := by rw [quoteByteSp, if_neg h1, if_pos h2]
        have htk : tokOfByte b = [QTok.ch (Char.ofNat b)] := by
          rw [tokOfByte, if_pos (Or.inr h2)]
        rw [hq, htk, List.cons_append, List.nil_append,
          qTokenize_ch (show (' ' : Char) ≠ '%' by decide), ihr]
        subst h2
        rfl
      · have hq : quoteByteSp b = ['%', hexUp (b / 16), hexUp (b % 16)] := by
          rw [quoteByteSp, if_neg h1, if_neg h2]
        have htk : tokOfByte b = [QTok.byte b] := by
          rw [tokOfByte, if_neg (fun hc => hc.elim h1 h2)]
        rw [hq, htk]
        rw [show ['%', hexUp (b / 16), hexUp (b % 16)] ++ rest.flatMap quoteByteSp
          = '%' :: hexUp (b / 16) :: hexUp (b % 16) :: rest.flatMap quoteByteSp from rfl]
        rw [qTokenize_pct (hexVal?_hexUp (by omega)) (hexVal?_hexUp (by omega)), ihr]
        have hbb : b / 16 * 16 + b % 16 = b := by omega
        rw [hbb]
        rfl

theorem flatMap_eq_map {α β : Type} (f : α → List β) (g : α → β) (l : List α)
    (h : ∀ b ∈ l, f b = [g b]) : l.flatMap f = l.map g := by
  induction l with
  | nil => rfl
  | cons x xs ih =>
    rw [List.flatMap_cons, h x (by simp), List.map_cons,
      ih (fun b hb => h b (by simp [hb]))]
    rfl

theorem qDetok_tokOfByte_enc (s : List Char) :
    qDetok ((utf8Enc s).flatMap tokOfByte) = s := by
  induction s with
  | nil => simp [utf8Enc, qDetok]
  | cons c cs ih =>
    have henc : utf8Enc (c :: cs) = utf8EncChar c ++ utf8Enc cs := by
      simp [utf8Enc]
    rw [henc, List.flatMap_append]
    by_cases hsafe : c.toNat < 0x80 ∧ (isSafeByte c.toNat ∨ c.toNat = 32)
    · have h1 : utf8EncChar c = [c.toNat] := by rw [utf8EncChar, if_pos hsafe.1]
      rw [h1]
      rw [show ([c.toNat].flatMap tokOfByte) = [QTok.ch (Char.ofNat c.toNat)] by
        simp [tokOfByte, hsafe.2]]
      rw [Char.ofNat_toNat, List.cons_append, List.nil_append, qDetok_ch, ih]
    · have hbytes : ∀ b ∈ utf8EncChar c, ¬ (isSafeByte b ∨ b = 32) := by
        intro b hb
        by_cases hlt : c.toNat < 0x80
        · have h1 : utf8EncChar c = [c.toNat] := by rw [utf8EncChar, if_pos hlt]
          rw [h1] at hb
          simp at hb
          subst hb
          exact fun hcon => hsafe ⟨hlt, hcon⟩
        · have := utf8EncChar_ge_128 hlt b hb
          simp only [isSafeByte, decide_eq_true_eq]
          omega
      have hmap : (utf8EncChar c).flatMap tokOfByte = (utf8EncChar c).map .byte :=
        flatMap_eq_map _ _ _ (fun b hb => by rw [tokOfByte, if_neg (hbytes b hb)])
      rw [hmap]
      obtain ⟨b, bs, hcs⟩ := List.exists_cons_of_ne_nil (utf8EncChar_ne_nil c)
      rw [hcs, qDetok_byteRun]
      have hdec : utf8Dec (b :: bs ++ (spanBytes ((utf8Enc cs).flatMap tokOfByte)).1)
          = c :: utf8Dec ((spanBytes ((utf8Enc cs).flatMap tokOfByte)).1) := by
        rw [show b :: bs ++ (spanBytes ((utf8Enc cs).flatMap tokOfByte)).1
          = utf8EncChar c ++ (spanBytes ((utf8Enc cs).flatMap tokOfByte)).1 by rw [hcs]]
        exact utf8DecGo_encChar c _
      rw [hdec, List.cons_append, qDetok_span, ih]

/-- The round trip at the heart of query-string normalisation:
`unquote_plus(quote_plus(s)) == s` for every string `s`. -/
theorem unquotePlus_quotePlus (s : List Char) : unquotePlusL (quotePlusL s) = s := by
  unfold unquotePlusL pyUnquote
  rw [qDetokAcc_eq, map_plus_quotePlus, qTokenize_quoteSp _ (utf8Enc_lt_256 s),
    qDetok_tokOfByte_enc]

theorem char_ne_of_toNat_ne {c d : Char} (h : c.toNat ≠ d.toNat) : c ≠ d :=
  fun he => h (he ▸ rfl)

theorem hexUp_toNat {n : Nat} (h : n ≤ 15) :
    (hexUp n).toNat = if n < 10 then 48 + n else 55 + n := by
  unfold hexUp
  split_ifs with h10
  · exact toNat_charOfNat (valid_of_lt_d800 (by omega))
  · exact toNat_charOfNat (valid_of_lt_d800 (by omega))

/-- Every character of a `quote_plus` output is `+`, `%`, or an always-safe
byte (in particular it is none of the URL delimiters). -/
theorem quotePlus_mem (s : List Char) : ∀ c ∈ quotePlusL s,
    c = '+' ∨ c = '%' ∨ (isSafeByte c.toNat ∧ c.toNat < 128) := by
  intro c hc
  unfold quotePlusL at hc
  obtain ⟨b, hb, hcb⟩ := List.mem_flatMap.mp hc
  have hb256 := utf8Enc_lt_256 s b hb
  unfold quoteByte at hcb
  split_ifs at hcb with h1 h2
  · simp at hcb
    subst hcb
    right; right
    rw [toNat_charOfNat (valid_of_lt_d800 (by omega))]
    refine ⟨h1, ?_⟩
    simp only [isSafeByte, decide_eq_true_eq] at h1
    omega
  · simp at hcb
    subst hcb
    left; rfl
  · simp at hcb
    rcases hcb with h | h | h
    · subst h; right; left; rfl
    · subst h
      right; right
      rw [hexUp_toNat (show b / 16 ≤ 15 by omega)]
      constructor
      · simp only [isSafeByte, decide_eq_true_eq]
        split_ifs <;> omega
      · split_ifs <;> omega
    · subst h
      right; right
      rw [hexUp_toNat (show b % 16 ≤ 15 by omega)]
      constructor
      · simp only [isSafeByte, decide_eq_true_eq]
        split_ifs <;> omega
      · split_ifs <;> omega

/-- `quote_plus` output contains no URL or query delimiters, no control
characters, no spaces. -/
theorem quotePlus_no_delim (s : List Char) : ∀ c ∈ quotePlusL s,
    c ≠ '=' ∧ c ≠ '&' ∧ c ≠ '#' ∧ c ≠ '?' ∧ c ≠ ':' ∧ c ≠ '/' ∧ 0x20 < c.toNat := by
  intro c hc
  rcases quotePlus_mem s c hc with h | h | h
  · subst h
    refine ⟨by decide, by decide, by decide, by decide, by decide, by decide, by decide⟩
  · subst h
    refine ⟨by decide, by decide, by decide, by decide, by decide, by decide, by decide⟩
  · obtain ⟨hs, _⟩ := h
    simp only [isSafeByte, decide_eq_true_eq] at hs
    have e1 : ('=' : Char).toNat = 61 := rfl
    have e2 : ('&' : Char).toNat = 38 := rfl
    have e3 : ('#' : Char).toNat = 35 := rfl
    have e4 : ('?' : Char).toNat = 63 := rfl
    have e5 : (':' : Char).toNat = 58 := rfl
    have e6 : ('/' : Char).toNat = 47 := rfl
    refine ⟨char_ne_of_toNat_ne (by rw [e1]; omega),
      char_ne_of_toNat_ne (by rw [e2]; omega),
      char_ne_of_toNat_ne (by rw [e3]; omega),
      char_ne_of_toNat_ne (by rw [e4]; omega),
      char_ne_of_toNat_ne (by rw [e5]; omega),
      char_ne_of_toNat_ne (by rw [e6]; omega), by omega⟩

theorem quoteByte_ne_nil (b : Nat) : quoteByte b ≠ [] := by
  unfold quoteByte
  split_ifs <;> simp

theorem quotePlus_ne_nil {s : List Char} (h : s ≠ []) : quotePlusL s ≠ [] := by
  obtain ⟨c, cs, rfl⟩ := List.exists_cons_of_ne_nil h
  show ((utf8EncChar c ++ utf8Enc cs).flatMap quoteByte) ≠ []
  obtain ⟨b, bs, hb⟩ := List.exists_cons_of_ne_nil (utf8EncChar_ne_nil c)
  rw [hb, List.cons_append, List.flatMap_cons]
  intro hcon
  exact quoteByte_ne_nil b (List.append_eq_nil.mp hcon).1

theorem utf8Step_emit {st : Option Utf8St} {b : Nat}
    (h : (utf8Step st b).2 = none) : (utf8Step st b).1 ≠ [] := by
  match st with
  | none =>
    simp only [utf8Step, utf8Start] at h ⊢
    split_ifs at h ⊢ <;> simp_all
  | some (k, cp, lo, hi) =>
    simp only [utf8Step, utf8Start] at h ⊢
    split_ifs at h ⊢ <;> simp_all

theorem utf8DecGo_ne_nil : ∀ (bs : List Nat) (st : Option Utf8St),
    st ≠ none ∨ bs ≠ [] → utf8DecGo st bs ≠ [] := by
  intro bs
  induction bs with
  | nil =>
    intro st h
    rcases h with h | h
    · match st with
      | some s => simp [utf8DecGo]
      | none => exact absurd rfl h
    · exact absurd rfl h
  | cons b rest ih =>
    intro st _
    rw [utf8DecGo_cons]
    by_cases hr : rest = []
    · subst hr
      rcases hst : (utf8Step st b).2 with _ | stv
      · have := utf8Step_emit hst
        simp [utf8DecGo, hst]
        intro hcon
        exact this hcon
      · simp [utf8DecGo, hst]
    · have := ih (utf8Step st b).2 (Or.inr hr)
      intro hcon
      exact this (List.append_eq_nil.mp hcon).2

theorem qTokenize_ne_nil : ∀ {s : List Char}, s ≠ [] → qTokenize s ≠ [] := by
  intro s h
  match s with
  | [] => exact absurd rfl h
  | [c] =>
    rw [show qTokenize [c] = .ch c :: qTokenize [] from by
      by_cases hc : c = '%'
      · subst hc; simp [qTokenize]
      · exact qTokenize_ch hc []]
    simp
  | [c, c1] =>
    rw [show qTokenize [c, c1] = .ch c :: qTokenize [c1] from by
      by_cases hc : c = '%'
      · subst hc; simp [qTokenize]
      · exact qTokenize_ch hc [c1]]
    simp
  | c :: c1 :: c2 :: r =>
    by_cases hc : c = '%'
    · subst hc
      rcases h1 : hexVal? c1 with _ | v1 <;> rcases h2 : hexVal? c2 with _ | v2 <;>
        simp [qTokenize, h1, h2]
    · rw [qTokenize_ch hc]
      simp

theorem qDetok_ne_nil : ∀ {ts : List QTok}, ts ≠ [] → qDetok ts ≠ [] := by
  intro ts h
  match ts with
  | [] => exact absurd rfl h
  | .ch c :: r => rw [qDetok_ch]; simp
  | .byte b :: r =>
    rw [qDetok_byte]
    intro hcon
    exact utf8DecGo_ne_nil (b :: (spanBytes r).1) none (Or.inr (by simp))
      (List.append_eq_nil.mp hcon).1

theorem unquotePlus_ne_nil {s : List Char} (h : s ≠ []) : unquotePlusL s ≠ [] := by
  unfold unquotePlusL pyUnquote
  rw [qDetokAcc_eq]
  apply qDetok_ne_nil
  apply qTokenize_ne_nil
  simpa using h

/-! ## `urllib.parse.urlsplit` and `urlunsplit`

`clean_url` uses `urlparse`/`urlunparse`, which are `urlsplit`/`urlunsplit`
plus a split of the last path segment at `;` into `(path, params)`; since
`clean_url` passes both components through unchanged and `urlunparse` rejoins
them exactly as split, the pair is modelled as the single `path` component.
The netloc bracket/NFKC validation of CPython (which raises `ValueError`,
caught by `clean_url`'s `except Exception: return url`) is not modelled:
on those inputs the real function returns its argument unchanged, which is
idempotent as well.
-/

structure PUrl where
  scheme : List Char
  netloc : List Char
  path : List Char
  query : List Char
  fragment : List Char
deriving DecidableEq

/-- `c.isascii() and c.isalpha()` (stated on scalar values). -/
def isAsciiAlphaB (c : Char) : Bool :=
  (97 ≤ c.toNat ∧ c.toNat ≤ 122) ∨ (65 ≤ c.toNat ∧ c.toNat ≤ 90)

/-- `urllib.parse.scheme_chars`: ASCII letters, digits, `+`, `-`, `.`. -/
def isSchemeCharB (c : Char) : Bool :=
  isAsciiAlphaB c ∨ (48 ≤ c.toNat ∧ c.toNat ≤ 57)
    ∨ c.toNat = 43 ∨ c.toNat = 45 ∨ c.toNat = 46

/-- Split off `scheme:` when the part before the first `:` is a valid scheme
(first char an ASCII letter, all chars in `scheme_chars`); the scheme is
lower-cased. -/
def splitSchemePart (l : List Char) : List Char × List Char :=
  match pySplitFirst ':' l with
  | (pre, some rest) =>
    if pre ≠ [] ∧ isAsciiAlphaB (pre.headD ' ') ∧ pre.all isSchemeCharB
    then (pyLower pre, rest)
    else ([], l)
  | (_, none) => ([], l)

/-- The netloc delimiters `/`, `?`, `#` (stated on scalar values). -/
def isNetlocDelim (c : Char) : Bool := c.toNat = 47 ∨ c.toNat = 63 ∨ c.toNat = 35

/-- `_splitnetloc`: after `//`, the netloc extends to the first `/`, `?` or
`#`. -/
def splitNetlocPart (l : List Char) : List Char × List Char :=
  if l.take 2 = ['/', '/'] then
    ((l.drop 2).takeWhile (fun c => ¬ isNetlocDelim c),
     (l.drop 2).dropWhile (fun c => ¬ isNetlocDelim c))
  else ([], l)

/-- `if sep in url: url.split(sep, 1) else (url, '')`. -/
def splitAtFirst (sep : Char) (l : List Char) : List Char × List Char :=
  match pySplitFirst sep l with
  | (a, some b) => (a, b)
  | (_, none) => (l, [])

/-- `urllib.parse.urlsplit`: lstrip C0-control-or-space, remove tab, CR and
LF, then split scheme, netloc, fragment, query (in that order). -/
def urlsplitL (l0 : List Char) : PUrl :=
  let l1 := l0.dropWhile (fun c => c.toNat ≤ 0x20)
  let l2 := l1.filter (fun c => ¬ (c = '\t' ∨ c = '\r' ∨ c = '\n'))
  let s1 := splitSchemePart l2
  let s2 := splitNetlocPart s1.2
  let s3 := splitAtFirst '#' s2.2
  let s4 := splitAtFirst '?' s3.1
  ⟨s1.1, s2.1, s4.1, s4.2, s3.2⟩

/-- `urllib.parse.uses_netloc` (CPython 3.11). -/
def usesNetloc : List (List Char) :=
  ["ftp", "http", "gopher", "nntp", "telnet", "imap", "wais", "file", "mms",
   "https", "shttp", "snews", "prospero", "rtsp", "rtsps", "rtspu", "rsync",
   "svn", "svn+ssh", "sftp", "nfs", "git", "git+ssh", "ws", "wss"].map
    String.toList

/-- `urllib.parse.urlunsplit` (CPython 3.11: the `//` is restored when there
is a netloc, or when the scheme is non-empty, conventionally uses a netloc,
and the path does not already begin with `//`; the empty string in CPython's
`uses_netloc` list is unreachable behind the `scheme and` truthiness test and
is therefore dropped from the model). -/
def urlunsplitL (p : PUrl) : List Char :=
  let url := p.path
  let url := if p.netloc ≠ [] ∨ (p.scheme ≠ [] ∧ usesNetloc.contains p.scheme ∧ url.take 2 ≠ ['/', '/']) then
      '/' :: '/' :: (p.netloc ++ (if url ≠ [] ∧ url.take 1 ≠ ['/'] then '/' :: url else url))
    else url
  let url := if p.scheme ≠ [] then p.scheme ++ ':' :: url else url
  let url := if p.query ≠ [] then url ++ '?' :: p.query else url
  if p.fragment ≠ [] then url ++ '#' :: p.fragment else url

/-! ## `parse_qs` / `urlencode` and `clean_url` itself -/

/-- `urllib.parse.parse_qsl(qs, keep_blank_values=False)`: split on `&`,
skip empty chunks, skip chunks without `=` or with an empty raw value,
unquote names and values. -/
def parseQsl (q : List Char) : List (List Char × List Char) :=
  (splitOnC '&' q).filterMap fun chunk =>
    if chunk = [] then none
    else
      match pySplitFirst '=' chunk with
      | (_, none) => none
      | (name, some value) =>
        if value = [] then none
        else some (unquotePlusL name, unquotePlusL value)

/-- One step of `parse_qs`'s grouping loop: append the value to an existing
key, or add a new key at the end (dict insertion order). -/
def addPair (acc : List (List Char × List (List Char))) (kv : List Char × List Char) :
    List (List Char × List (List Char)) :=
  if acc.any (fun e => e.1 = kv.1) then
    acc.map (fun e => if e.1 = kv.1 then (e.1, e.2 ++ [kv.2]) else e)
  else acc ++ [(kv.1, [kv.2])]

/-- `urllib.parse.parse_qs(qs, keep_blank_values=False)`. -/
def parse_qs (q : List Char) : List (List Char × List (List Char)) :=
  (parseQsl q).foldl addPair []

/-- The fixed tracking-parameter deny list of `clean_url`. -/
def trackingNames : List (List Char) :=
  ["fbclid", "gclid", "utm_source", "utm_medium", "utm_campaign",
   "utm_term", "utm_content", "ref", "source", "mc_cid", "mc_eid",
   "_ga", "yclid", "wickedid", "twclid", "ttclid"].map String.toList

/-- `k.lower() in tracking or k.lower().startswith(('utm_', 'aem_'))`. -/
def isTrackingKey (k : List Char) : Bool :=
  let kl := pyLower k
  trackingNames.contains kl
    || ("utm_".toList).isPrefixOf kl || ("aem_".toList).isPrefixOf kl

def cleanParams (d : List (List Char × List (List Char)))
    : List (List Char × List (List Char)) :=
  d.filter (fun kv => ¬ isTrackingKey kv.1)

/-- `urllib.parse.urlencode(d, doseq=True)` (default `quote_via=quote_plus`). -/
def urlencodeQs (d : List (List Char × List (List Char))) : List Char :=
  joinC '&' (d.flatMap fun kv => kv.2.map fun v => quotePlusL kv.1 ++ '=' :: quotePlusL v)

/-- The full query-string cleaning of `clean_url`. -/
def cleanQueryL (q : List Char) : List Char := urlencodeQs (cleanParams (parse_qs q))

/-- `clean_url` from `bot/utils/helpers.py`: parse, drop tracking parameters
from the query, drop the fragment, reassemble.  (The `except Exception:
return url` branch is unreachable in this total model.) -/
def cleanUrlL (l : List Char) : List Char :=
  let p := urlsplitL l
  urlunsplitL ⟨p.scheme, p.netloc, p.path, cleanQueryL p.query, []⟩

def clean_url (s : String) : String := ⟨cleanUrlL s.data⟩

/-! ## Characterisation of the splitting primitives -/

theorem pySplitFirst_eq_none {sep : Char} {l : List Char} (h : sep ∉ l) :
    pySplitFirst sep l = (l, none) := by
  induction l with
  | nil => rfl
  | cons c cs ih =>
    have hc : c ≠ sep := fun he => h (he ▸ List.mem_cons_self c cs)
    rw [pySplitFirst, if_neg hc, ih (fun hm => h (List.mem_cons_of_mem c hm))]

theorem pySplitFirst_eq_some {sep : Char} {pre : List Char} (rest : List Char)
    (h : sep ∉ pre) : pySplitFirst sep (pre ++ sep :: rest) = (pre, some rest) := by
  induction pre with
  | nil => simp [pySplitFirst]
  | cons c cs ih =>
    have hc : c ≠ sep := fun he => h (he ▸ List.mem_cons_self c cs)
    rw [List.cons_append, pySplitFirst, if_neg hc,
      ih (fun hm => h (List.mem_cons_of_mem c hm))]

theorem pySplitFirst_some_inv {sep : Char} {l a b : List Char}
    (h : pySplitFirst sep l = (a, some b)) : l = a ++ sep :: b ∧ sep ∉ a := by
  induction l generalizing a b with
  | nil => simp [pySplitFirst] at h
  | cons c cs ih =>
    rw [pySplitFirst] at h
    split_ifs at h with hc
    · subst hc
      obtain ⟨rfl, rfl⟩ : a = [] ∧ b = cs := by
        constructor <;> simp_all
      simp
    · have h2 : pySplitFirst sep cs = (a.tail, some b) ∧ a = c :: a.tail := by
        rcases he : pySplitFirst sep cs with ⟨x, y⟩
        rw [he] at h
        simp at h
        obtain ⟨ha, hb⟩ := h
        subst ha
        simp_all
      obtain ⟨hr, ha⟩ := h2
      obtain ⟨hl, hm⟩ := ih hr
      constructor
      · rw [ha, hl]
        rfl
      · rw [ha]
        intro hmem
        rcases List.mem_cons.mp hmem with h | h
        · exact hc h.symm
        · exact hm h

theorem pySplitFirst_none_inv {sep : Char} {l a : List Char}
    (h : pySplitFirst sep l = (a, none)) : a = l ∧ sep ∉ l := by
  induction l generalizing a with
  | nil =>
    simp [pySplitFirst] at h
    simp [h]
  | cons c cs ih =>
    rw [pySplitFirst] at h
    split_ifs at h with hc
    · simp at h
    · rcases he : pySplitFirst sep cs with ⟨x, y⟩
      rw [he] at h
      simp at h
      obtain ⟨ha, hy⟩ := h
      subst hy
      obtain ⟨hx, hm⟩ := ih he
      subst hx
      subst ha
      refine ⟨rfl, ?_⟩
      intro hmem
      rcases List.mem_cons.mp hmem with h | h
      · exact hc h.symm
      · exact hm h

theorem splitOnC_no_sep {sep : Char} {l : List Char} (h : sep ∉ l) :
    splitOnC sep l = [l] := by
  induction l with
  | nil => rfl
  | cons c cs ih =>
    have hc : c ≠ sep := fun he => h (he ▸ List.mem_cons_self c cs)
    rw [splitOnC, if_neg hc, ih (fun hm => h (List.mem_cons_of_mem c hm))]

theorem splitOnC_append {sep : Char} {a : List Char} (r : List Char) (h : sep ∉ a) :
    splitOnC sep (a ++ sep :: r) = a :: splitOnC sep r := by
  induction a with
  | nil => simp [splitOnC]
  | cons c cs ih =>
    have hc : c ≠ sep := fun he => h (he ▸ List.mem_cons_self c cs)
    rw [List.cons_append, splitOnC, if_neg hc,
      ih (fun hm => h (List.mem_cons_of_mem c hm))]

/-- Splitting a join recovers the chunks, provided the separator occurs in no
chunk and the chunk list is non-empty. -/
theorem splitOnC_joinC {sep : Char} : ∀ {chunks : List (List Char)},
    chunks ≠ [] → (∀ ch ∈ chunks, sep ∉ ch) →
    splitOnC sep (joinC sep chunks) = chunks := by
  intro chunks
  induction chunks with
  | nil => intro h; exact absurd rfl h
  | cons x xs ih =>
    intro _ hall
    match xs with
    | [] => exact splitOnC_no_sep (hall x (by simp))
    | y :: ys =>
      rw [show joinC sep (x :: y :: ys) = x ++ sep :: joinC sep (y :: ys) from rfl,
        splitOnC_append _ (hall x (by simp)),
        ih (by simp) (fun ch hch => hall ch (List.mem_cons_of_mem x hch))]

theorem joinC_mem {sep : Char} : ∀ {chunks : List (List Char)} {c : Char},
    c ∈ joinC sep chunks → c = sep ∨ ∃ ch ∈ chunks, c ∈ ch := by
  intro chunks
  induction chunks with
  | nil => intro c h; simp [joinC] at h
  | cons x xs ih =>
    intro c h
    match xs with
    | [] =>
      right
      exact ⟨x, by simp, h⟩
    | y :: ys =>
      rw [show joinC sep (x :: y :: ys) = x ++ sep :: joinC sep (y :: ys) from rfl] at h
      rcases List.mem_append.mp h with h | h
      · right; exact ⟨x, by simp, h⟩
      · rcases List.mem_cons.mp h with h | h
        · left; exact h
        · rcases ih h with h | ⟨ch, hch, hc⟩
          · left; exact h
          · right; exact ⟨ch, List.mem_cons_of_mem x hch, hc⟩

/-! ## `parse_qs (urlencode d) = d` and idempotence of query cleaning -/

/-- Flatten a grouped dict back to its pair list. -/
def ungroup (d : List (List Char × List (List Char))) : List (List Char × List Char) :=
  d.flatMap fun kv => kv.2.map fun v => (kv.1, v)

/-- The chunk list underlying `urlencodeQs`. -/
def encChunks (d : List (List Char × List (List Char))) : List (List Char) :=
  d.flatMap fun kv => kv.2.map fun v => quotePlusL kv.1 ++ '=' :: quotePlusL v

theorem urlencodeQs_eq_join (d : List (List Char × List (List Char))) :
    urlencodeQs d = joinC '&' (encChunks d) := rfl

theorem encChunks_mem {d : List (List Char × List (List Char))} {ch : List Char}
    (h : ch ∈ encChunks d) :
    ∃ kv ∈ d, ∃ v ∈ kv.2, ch = quotePlusL kv.1 ++ '=' :: quotePlusL v := by
  obtain ⟨kv, hkv, hch⟩ := List.mem_flatMap.mp h
  obtain ⟨v, hv, he⟩ := List.mem_map.mp hch
  exact ⟨kv, hkv, v, hv, he.symm⟩

theorem encChunk_no_amp {k v : List Char} : '&' ∉ quotePlusL k ++ '=' :: quotePlusL v := by
  intro hmem
  rcases List.mem_append.mp hmem with h | h
  · exact (quotePlus_no_delim k '&' h).2.1 rfl
  · rcases List.mem_cons.mp h with h | h
    · exact absurd h.symm (by decide)
    · exact (quotePlus_no_delim v '&' h).2.1 rfl

theorem chunk_parse {k v : List Char} (hv : v ≠ []) :
    (if (quotePlusL k ++ '=' :: quotePlusL v) = [] then none
     else
       match pySplitFirst '=' (quotePlusL k ++ '=' :: quotePlusL v) with
       | (_, none) => none
       | (name, some value) =>
         if value = [] then none
         else some (unquotePlusL name, unquotePlusL value))
      = some (k, v) := by
  rw [if_neg (by simp)]
  rw [pySplitFirst_eq_some _ (fun hm => (quotePlus_no_delim k '=' hm).1 rfl)]
  dsimp only
  rw [if_neg (quotePlus_ne_nil hv)]
  rw [unquotePlus_quotePlus, unquotePlus_quotePlus]

theorem parseQsl_nil : parseQsl [] = [] := rfl

theorem filterMap_eq_map_of_some {α β : Type} (f : α → Option β) (g : α → β)
    (l : List α) (h : ∀ a ∈ l, f a = some (g a)) : l.filterMap f = l.map g := by
  induction l with
  | nil => rfl
  | cons x xs ih =>
    rw [List.filterMap_cons, h x (by simp)]
    rw [List.map_cons, ih (fun a ha => h a (List.mem_cons_of_mem x ha))]

/-- Parsing an encoded dict recovers its pair list. -/
theorem parseQsl_urlencodeQs (d : List (List Char × List (List Char)))
    (hvals : ∀ kv ∈ d, kv.2 ≠ []) (hv : ∀ kv ∈ d, ∀ v ∈ kv.2, v ≠ []) :
    parseQsl (urlencodeQs d) = ungroup d := by
  rcases hcs : encChunks d with _ | ⟨c0, cs⟩
  · have hd : d = [] := by
      rcases d with _ | ⟨kv, rest⟩
      · rfl
      · exfalso
        have h2 := hvals kv (by simp)
        obtain ⟨v, vt, hv2⟩ := List.exists_cons_of_ne_nil h2
        have : (quotePlusL kv.1 ++ '=' :: quotePlusL v) ∈ encChunks (kv :: rest) := by
          apply List.mem_flatMap.mpr
          exact ⟨kv, by simp, List.mem_map.mpr ⟨v, by rw [hv2]; simp, rfl⟩⟩
        rw [hcs] at this
        simp at this
    subst hd
    rfl
  · unfold parseQsl
    rw [urlencodeQs_eq_join, hcs, splitOnC_joinC (by simp)
      (fun ch hch => by
        obtain ⟨kv, _, v, _, he⟩ := encChunks_mem (hcs ▸ hch)
        rw [he]
        exact encChunk_no_amp)]
    rw [← hcs]
    unfold encChunks ungroup
    rw [List.filterMap_flatMap]
    apply List.flatMap_congr
    intro kv hkv
    rw [List.filterMap_map]
    exact filterMap_eq_map_of_some _ _ kv.2 (fun v hvv => chunk_parse (hv kv hkv v hvv))

/-! ### Grouping: `foldl addPair` reconstructs a grouped dict -/

/-- Absorbing a run of pairs with the same key into the last entry. -/
theorem foldl_addPair_run (k : List Char) : ∀ (vs : List (List Char))
    (pre : List (List Char × List (List Char))) (vs0 : List (List Char)),
    (∀ e ∈ pre, e.1 ≠ k) →
    List.foldl addPair (pre ++ [(k, vs0)]) (vs.map fun v => (k, v))
      = pre ++ [(k, vs0 ++ vs)] := by
  intro vs
  induction vs with
  | nil => intro pre vs0 _; simp
  | cons v vt ih =>
    intro pre vs0 hpre
    rw [List.map_cons, List.foldl_cons]
    have hstep : addPair (pre ++ [(k, vs0)]) (k, v) = pre ++ [(k, vs0 ++ [v])] := by
      unfold addPair
      rw [if_pos (by simp)]
      rw [List.map_append]
      congr 1
      · have : List.map (fun e => if e.1 = (k, v).1 then (e.1, e.2 ++ [(k, v).2]) else e)
            pre = List.map id pre := by
          apply List.map_congr_left
          intro e he
          simp [hpre e he]
        rw [this, List.map_id]
      · simp
    rw [hstep, ih pre (vs0 ++ [v]) hpre]
    simp

/-- `foldl addPair` over an ungrouped dict with pairwise-distinct keys and
non-empty value lists rebuilds the dict. -/
theorem foldl_addPair_ungroup : ∀ (d : List (List Char × List (List Char)))
    (acc : List (List Char × List (List Char))),
    List.Pairwise (fun a b => a.1 ≠ b.1) d →
    (∀ kv ∈ d, kv.2 ≠ []) →
    (∀ e ∈ acc, ∀ kv ∈ d, e.1 ≠ kv.1) →
    List.foldl addPair acc (ungroup d) = acc ++ d := by
  intro d
  induction d with
  | nil => intro acc _ _ _; simp [ungroup]
  | cons kv rest ih =>
    intro acc hpw hvals hdisj
    obtain ⟨v, vt, hv⟩ := List.exists_cons_of_ne_nil (hvals kv (by simp))
    rw [show ungroup (kv :: rest) = (kv.2.map fun v => (kv.1, v)) ++ ungroup rest from by
      simp [ungroup]]
    rw [List.foldl_append]
    have hrun : List.foldl addPair acc (kv.2.map fun v => (kv.1, v))
        = acc ++ [(kv.1, kv.2)] := by
      rw [hv, List.map_cons, List.foldl_cons]
      have hstep : addPair acc (kv.1, v) = acc ++ [(kv.1, [v])] := by
        unfold addPair
        rw [if_neg]
        simp only [List.any_eq_true, decide_eq_true_eq, not_exists, not_and]
        intro e he
        exact hdisj e he kv (by simp)
      rw [hstep, foldl_addPair_run kv.1 vt acc [v]
        (fun e he => hdisj e he kv (by simp))]
      simp only [List.singleton_append]
    rw [hrun]
    have hrest := ih (acc ++ [(kv.1, kv.2)]) (List.Pairwise.sublist (by simp) hpw)
      (fun e he => hvals e (List.mem_cons_of_mem kv he))
      (by
        intro e he kv2 hkv2
        rcases List.mem_append.mp he with h | h
        · exact hdisj e h kv2 (List.mem_cons_of_mem kv hkv2)
        · simp at h
          rw [h]
          exact (List.pairwise_cons.mp hpw).1 kv2 hkv2)
    rw [hrest]
    simp

/-! ### Invariants of `parse_qs` -/

theorem parseQsl_snd_ne_nil (q : List Char) : ∀ p ∈ parseQsl q, p.2 ≠ [] := by
  intro p hp
  unfold parseQsl at hp
  obtain ⟨chunk, _, hmem⟩ := List.mem_filterMap.mp hp
  by_cases hc : chunk = []
  · rw [if_pos hc] at hmem
    exact absurd hmem (by simp)
  · rw [if_neg hc] at hmem
    rcases he : pySplitFirst '=' chunk with ⟨a, _ | b⟩ <;> rw [he] at hmem <;>
      dsimp only at hmem
    · exact absurd hmem (by simp)
    · by_cases hb : b = []
      · rw [if_pos hb] at hmem
        exact absurd hmem (by simp)
      · rw [if_neg hb] at hmem
        have := Option.some.inj hmem
        rw [← this]
        exact unquotePlus_ne_nil hb

theorem foldl_addPair_keys_pairwise (ps : List (List Char × List Char)) :
    ∀ acc, List.Pairwise (fun a b => a.1 ≠ b.1) acc →
    List.Pairwise (fun a b => a.1 ≠ b.1) (List.foldl addPair acc ps) := by
  induction ps with
  | nil => intro acc h; exact h
  | cons p pt ih =>
    intro acc h
    rw [List.foldl_cons]
    apply ih
    unfold addPair
    split_ifs with hany
    · have hfst : ∀ e : List Char × List (List Char),
          (if e.1 = p.1 then (e.1, e.2 ++ [p.2]) else e).1 = e.1 := by
        intro e
        split_ifs <;> rfl
      refine List.Pairwise.map _ (fun a b hab => ?_) h
      rw [hfst a, hfst b]
      exact hab
    · rw [List.pairwise_append]
      refine ⟨h, by simp, ?_⟩
      intro e he e2 he2
      simp at he2
      rw [he2]
      simp only [List.any_eq_true, decide_eq_true_eq, not_exists, not_and] at hany
      exact hany e he
    
theorem foldl_addPair_vals (ps : List (List Char × List Char))
    (hps : ∀ p ∈ ps, p.2 ≠ []) :
    ∀ acc, (∀ kv ∈ acc, kv.2 ≠ [] ∧ ∀ v ∈ kv.2, v ≠ []) →
    ∀ kv ∈ List.foldl addPair acc ps, kv.2 ≠ [] ∧ ∀ v ∈ kv.2, v ≠ [] := by
  induction ps with
  | nil => intro acc h; exact h
  | cons p pt ih =>
    intro acc h
    rw [List.foldl_cons]
    apply ih (fun x hx => hps x (List.mem_cons_of_mem p hx))
    intro kv hkv
    unfold addPair at hkv
    split_ifs at hkv with hany
    · obtain ⟨e, he, hekv⟩ := List.mem_map.mp hkv
      split_ifs at hekv
      · rw [← hekv]
        refine ⟨by simp, ?_⟩
        intro v hv
        rcases List.mem_append.mp hv with hvv | hvv
        · exact (h e he).2 v hvv
        · simp at hvv
          rw [hvv]
          exact hps p (by simp)
      · rw [← hekv]
        exact h e he
    · rcases List.mem_append.mp hkv with hvv | hvv
      · exact h kv hvv
      · simp at hvv
        rw [hvv]
        refine ⟨by simp, ?_⟩
        intro v hv
        simp at hv
        rw [hv]
        exact hps p (by simp)

/-- Idempotence of query-string cleaning. -/
theorem cleanQuery_idem (q : List Char) : cleanQueryL (cleanQueryL q) = cleanQueryL q := by
  have hpw : List.Pairwise (fun a b => a.1 ≠ b.1)
      (cleanParams (parse_qs q)) :=
    List.Pairwise.sublist (List.filter_sublist _)
      (foldl_addPair_keys_pairwise (parseQsl q) [] (by simp))
  have hvals : ∀ kv ∈ cleanParams (parse_qs q), kv.2 ≠ [] ∧ ∀ v ∈ kv.2, v ≠ [] := by
    intro kv hkv
    have hsub : kv ∈ parse_qs q := List.mem_of_mem_filter hkv
    exact foldl_addPair_vals (parseQsl q) (parseQsl_snd_ne_nil q) [] (by simp) kv hsub
  show urlencodeQs (cleanParams (parse_qs (cleanQueryL q))) = cleanQueryL q
  rw [show parse_qs (cleanQueryL q)
      = (parseQsl (urlencodeQs (cleanParams (parse_qs q)))).foldl addPair [] from rfl]
  rw [parseQsl_urlencodeQs _ (fun kv hkv => (hvals kv hkv).1)
    (fun kv hkv => (hvals kv hkv).2)]
  rw [foldl_addPair_ungroup _ [] hpw (fun kv hkv => (hvals kv hkv).1) (by simp)]
  rw [List.nil_append]
  have hfix : cleanParams (cleanParams (parse_qs q)) = cleanParams (parse_qs q) := by
    unfold cleanParams
    apply List.filter_eq_self.mpr
    intro a ha
    exact (List.mem_filter.mp ha).2
  rw [hfix]
  rfl

/-! ## Reparsing a reassembled URL -/

theorem char_eq_iff {a b : Char} : a = b ↔ a.toNat = b.toNat :=
  ⟨fun h => h ▸ rfl, fun h => Char.ext (UInt32.ext h)⟩

theorem takeWhile_append_all {p : Char → Bool} : ∀ {a : List Char} (r : List Char),
    (∀ c ∈ a, p c = true) → (a ++ r).takeWhile p = a ++ r.takeWhile p := by
  intro a
  induction a with
  | nil => intro r _; simp
  | cons c cs ih =>
    intro r h
    rw [List.cons_append, List.takeWhile_cons, if_pos (h c (by simp)), List.cons_append,
      ih r (fun x hx => h x (List.mem_cons_of_mem c hx))]

theorem dropWhile_append_all {p : Char → Bool} : ∀ {a : List Char} (r : List Char),
    (∀ c ∈ a, p c = true) → (a ++ r).dropWhile p = r.dropWhile p := by
  intro a
  induction a with
  | nil => intro r _; simp
  | cons c cs ih =>
    intro r h
    rw [List.cons_append, List.dropWhile_cons, if_pos (h c (by simp)),
      ih r (fun x hx => h x (List.mem_cons_of_mem c hx))]

theorem takeWhile_head_false {p : Char → Bool} {l : List Char}
    (h : l = [] ∨ p (l.headD 'x') = false) : l.takeWhile p = [] := by
  rcases l with _ | ⟨c, cs⟩
  · simp
  · rcases h with h | h
    · exact absurd h (by simp)
    · rw [List.takeWhile_cons, if_neg (by simp_all)]

theorem dropWhile_head_false {p : Char → Bool} {l : List Char}
    (h : l = [] ∨ p (l.headD 'x') = false) : l.dropWhile p = l := by
  rcases l with _ | ⟨c, cs⟩
  · simp
  · rcases h with h | h
    · exact absurd h (by simp)
    · rw [List.dropWhile_cons, if_neg (by simp_all)]

theorem dropWhile_head_not {p : Char → Bool} : ∀ {l : List Char},
    l.dropWhile p ≠ [] → p ((l.dropWhile p).headD 'x') = false := by
  intro l
  induction l with
  | nil => intro h; exact absurd rfl h
  | cons c cs ih =>
    intro h
    rw [List.dropWhile_cons] at h ⊢
    split_ifs with hc
    · exact ih (by simp_all)
    · simpa using hc

/-! ### Character-class facts -/

/-- The whitespace predicate removed by `urlsplit`. -/
def isUrlWs (c : Char) : Prop := c = '\t' ∨ c = '\r' ∨ c = '\n'

theorem isUrlWs_toNat {c : Char} (h : isUrlWs c) :
    c.toNat = 9 ∨ c.toNat = 13 ∨ c.toNat = 10 := by
  rcases h with h | h | h <;> rw [h] <;> simp

theorem not_isUrlWs_of_toNat {c : Char}
    (h : c.toNat ≠ 9 ∧ c.toNat ≠ 13 ∧ c.toNat ≠ 10) : ¬ isUrlWs c := by
  intro hw
  rcases isUrlWs_toNat hw with h2 | h2 | h2 <;> simp [h2] at h

theorem schemeChar_toNat {c : Char} (h : isSchemeCharB c = true) :
    (97 ≤ c.toNat ∧ c.toNat ≤ 122) ∨ (65 ≤ c.toNat ∧ c.toNat ≤ 90)
      ∨ (48 ≤ c.toNat ∧ c.toNat ≤ 57) ∨ c.toNat = 43 ∨ c.toNat = 45 ∨ c.toNat = 46 := by
  simp only [isSchemeCharB, isAsciiAlphaB, Bool.or_eq_true, decide_eq_true_eq] at h
  tauto

/-- Characters that can occur in a cleaned (re-encoded) query string. -/
def QueryChar (c : Char) : Prop :=
  c.toNat = 61 ∨ c.toNat = 38 ∨ c.toNat = 43 ∨ c.toNat = 37
    ∨ (isSafeByte c.toNat = true ∧ c.toNat < 128)

theorem queryChar_toNat {c : Char} (h : QueryChar c) :
    c.toNat = 61 ∨ c.toNat = 38 ∨ c.toNat = 43 ∨ c.toNat = 37
      ∨ (48 ≤ c.toNat ∧ c.toNat ≤ 57) ∨ (65 ≤ c.toNat ∧ c.toNat ≤ 90)
      ∨ (97 ≤ c.toNat ∧ c.toNat ≤ 122)
      ∨ c.toNat = 95 ∨ c.toNat = 46 ∨ c.toNat = 45 ∨ c.toNat = 126 := by
  rcases h with h | h | h | h | ⟨hs, _⟩
  · tauto
  · tauto
  · tauto
  · tauto
  · simp only [isSafeByte, decide_eq_true_eq] at hs
    tauto

theorem urlencodeQs_queryChar (d : List (List Char × List (List Char))) :
    ∀ c ∈ urlencodeQs d, QueryChar c := by
  intro c hc
  rw [urlencodeQs_eq_join] at hc
  rcases joinC_mem hc with h | ⟨ch, hch, hcch⟩
  · right; left
    rw [h]
    rfl
  · obtain ⟨kv, _, v, _, he⟩ := encChunks_mem hch
    rw [he] at hcch
    rcases List.mem_append.mp hcch with h | h
    · rcases quotePlus_mem _ c h with h | h | h
      · right; right; left; rw [h]; rfl
      · right; right; right; left; rw [h]; rfl
      · right; right; right; right; exact h
    · rcases List.mem_cons.mp h with h | h
      · left; rw [h]; rfl
      · rcases quotePlus_mem _ c h with h | h | h
        · right; right; left; rw [h]; rfl
        · right; right; right; left; rw [h]; rfl
        · right; right; right; right; exact h

/-! ### Component lemmas for `urlsplitL` -/

theorem splitSchemePart_valid {s : List Char} (rest : List Char) (hne : s ≠ [])
    (hhead : isAsciiAlphaB (s.headD ' ') = true) (hall : s.all isSchemeCharB = true)
    (hlow : pyLower s = s) : splitSchemePart (s ++ ':' :: rest) = (s, rest) := by
  have hcolon : ':' ∉ s := by
    intro hm
    have := List.all_eq_true.mp hall _ hm
    exact absurd this (by decide)
  unfold splitSchemePart
  rw [pySplitFirst_eq_some rest hcolon]
  dsimp only
  rw [if_pos ⟨hne, hhead, hall⟩]
  rw [hlow]

theorem splitSchemePart_head_notalpha {l : List Char}
    (h : isAsciiAlphaB (l.headD ' ') = false) : splitSchemePart l = ([], l) := by
  unfold splitSchemePart
  rcases he : pySplitFirst ':' l with ⟨a, _ | b⟩
  · rfl
  · dsimp only
    obtain ⟨hl, hna⟩ := pySplitFirst_some_inv he
    rcases a with _ | ⟨c, t⟩
    · rw [if_neg (by simp)]
    · rw [if_neg]
      intro hcon
      have : l.headD ' ' = c := by rw [hl]; rfl
      rw [this] at h
      exact absurd hcon.2.1 (by simp [h])

theorem splitSchemePart_invalid {l pre rest : List Char}
    (he : pySplitFirst ':' l = (pre, some rest))
    (h : ¬(pre ≠ [] ∧ isAsciiAlphaB (pre.headD ' ') = true ∧ pre.all isSchemeCharB = true)) :
    splitSchemePart l = ([], l) := by
  unfold splitSchemePart
  rw [he]
  dsimp only
  rw [if_neg h]

theorem splitSchemePart_nocolon {l : List Char} (h : ':' ∉ l) :
    splitSchemePart l = ([], l) := by
  unfold splitSchemePart
  rw [pySplitFirst_eq_none h]

theorem splitNetlocPart_slashes {n rest : List Char}
    (hn : ∀ c ∈ n, isNetlocDelim c = false)
    (hrest : rest = [] ∨ isNetlocDelim (rest.headD 'x') = true) :
    splitNetlocPart ('/' :: '/' :: (n ++ rest)) = (n, rest) := by
  unfold splitNetlocPart
  rw [if_pos (by simp)]
  have hdrop : ('/' :: '/' :: (n ++ rest)).drop 2 = n ++ rest := rfl
  rw [hdrop]
  have hp : ∀ c ∈ n, (fun c => ¬ isNetlocDelim c : Char → Bool) c = true := by
    intro c hc
    simp [hn c hc]
  have hrest' : rest = [] ∨ (fun c => ¬ isNetlocDelim c : Char → Bool) (rest.headD 'x') = false := by
    rcases hrest with h | h
    · left; exact h
    · right
      show (decide ¬(isNetlocDelim (rest.headD 'x') = true)) = false
      rw [h]
      simp
  rw [takeWhile_append_all rest hp, dropWhile_append_all rest hp]
  rw [takeWhile_head_false hrest', dropWhile_head_false hrest']
  simp

theorem splitNetlocPart_no {l : List Char} (h : l.take 2 ≠ ['/', '/']) :
    splitNetlocPart l = ([], l) := by
  unfold splitNetlocPart
  rw [if_neg h]

theorem splitAtFirst_absent {sep : Char} {l : List Char} (h : sep ∉ l) :
    splitAtFirst sep l = (l, []) := by
  unfold splitAtFirst
  rw [pySplitFirst_eq_none h]

theorem splitAtFirst_present {sep : Char} {a : List Char} (b : List Char)
    (h : sep ∉ a) : splitAtFirst sep (a ++ sep :: b) = (a, b) := by
  unfold splitAtFirst
  rw [pySplitFirst_eq_some b h]

theorem splitAtFirst_fst_no_sep (sep : Char) (l : List Char) :
    sep ∉ (splitAtFirst sep l).1 := by
  unfold splitAtFirst
  rcases he : pySplitFirst sep l with ⟨a, _ | b⟩
  · exact (pySplitFirst_none_inv he).1 ▸ (pySplitFirst_none_inv he).2
  · exact (pySplitFirst_some_inv he).2

theorem splitAtFirst_fst_pre (sep : Char) (l : List Char) :
    (splitAtFirst sep l).1 <+: l := by
  unfold splitAtFirst
  rcases he : pySplitFirst sep l with ⟨a, _ | b⟩
  · obtain ⟨h1, _⟩ := pySplitFirst_none_inv he
    rw [h1]
  · obtain ⟨h1, _⟩ := pySplitFirst_some_inv he
    exact ⟨sep :: b, h1.symm⟩

theorem splitAtFirst_snd_subset (sep : Char) (l : List Char) :
    ∀ c ∈ (splitAtFirst sep l).2, c ∈ l := by
  unfold splitAtFirst
  rcases he : pySplitFirst sep l with ⟨a, _ | b⟩
  · simp
  · obtain ⟨h1, _⟩ := pySplitFirst_some_inv he
    intro c hc
    rw [h1]
    simp [hc]

theorem splitAtFirst_fst_head {sep : Char} {l : List Char} (hl : l ≠ [])
    (hh : l.headD ' ' ≠ sep) :
    (splitAtFirst sep l).1 ≠ [] ∧ (splitAtFirst sep l).1.headD ' ' = l.headD ' ' := by
  unfold splitAtFirst
  rcases he : pySplitFirst sep l with ⟨a, _ | b⟩
  · obtain ⟨h1, _⟩ := pySplitFirst_none_inv he
    rw [h1]
    exact ⟨hl, rfl⟩
  · obtain ⟨h1, _⟩ := pySplitFirst_some_inv he
    rcases a with _ | ⟨c, t⟩
    · exfalso
      apply hh
      rw [h1]
      rfl
    · refine ⟨by simp, ?_⟩
      rw [h1]
      rfl

theorem splitAtFirst_fst_of_head_sep {sep : Char} {t : List Char} :
    (splitAtFirst sep (sep :: t)).1 = [] := by
  unfold splitAtFirst
  rw [show (sep :: t) = [] ++ sep :: t from rfl, pySplitFirst_eq_some t (by simp)]

theorem splitSchemePart_snd_subset (l : List Char) :
    ∀ c ∈ (splitSchemePart l).2, c ∈ l := by
  unfold splitSchemePart
  rcases he : pySplitFirst ':' l with ⟨a, _ | b⟩
  · simp
  · dsimp only
    obtain ⟨h1, _⟩ := pySplitFirst_some_inv he
    split_ifs
    · intro c hc
      rw [h1]
      simp [hc]
    · simp

theorem splitNetlocPart_snd_subset (l : List Char) :
    ∀ c ∈ (splitNetlocPart l).2, c ∈ l := by
  unfold splitNetlocPart
  split_ifs
  · intro c hc
    simp only at hc
    have h1 : c ∈ l.drop 2 := (List.dropWhile_sublist _).subset hc
    exact (List.drop_sublist 2 l).subset h1
  · simp

theorem splitNetlocPart_fst_delimfree (l : List Char) :
    ∀ c ∈ (splitNetlocPart l).1, isNetlocDelim c = false := by
  unfold splitNetlocPart
  split_ifs
  · intro c hc
    simp only at hc
    have := List.mem_takeWhile_imp hc
    simpa using this
  · simp

/-! ### The unsplit–resplit fixed point -/

theorem filter_ws_noop {l : List Char}
    (h : ∀ c ∈ l, c.toNat ≠ 9 ∧ c.toNat ≠ 13 ∧ c.toNat ≠ 10) :
    l.filter (fun c => ¬ (c = '\t' ∨ c = '\r' ∨ c = '\n')) = l := by
  apply List.filter_eq_self.mpr
  intro c hc
  obtain ⟨h9, h13, h10⟩ := h c hc
  simp only [decide_eq_true_eq]
  intro hcon
  rcases hcon with hx | hx | hx <;> rw [char_eq_iff] at hx <;> simp_all

theorem lstrip_noop {l : List Char} (h : l = [] ∨ 0x20 < (l.headD ' ').toNat) :
    l.dropWhile (fun c => c.toNat ≤ 0x20) = l := by
  rcases l with _ | ⟨c, t⟩
  · simp
  · rcases h with h | h
    · exact absurd h (by simp)
    · have hc : (c :: t).headD ' ' = c := rfl
      rw [hc] at h
      rw [List.dropWhile_cons, if_neg (by simp only [decide_eq_true_eq]; omega)]

theorem pySplitFirst_mem_some {sep : Char} {l : List Char} (h : sep ∈ l) :
    ∃ a b, pySplitFirst sep l = (a, some b) := by
  rcases he : pySplitFirst sep l with ⟨a, _ | b⟩
  · exact absurd h (pySplitFirst_none_inv he).2
  · exact ⟨a, b, rfl⟩

theorem scheme_mem_facts {s : List Char} (hall : s.all isSchemeCharB = true) :
    ∀ c ∈ s, c.toNat ≠ 9 ∧ c.toNat ≠ 13 ∧ c.toNat ≠ 10 ∧ 0x20 < c.toNat := by
  intro c hc
  rcases schemeChar_toNat (List.all_eq_true.mp hall _ hc) with h | h | h | h | h | h <;> omega

theorem query_mem_facts {q : List Char} (hq : ∀ c ∈ q, QueryChar c) :
    ∀ c ∈ q, c.toNat ≠ 9 ∧ c.toNat ≠ 13 ∧ c.toNat ≠ 10 ∧ 0x20 < c.toNat
      ∧ c.toNat ≠ 35 ∧ c.toNat ≠ 63 ∧ c.toNat ≠ 58 := by
  intro c hc
  rcases queryChar_toNat (hq c hc) with h | h | h | h | h | h | h | h | h | h | h <;> omega

theorem query_no_hash {q : List Char} (hq : ∀ c ∈ q, QueryChar c) : '#' ∉ q := by
  intro h
  have := (query_mem_facts hq _ h).2.2.2.2.1
  exact this rfl

theorem query_no_qmark {q : List Char} (hq : ∀ c ∈ q, QueryChar c) : '?' ∉ q := by
  intro h
  have := (query_mem_facts hq _ h).2.2.2.2.2.1
  exact this rfl

theorem query_no_colon {q : List Char} (hq : ∀ c ∈ q, QueryChar c) : ':' ∉ q := by
  intro h
  have := (query_mem_facts hq _ h).2.2.2.2.2.2
  exact this rfl

theorem cleanQuery_nil : cleanQueryL [] = [] := rfl

theorem scheme_nonempty {s : List Char} (hal : isAsciiAlphaB (s.headD ' ') = true) :
    s ≠ [] := by
  intro h
  rw [h] at hal
  exact absurd hal (by decide)

/-- Evaluating `urlunsplitL` on an empty fragment into explicit appends. -/
theorem urlunsplitL_eval (s n pa q : List Char) :
    urlunsplitL ⟨s, n, pa, q, []⟩
      = (if s = [] then [] else s ++ [':'])
        ++ ((if n ≠ [] ∨ (s ≠ [] ∧ usesNetloc.contains s = true ∧ pa.take 2 ≠ ['/', '/'])
            then '/' :: '/' :: (n ++ (if pa ≠ [] ∧ pa.take 1 ≠ ['/'] then '/' :: pa else pa))
            else pa)
          ++ (if q = [] then [] else '?' :: q)) := by
  unfold urlunsplitL
  dsimp only
  rw [if_neg (show ¬(([] : List Char) ≠ []) from by simp)]
  by_cases hs0 : s = [] <;> by_cases hq0 : q = [] <;>
    simp [hs0, hq0, List.append_assoc]

/-- Resplitting `scheme://netloc/path?query`. -/
theorem urlsplit_dslash (s n ppa q Q : List Char)
    (hs : s = [] ∨ (isAsciiAlphaB (s.headD ' ') = true ∧ s.all isSchemeCharB = true
      ∧ pyLower s = s))
    (hn : ∀ c ∈ n, isNetlocDelim c = false)
    (hnws : ∀ c ∈ n, c.toNat ≠ 9 ∧ c.toNat ≠ 13 ∧ c.toNat ≠ 10)
    (hppaws : ∀ c ∈ ppa, c.toNat ≠ 9 ∧ c.toNat ≠ 13 ∧ c.toNat ≠ 10)
    (hppah : ppa = [] ∨ ppa.headD ' ' = '/')
    (hhash : '#' ∉ ppa) (hqm : '?' ∉ ppa)
    (hq : ∀ c ∈ q, QueryChar c)
    (hQ : Q = if q = [] then [] else '?' :: q) :
    urlsplitL ((if s = [] then [] else s ++ [':']) ++ ('/' :: '/' :: (n ++ ppa) ++ Q))
      = ⟨s, n, ppa, q, []⟩ := by
  have hwsQ : ∀ c ∈ Q, c.toNat ≠ 9 ∧ c.toNat ≠ 13 ∧ c.toNat ≠ 10 := by
    rw [hQ]
    split_ifs
    · simp
    · intro c hc
      rcases List.mem_cons.mp hc with h2 | h2
      · rw [h2]; exact ⟨by decide, by decide, by decide⟩
      · exact ⟨(query_mem_facts hq c h2).1, (query_mem_facts hq c h2).2.1,
          (query_mem_facts hq c h2).2.2.1⟩
  -- the portion after the scheme marker
  have hrest : ∀ c ∈ '/' :: '/' :: (n ++ ppa) ++ Q,
      c.toNat ≠ 9 ∧ c.toNat ≠ 13 ∧ c.toNat ≠ 10 := by
    intro c hc
    rcases List.mem_cons.mp hc with h2 | h2
    · rw [h2]; exact ⟨by decide, by decide, by decide⟩
    rcases List.mem_cons.mp h2 with h3 | h3
    · rw [h3]; exact ⟨by decide, by decide, by decide⟩
    rcases List.mem_append.mp h3 with h4 | h4
    · rcases List.mem_append.mp h4 with h5 | h5
      · exact hnws c h5
      · exact hppaws c h5
    · exact hwsQ c h4
  have hmid : splitNetlocPart ('/' :: '/' :: (n ++ ppa) ++ Q) = (n, ppa ++ Q) := by
    rw [show '/' :: '/' :: (n ++ ppa) ++ Q = '/' :: '/' :: (n ++ (ppa ++ Q)) from by
      simp [List.append_assoc]]
    apply splitNetlocPart_slashes hn
    rcases hppah with h | h
    · subst h
      simp only [List.nil_append]
      rw [hQ]
      split_ifs with h0
      · left; rfl
      · right
        show isNetlocDelim '?' = true
        decide
    · right
      obtain ⟨c, t, hc⟩ := List.exists_cons_of_ne_nil
        (show ppa ≠ [] from fun hcon => by rw [hcon] at h; exact absurd h (by decide))
      rw [hc]
      rw [hc] at h
      have : c = '/' := h
      rw [show (c :: t ++ Q).headD 'x' = c from rfl, this]
      decide
  have hfrag : splitAtFirst '#' (ppa ++ Q) = (ppa ++ Q, []) := by
    apply splitAtFirst_absent
    intro hcon
    rcases List.mem_append.mp hcon with h | h
    · exact hhash h
    · rw [hQ] at h
      split_ifs at h
      · simp at h
      · rcases List.mem_cons.mp h with h2 | h2
        · exact absurd h2 (by decide)
        · exact query_no_hash hq h2
  have hquery : splitAtFirst '?' (ppa ++ Q) = (ppa, q) := by
    rw [hQ]
    by_cases h0 : q = []
    · rw [if_pos h0, List.append_nil, splitAtFirst_absent hqm, h0]
    · rw [if_neg h0, splitAtFirst_present q hqm]
  by_cases hs0 : s = []
  · rw [if_pos hs0, List.nil_append]
    simp only [urlsplitL]
    have hh : ('/' :: '/' :: (n ++ ppa) ++ Q).headD ' ' = '/' := rfl
    rw [@lstrip_noop ('/' :: '/' :: (n ++ ppa) ++ Q) (Or.inr (by rw [hh]; decide))]
    rw [filter_ws_noop hrest]
    rw [@splitSchemePart_head_notalpha ('/' :: '/' :: (n ++ ppa) ++ Q) (by rw [hh]; decide)]
    simp only [hmid, hfrag, hquery, hs0]
  · rcases hs with hse | ⟨hal, hall, hlow⟩
    · exact absurd hse hs0
    rw [if_neg hs0]
    have hassoc : (s ++ [':']) ++ ('/' :: '/' :: (n ++ ppa) ++ Q)
        = s ++ ':' :: ('/' :: '/' :: (n ++ ppa) ++ Q) := by
      rw [List.append_assoc, List.singleton_append]
    rw [hassoc]
    obtain ⟨c, t, hct⟩ := List.exists_cons_of_ne_nil hs0
    have hhead : (s ++ ':' :: ('/' :: '/' :: (n ++ ppa) ++ Q)).headD ' ' = c := by
      rw [hct]
      rfl
    have hc32 : 0x20 < c.toNat := by
      rw [hct] at hal
      have hc : ((c :: t).headD ' ') = c := rfl
      rw [hc] at hal
      simp only [isAsciiAlphaB, Bool.or_eq_true, decide_eq_true_eq] at hal
      omega
    have hws2 : ∀ x ∈ s ++ ':' :: ('/' :: '/' :: (n ++ ppa) ++ Q),
        x.toNat ≠ 9 ∧ x.toNat ≠ 13 ∧ x.toNat ≠ 10 := by
      intro x hx
      rcases List.mem_append.mp hx with h | h
      · have := scheme_mem_facts hall x h
        exact ⟨this.1, this.2.1, this.2.2.1⟩
      · rcases List.mem_cons.mp h with h2 | h2
        · rw [h2]; exact ⟨by decide, by decide, by decide⟩
        · exact hrest x h2
    simp only [urlsplitL]
    rw [@lstrip_noop (s ++ ':' :: ('/' :: '/' :: (n ++ ppa) ++ Q))
      (Or.inr (by rw [hhead]; exact hc32))]
    rw [filter_ws_noop hws2]
    rw [splitSchemePart_valid _ hs0 hal hall hlow]
    simp only [hmid, hfrag, hquery]

/-- Resplitting `scheme:path?query` with no netloc restored. -/
theorem urlsplit_plain (s pa q Q : List Char)
    (hs : s = [] ∨ (isAsciiAlphaB (s.headD ' ') = true ∧ s.all isSchemeCharB = true
      ∧ pyLower s = s))
    (hpaws : ∀ c ∈ pa, c.toNat ≠ 9 ∧ c.toNat ≠ 13 ∧ c.toNat ≠ 10)
    (hpah : '#' ∉ pa) (hpaq : '?' ∉ pa)
    (hnos : s = [] → ∀ pre rest, pySplitFirst ':' pa = (pre, some rest) →
        ¬(pre ≠ [] ∧ isAsciiAlphaB (pre.headD ' ') = true ∧ pre.all isSchemeCharB = true))
    (hhd : s = [] → pa = [] ∨ 0x20 < (pa.headD ' ').toNat)
    (hpa2 : pa.take 2 ≠ ['/', '/'])
    (hq : ∀ c ∈ q, QueryChar c)
    (hQ : Q = if q = [] then [] else '?' :: q) :
    urlsplitL ((if s = [] then [] else s ++ [':']) ++ (pa ++ Q)) = ⟨s, [], pa, q, []⟩ := by
  have hwsQ : ∀ c ∈ Q, c.toNat ≠ 9 ∧ c.toNat ≠ 13 ∧ c.toNat ≠ 10 := by
    rw [hQ]
    split_ifs
    · simp
    · intro c hc
      rcases List.mem_cons.mp hc with h2 | h2
      · rw [h2]; exact ⟨by decide, by decide, by decide⟩
      · exact ⟨(query_mem_facts hq c h2).1, (query_mem_facts hq c h2).2.1,
          (query_mem_facts hq c h2).2.2.1⟩
  have hrest : ∀ c ∈ pa ++ Q, c.toNat ≠ 9 ∧ c.toNat ≠ 13 ∧ c.toNat ≠ 10 := by
    intro c hc
    rcases List.mem_append.mp hc with h | h
    · exact hpaws c h
    · exact hwsQ c h
  have hkey : (pa ++ Q).take 2 ≠ ['/', '/'] := by
    rcases pa with _ | ⟨c, pt⟩
    · rw [List.nil_append, hQ]
      split_ifs
      · simp
      · intro hcon
        rw [show ('?' :: q).take 2 = '?' :: q.take 1 from rfl] at hcon
        have : ('?' : Char) = '/' := (List.cons.injEq _ _ _ _ ▸ hcon : _ ∧ _).1
        exact absurd this (by decide)
    · rcases pt with _ | ⟨d, t⟩
      · intro hcon
        rw [List.cons_append, List.nil_append,
          show (c :: Q).take 2 = c :: Q.take 1 from rfl] at hcon
        have h2 : Q.take 1 = ['/'] := ((List.cons.injEq _ _ _ _).mp hcon).2
        rw [hQ] at h2
        split_ifs at h2
        · simp at h2
        · rw [show ('?' :: q).take 1 = ['?'] from rfl] at h2
          have : ('?' : Char) = '/' := ((List.cons.injEq _ _ _ _).mp h2).1
          exact absurd this (by decide)
      · intro hcon
        rw [show ((c :: d :: t) ++ Q).take 2 = [c, d] from rfl] at hcon
        exact hpa2 (by rw [show (c :: d :: t).take 2 = [c, d] from rfl]; exact hcon)
  have hmid : splitNetlocPart (pa ++ Q) = ([], pa ++ Q) := splitNetlocPart_no hkey
  have hfrag : splitAtFirst '#' (pa ++ Q) = (pa ++ Q, []) := by
    apply splitAtFirst_absent
    intro hcon
    rcases List.mem_append.mp hcon with h | h
    · exact hpah h
    · rw [hQ] at h
      split_ifs at h
      · simp at h
      · rcases List.mem_cons.mp h with h2 | h2
        · exact absurd h2 (by decide)
        · exact query_no_hash hq h2
  have hquery : splitAtFirst '?' (pa ++ Q) = (pa, q) := by
    rw [hQ]
    by_cases h0 : q = []
    · rw [if_pos h0, List.append_nil, splitAtFirst_absent hpaq, h0]
    · rw [if_neg h0, splitAtFirst_present q hpaq]
  by_cases hs0 : s = []
  · rw [if_pos hs0, List.nil_append]
    have hscheme : splitSchemePart (pa ++ Q) = ([], pa ++ Q) := by
      by_cases hcol : ':' ∈ pa
      · obtain ⟨a, b, hab⟩ := pySplitFirst_mem_some hcol
        obtain ⟨hpa_eq, hna⟩ := pySplitFirst_some_inv hab
        have hsp : pySplitFirst ':' (pa ++ Q) = (a, some (b ++ Q)) := by
          rw [hpa_eq, List.append_assoc, List.cons_append]
          exact pySplitFirst_eq_some _ hna
        exact splitSchemePart_invalid hsp (hnos hs0 a b hab)
      · apply splitSchemePart_nocolon
        intro hcon
        rcases List.mem_append.mp hcon with h | h
        · exact hcol h
        · rw [hQ] at h
          split_ifs at h
          · simp at h
          · rcases List.mem_cons.mp h with h2 | h2
            · exact absurd h2 (by decide)
            · exact query_no_colon hq h2
    have hlst : (pa ++ Q).dropWhile (fun c => c.toNat ≤ 0x20) = pa ++ Q := by
      apply lstrip_noop
      rcases hhd hs0 with h0 | h0
      · subst h0
        rw [List.nil_append, hQ]
        split_ifs
        · left; rfl
        · right
          show (0x20 : Nat) < (('?' : Char)).toNat
          decide
      · right
        obtain ⟨c, t, hct⟩ := List.exists_cons_of_ne_nil
          (show pa ≠ [] from fun hcon => by
            rw [hcon] at h0
            revert h0
            decide)
        rw [hct]
        rw [hct] at h0
        exact h0
    simp only [urlsplitL]
    rw [hlst, filter_ws_noop hrest, hscheme]
    simp only [hmid, hfrag, hquery, hs0]
  · rcases hs with hse | ⟨hal, hall, hlow⟩
    · exact absurd hse hs0
    rw [if_neg hs0]
    have hassoc : (s ++ [':']) ++ (pa ++ Q) = s ++ ':' :: (pa ++ Q) := by
      rw [List.append_assoc, List.singleton_append]
    rw [hassoc]
    obtain ⟨c, t, hct⟩ := List.exists_cons_of_ne_nil hs0
    have hhead : (s ++ ':' :: (pa ++ Q)).headD ' ' = c := by
      rw [hct]
      rfl
    have hc32 : 0x20 < c.toNat := by
      rw [hct] at hal
      have hc : ((c :: t).headD ' ') = c := rfl
      rw [hc] at hal
      simp only [isAsciiAlphaB, Bool.or_eq_true, decide_eq_true_eq] at hal
      omega
    have hws2 : ∀ x ∈ s ++ ':' :: (pa ++ Q),
        x.toNat ≠ 9 ∧ x.toNat ≠ 13 ∧ x.toNat ≠ 10 := by
      intro x hx
      rcases List.mem_append.mp hx with h | h
      · have := scheme_mem_facts hall x h
        exact ⟨this.1, this.2.1, this.2.2.1⟩
      · rcases List.mem_cons.mp h with h2 | h2
        · rw [h2]; exact ⟨by decide, by decide, by decide⟩
        · exact hrest x h2
    simp only [urlsplitL]
    rw [@lstrip_noop (s ++ ':' :: (pa ++ Q)) (Or.inr (by rw [hhead]; exact hc32))]
    rw [filter_ws_noop hws2]
    rw [splitSchemePart_valid _ hs0 hal hall hlow]
    simp only [hmid, hfrag, hquery]

/-- The central fixed-point lemma: re-cleaning an assembled clean URL is the
identity, provided the components came from a parse (the listed invariants)
and the path does not begin with `//` while the netloc is empty (the one
configuration CPython 3.11's `urlunsplit` does not round-trip). -/
theorem cleanUrl_fix (s n pa q : List Char)
    (hs : s = [] ∨ (isAsciiAlphaB (s.headD ' ') = true ∧ s.all isSchemeCharB = true
      ∧ pyLower s = s))
    (hn : ∀ c ∈ n, isNetlocDelim c = false)
    (hnws : ∀ c ∈ n, c.toNat ≠ 9 ∧ c.toNat ≠ 13 ∧ c.toNat ≠ 10)
    (hpaws : ∀ c ∈ pa, c.toNat ≠ 9 ∧ c.toNat ≠ 13 ∧ c.toNat ≠ 10)
    (hpah : '#' ∉ pa) (hpaq : '?' ∉ pa)
    (hnos : s = [] → n = [] → ∀ pre rest, pySplitFirst ':' pa = (pre, some rest) →
        ¬(pre ≠ [] ∧ isAsciiAlphaB (pre.headD ' ') = true ∧ pre.all isSchemeCharB = true))
    (hhd : s = [] → n = [] → pa ≠ [] → 0x20 < (pa.headD ' ').toNat)
    (hq : ∀ c ∈ q, QueryChar c)
    (hqfix : cleanQueryL q = q)
    (hnn : n ≠ [] ∨ pa.take 2 ≠ ['/', '/']) :
    cleanUrlL (urlunsplitL ⟨s, n, pa, q, []⟩) = urlunsplitL ⟨s, n, pa, q, []⟩ := by
  rw [urlunsplitL_eval]
  by_cases hbr : n ≠ [] ∨ (s ≠ [] ∧ usesNetloc.contains s = true ∧ pa.take 2 ≠ ['/', '/'])
  · rw [if_pos hbr]
    set ppa : List Char := if pa ≠ [] ∧ pa.take 1 ≠ ['/'] then '/' :: pa else pa with hppa
    have hppaCases : ppa = '/' :: pa ∨ ppa = pa := by
      rw [hppa]
      split_ifs
      · exact Or.inl rfl
      · exact Or.inr rfl
    have hppaws : ∀ c ∈ ppa, c.toNat ≠ 9 ∧ c.toNat ≠ 13 ∧ c.toNat ≠ 10 := by
      rcases hppaCases with h | h <;> rw [h]
      · intro c hc
        rcases List.mem_cons.mp hc with h2 | h2
        · rw [h2]; exact ⟨by decide, by decide, by decide⟩
        · exact hpaws c h2
      · exact hpaws
    have hppah : ppa = [] ∨ ppa.headD ' ' = '/' := by
      rw [hppa]
      split_ifs with hif
      · right; rfl
      · push_neg at hif
        by_cases h0 : pa = []
        · left; exact h0
        · right
          have ht := hif h0
          obtain ⟨c, t, hct⟩ := List.exists_cons_of_ne_nil h0
          rw [hct] at ht
          rw [hct]
          have hc1 : c = '/' := by
            simpa using congrArg (fun l => l.headD ' ') ht
          rw [show (c :: t).headD ' ' = c from rfl, hc1]
    have hppahash : '#' ∉ ppa := by
      rcases hppaCases with h | h <;> rw [h]
      · intro hc
        rcases List.mem_cons.mp hc with h2 | h2
        · exact absurd h2 (by decide)
        · exact hpah h2
      · exact hpah
    have hppaqm : '?' ∉ ppa := by
      rcases hppaCases with h | h <;> rw [h]
      · intro hc
        rcases List.mem_cons.mp hc with h2 | h2
        · exact absurd h2 (by decide)
        · exact hpaq h2
      · exact hpaq
    have hsplit := urlsplit_dslash s n ppa q (if q = [] then [] else '?' :: q)
      hs hn hnws hppaws hppah hppahash hppaqm hq rfl
    simp only [cleanUrlL, hsplit]
    rw [hqfix, urlunsplitL_eval]
    have hbr2 : n ≠ [] ∨ (s ≠ [] ∧ usesNetloc.contains s = true ∧ ppa.take 2 ≠ ['/', '/']) := by
      rcases hbr with h | ⟨h1, h2, h3⟩
      · exact Or.inl h
      · refine Or.inr ⟨h1, h2, ?_⟩
        rw [hppa]
        split_ifs with hif
        · intro hcon
          rw [show ('/' :: pa).take 2 = '/' :: pa.take 1 from rfl] at hcon
          injection hcon with hc1 hc2
          exact hif.2 hc2
        · exact h3
    have hinner : ¬(ppa ≠ [] ∧ ppa.take 1 ≠ ['/']) := by
      rcases hppah with h | h
      · intro hcon; exact hcon.1 h
      · intro hcon
        apply hcon.2
        obtain ⟨c, t, hct⟩ := List.exists_cons_of_ne_nil hcon.1
        rw [hct] at h
        rw [hct]
        have hc1 : c = '/' := h
        rw [show (c :: t).take 1 = [c] from rfl, hc1]
    rw [if_pos hbr2, if_neg hinner]
  · rw [if_neg hbr]
    have hn0 : n = [] := by
      by_contra hcon
      exact hbr (Or.inl hcon)
    subst hn0
    have hpa2 : pa.take 2 ≠ ['/', '/'] := by
      rcases hnn with h | h
      · exact absurd rfl h
      · exact h
    have hsplit := urlsplit_plain s pa q (if q = [] then [] else '?' :: q)
      hs hpaws hpah hpaq (fun h0 => hnos h0 rfl)
      (fun h0 => by
        by_cases hp0 : pa = []
        · exact Or.inl hp0
        · exact Or.inr (hhd h0 rfl hp0))
      hpa2 hq rfl
    simp only [cleanUrlL, hsplit]
    rw [hqfix, urlunsplitL_eval]
    rw [if_neg hbr]

/-! ### Invariants of `urlsplitL` outputs -/

theorem pyLowerChar_id_small {c : Char} (hlt : c.toNat < 0x401)
    (h : ¬(65 ≤ c.toNat ∧ c.toNat ≤ 90)) : pyLowerChar c = c := by
  have e1 : ('A' : Char).toNat = 65 := rfl
  have e2 : ('Z' : Char).toNat = 90 := rfl
  unfold pyLowerChar
  rw [if_neg (fun hc => h ⟨by rw [← e1]; exact char_le_iff.mp hc.1,
        by rw [← e2]; exact char_le_iff.mp hc.2⟩),
    if_neg (by omega), if_neg (by omega)]

theorem pyLowerChar_upper {c : Char} (h1 : 65 ≤ c.toNat) (h2 : c.toNat ≤ 90) :
    pyLowerChar c = Char.ofNat (c.toNat + 32) := by
  have e1 : ('A' : Char).toNat = 65 := rfl
  have e2 : ('Z' : Char).toNat = 90 := rfl
  unfold pyLowerChar
  rw [if_pos ⟨char_le_iff.mpr (by rw [e1]; omega), char_le_iff.mpr (by rw [e2]; omega)⟩]

theorem schemeChar_of_toNat {c : Char}
    (h : (97 ≤ c.toNat ∧ c.toNat ≤ 122) ∨ (65 ≤ c.toNat ∧ c.toNat ≤ 90)
      ∨ (48 ≤ c.toNat ∧ c.toNat ≤ 57) ∨ c.toNat = 43 ∨ c.toNat = 45 ∨ c.toNat = 46) :
    isSchemeCharB c = true := by
  simp only [isSchemeCharB, isAsciiAlphaB, Bool.or_eq_true, decide_eq_true_eq]
  tauto

theorem pyLowerChar_scheme {c : Char} (h : isSchemeCharB c = true) :
    isSchemeCharB (pyLowerChar c) = true ∧ pyLowerChar (pyLowerChar c) = pyLowerChar c := by
  rcases schemeChar_toNat h with h1 | h1 | h1 | h1 | h1 | h1
  case inr.inl =>
    rw [pyLowerChar_upper h1.1 h1.2]
    have ht : (Char.ofNat (c.toNat + 32)).toNat = c.toNat + 32 :=
      toNat_charOfNat (valid_of_lt_d800 (by omega))
    constructor
    · exact schemeChar_of_toNat (Or.inl (by rw [ht]; omega))
    · exact pyLowerChar_id_small (by rw [ht]; omega) (by rw [ht]; omega)
  all_goals
    have hid : pyLowerChar c = c := pyLowerChar_id_small (by omega) (by omega)
    rw [hid]
    exact ⟨h, hid⟩

theorem pyLowerChar_alpha {c : Char} (h : isAsciiAlphaB c = true) :
    isAsciiAlphaB (pyLowerChar c) = true := by
  simp only [isAsciiAlphaB, Bool.or_eq_true, decide_eq_true_eq] at h
  rcases h with h1 | h1
  · rw [pyLowerChar_id_small (by omega) (by omega)]
    simp only [isAsciiAlphaB, Bool.or_eq_true, decide_eq_true_eq]
    tauto
  · rw [pyLowerChar_upper h1.1 h1.2]
    have ht : (Char.ofNat (c.toNat + 32)).toNat = c.toNat + 32 :=
      toNat_charOfNat (valid_of_lt_d800 (by omega))
    simp only [isAsciiAlphaB, Bool.or_eq_true, decide_eq_true_eq]
    refine Or.inl ⟨?_, ?_⟩ <;> rw [ht] <;> omega

theorem splitSchemePart_fst_inv (l : List Char) :
    (splitSchemePart l).1 = [] ∨
      (isAsciiAlphaB ((splitSchemePart l).1.headD ' ') = true
        ∧ (splitSchemePart l).1.all isSchemeCharB = true
        ∧ pyLower (splitSchemePart l).1 = (splitSchemePart l).1) := by
  unfold splitSchemePart
  rcases he : pySplitFirst ':' l with ⟨a, _ | b⟩
  · simp
  · dsimp only
    split_ifs with hv
    · right
      obtain ⟨hne, hal, hall⟩ := hv
      dsimp only
      obtain ⟨c, t, hct⟩ := List.exists_cons_of_ne_nil hne
      subst hct
      refine ⟨?_, ?_, ?_⟩
      · rw [show pyLower (c :: t) = pyLowerChar c :: pyLower t from rfl,
          show (pyLowerChar c :: pyLower t).headD ' ' = pyLowerChar c from rfl]
        exact pyLowerChar_alpha hal
      · rw [List.all_eq_true] at hall ⊢
        intro x hx
        obtain ⟨y, hy, hxy⟩ := List.mem_map.mp hx
        rw [← hxy]
        exact (pyLowerChar_scheme (hall y hy)).1
      · show List.map pyLowerChar (List.map pyLowerChar (c :: t)) = List.map pyLowerChar (c :: t)
        rw [List.map_map]
        apply List.map_congr_left
        intro x hx
        exact (pyLowerChar_scheme (List.all_eq_true.mp hall x hx)).2
    · simp

theorem splitSchemePart_fst_nil_snd {l : List Char} (h : (splitSchemePart l).1 = []) :
    (splitSchemePart l).2 = l := by
  unfold splitSchemePart at h ⊢
  rcases he : pySplitFirst ':' l with ⟨a, _ | b⟩
  · rfl
  · rw [he] at h
    dsimp only at h ⊢
    split_ifs at h ⊢ with hv
    · exact absurd (List.map_eq_nil_iff.mp h) hv.1
    · rfl

theorem splitSchemePart_fst_nil_nos {l : List Char} (h : (splitSchemePart l).1 = [])
    {pre rest : List Char} (he : pySplitFirst ':' l = (pre, some rest)) :
    ¬(pre ≠ [] ∧ isAsciiAlphaB (pre.headD ' ') = true ∧ pre.all isSchemeCharB = true) := by
  unfold splitSchemePart at h
  rw [he] at h
  dsimp only at h
  split_ifs at h with hv
  · intro hcon
    exact hcon.1 (List.map_eq_nil_iff.mp h)
  · exact hv

theorem splitNetlocPart_fst_subset (l : List Char) :
    ∀ c ∈ (splitNetlocPart l).1, c ∈ l := by
  unfold splitNetlocPart
  split_ifs
  · intro c hc
    simp only at hc
    have h1 : c ∈ l.drop 2 := (List.takeWhile_sublist _).subset hc
    exact (List.drop_sublist 2 l).subset h1
  · simp

theorem splitNetlocPart_yes {l : List Char} (h : l.take 2 = ['/', '/']) :
    (splitNetlocPart l).2 = (l.drop 2).dropWhile (fun c => ¬ isNetlocDelim c) := by
  unfold splitNetlocPart
  rw [if_pos h]

theorem filter_ws_mem {l : List Char} :
    ∀ c ∈ l.filter (fun c => ¬ (c = '\t' ∨ c = '\r' ∨ c = '\n')),
      c.toNat ≠ 9 ∧ c.toNat ≠ 13 ∧ c.toNat ≠ 10 := by
  intro c hc
  have h2 := List.of_mem_filter hc
  simp only [decide_eq_true_eq] at h2
  push_neg at h2
  obtain ⟨h9, h13, h10⟩ := h2
  refine ⟨fun hcon => h9 ?_, fun hcon => h13 ?_, fun hcon => h10 ?_⟩
  · exact char_eq_iff.mpr (by rw [hcon]; rfl)
  · exact char_eq_iff.mpr (by rw [hcon]; rfl)
  · exact char_eq_iff.mpr (by rw [hcon]; rfl)

/-- After a `//` netloc split, the path component is empty or begins with
`/`. -/
theorem path_head_after_netloc {r : List Char} (h2 : r.take 2 = ['/', '/']) :
    (splitAtFirst '?' (splitAtFirst '#' (splitNetlocPart r).2).1).1 = []
      ∨ ((splitAtFirst '?' (splitAtFirst '#' (splitNetlocPart r).2).1).1).headD ' ' = '/' := by
  rw [splitNetlocPart_yes h2]
  rcases hm : (r.drop 2).dropWhile (fun c => ¬ isNetlocDelim c) with _ | ⟨c, t⟩
  · left; rfl
  · have hne : (r.drop 2).dropWhile (fun c => ¬ isNetlocDelim c) ≠ [] := by
      rw [hm]; simp
    have hdel := dropWhile_head_not hne
    rw [hm, show ((c :: t).headD 'x') = c from rfl] at hdel
    have hc3 : c.toNat = 47 ∨ c.toNat = 63 ∨ c.toNat = 35 := by
      simp only [decide_eq_false_iff_not, Decidable.not_not] at hdel
      simp only [isNetlocDelim, Bool.or_eq_true, decide_eq_true_eq] at hdel
      exact hdel
    rcases hc3 with h47 | h63 | h35
    · have hh : (c :: t).headD ' ' ≠ '#' := by
        rw [show (c :: t).headD ' ' = c from rfl]
        intro hcon
        rw [char_eq_iff, h47] at hcon
        exact absurd hcon (by decide)
      obtain ⟨hbne, hbhead⟩ := @splitAtFirst_fst_head '#' (c :: t) (by simp) hh
      have hh2 : (splitAtFirst '#' (c :: t)).1.headD ' ' ≠ '?' := by
        rw [hbhead, show (c :: t).headD ' ' = c from rfl]
        intro hcon
        rw [char_eq_iff, h47] at hcon
        exact absurd hcon (by decide)
      obtain ⟨hpne, hphead⟩ := @splitAtFirst_fst_head '?' _ hbne hh2
      right
      rw [hphead, hbhead, show (c :: t).headD ' ' = c from rfl]
      exact char_eq_iff.mpr (by rw [h47]; rfl)
    · have hcq : c = '?' := char_eq_iff.mpr (by rw [h63]; rfl)
      subst hcq
      obtain ⟨hbne, hbhead⟩ := @splitAtFirst_fst_head '#' ('?' :: t) (by simp)
        (by rw [show ('?' :: t).headD ' ' = '?' from rfl]; decide)
      obtain ⟨d, u, hdu⟩ := List.exists_cons_of_ne_nil hbne
      rw [hdu] at hbhead
      have hd : d = '?' := hbhead
      left
      rw [hdu, hd]
      exact splitAtFirst_fst_of_head_sep
    · have hch : c = '#' := char_eq_iff.mpr (by rw [h35]; rfl)
      subst hch
      left
      rw [splitAtFirst_fst_of_head_sep]
      rfl

/-- The head of the lstripped, unsafe-byte-filtered working string is above
`0x20` whenever it exists. -/
theorem strip_head_gt (l : List Char)
    (h : (l.dropWhile (fun c => c.toNat ≤ 0x20)).filter
        (fun c => ¬ (c = '\t' ∨ c = '\r' ∨ c = '\n')) ≠ []) :
    0x20 < (((l.dropWhile (fun c => c.toNat ≤ 0x20)).filter
        (fun c => ¬ (c = '\t' ∨ c = '\r' ∨ c = '\n'))).headD ' ').toNat := by
  rcases hd : l.dropWhile (fun c => c.toNat ≤ 0x20) with _ | ⟨c, t⟩
  · rw [hd] at h
    exact absurd rfl h
  · have hne : l.dropWhile (fun c => c.toNat ≤ 0x20) ≠ [] := by rw [hd]; simp
    have hp := dropWhile_head_not hne
    rw [hd, show ((c :: t).headD 'x') = c from rfl] at hp
    have hgt : 0x20 < c.toNat := by
      simp only [decide_eq_false_iff_not] at hp
      omega
    have hpc : (decide ¬ (c = '\t' ∨ c = '\r' ∨ c = '\n')) = true := by
      simp only [decide_eq_true_eq]
      intro hcon
      rcases hcon with hx | hx | hx <;> rw [char_eq_iff] at hx <;> simp_all
    rw [hd, List.filter_cons, if_pos hpc, List.headD_cons]
    exact hgt

/-- Idempotence of `cleanUrlL` whenever the parse of the input does not land
in the lossy empty-netloc, `//`-path corner. -/
theorem cleanUrl_idem_of (l : List Char)
    (hside : (urlsplitL l).netloc ≠ [] ∨ (urlsplitL l).path.take 2 ≠ ['/', '/']) :
    cleanUrlL (cleanUrlL l) = cleanUrlL l := by
  set w : List Char := (l.dropWhile (fun c => c.toNat ≤ 0x20)).filter
      (fun c => ¬ (c = '\t' ∨ c = '\r' ∨ c = '\n')) with hw
  set s : List Char := (splitSchemePart w).1 with hsdef
  set r : List Char := (splitSchemePart w).2 with hr
  set n : List Char := (splitNetlocPart r).1 with hndef
  set m : List Char := (splitNetlocPart r).2 with hm
  set bh : List Char := (splitAtFirst '#' m).1 with hbh
  set pa : List Char := (splitAtFirst '?' bh).1 with hpadef
  set q : List Char := (splitAtFirst '?' bh).2 with hqdef
  have hcl : cleanUrlL l = urlunsplitL ⟨s, n, pa, cleanQueryL q, []⟩ := rfl
  have c1 : s = [] ∨ (isAsciiAlphaB (s.headD ' ') = true ∧ s.all isSchemeCharB = true
      ∧ pyLower s = s) := splitSchemePart_fst_inv w
  have c2 : ∀ c ∈ n, isNetlocDelim c = false := splitNetlocPart_fst_delimfree r
  have c3 : ∀ c ∈ n, c.toNat ≠ 9 ∧ c.toNat ≠ 13 ∧ c.toNat ≠ 10 := by
    intro c hc
    exact filter_ws_mem c (splitSchemePart_snd_subset w c (splitNetlocPart_fst_subset r c hc))
  have hpamem : ∀ c ∈ pa, c ∈ w := by
    intro c hc
    have h1 : c ∈ bh := (splitAtFirst_fst_pre '?' bh).subset hc
    have h2 : c ∈ m := (splitAtFirst_fst_pre '#' m).subset h1
    exact splitSchemePart_snd_subset w c (splitNetlocPart_snd_subset r c h2)
  have c4 : ∀ c ∈ pa, c.toNat ≠ 9 ∧ c.toNat ≠ 13 ∧ c.toNat ≠ 10 := by
    intro c hc
    exact filter_ws_mem c (hpamem c hc)
  have c5 : '#' ∉ pa := by
    intro hc
    exact splitAtFirst_fst_no_sep '#' m ((splitAtFirst_fst_pre '?' bh).subset hc)
  have c6 : '?' ∉ pa := splitAtFirst_fst_no_sep '?' bh
  have c7 : s = [] → n = [] → ∀ pre rest, pySplitFirst ':' pa = (pre, some rest) →
      ¬(pre ≠ [] ∧ isAsciiAlphaB (pre.headD ' ') = true ∧ pre.all isSchemeCharB = true) := by
    intro hs0 _ pre rest he hcon
    obtain ⟨hpa_eq, hnpre⟩ := pySplitFirst_some_inv he
    obtain ⟨hpne, hpal, hpall⟩ := hcon
    by_cases hw2 : r.take 2 = ['/', '/']
    · have hph2 : pa = [] ∨ pa.headD ' ' = '/' := path_head_after_netloc hw2
      rcases hph2 with h0 | h0
      · rw [hpa_eq] at h0
        exact absurd h0 (by simp)
      · obtain ⟨e, pt, hept⟩ := List.exists_cons_of_ne_nil hpne
        rw [hpa_eq, hept] at h0
        have he2 : e = '/' := h0
        rw [hept, show ((e :: pt).headD ' ') = e from rfl, he2] at hpal
        exact absurd hpal (by decide)
    · have hs0w : (splitSchemePart w).1 = [] := hs0
      have hmr : m = r := by rw [hm, splitNetlocPart_no hw2]
      have hrw : r = w := splitSchemePart_fst_nil_snd hs0w
      have h1 : pa <+: bh := splitAtFirst_fst_pre '?' bh
      have h2 : bh <+: m := splitAtFirst_fst_pre '#' m
      have hprefix : pa <+: w := by
        rw [← hrw, ← hmr]
        exact h1.trans h2
      obtain ⟨suf, hsuf⟩ := hprefix
      have hwsp : pySplitFirst ':' w = (pre, some (rest ++ suf)) := by
        rw [← hsuf, hpa_eq, List.append_assoc, List.cons_append]
        exact pySplitFirst_eq_some _ hnpre
      exact splitSchemePart_fst_nil_nos hs0w hwsp ⟨hpne, hpal, hpall⟩
  have c8 : s = [] → n = [] → pa ≠ [] → 0x20 < (pa.headD ' ').toNat := by
    intro hs0 _ hpne
    by_cases hw2 : r.take 2 = ['/', '/']
    · have hph2 : pa = [] ∨ pa.headD ' ' = '/' := path_head_after_netloc hw2
      rcases hph2 with h0 | h0
      · exact absurd h0 hpne
      · rw [h0]
        decide
    · have hs0w : (splitSchemePart w).1 = [] := hs0
      have hmr : m = r := by rw [hm, splitNetlocPart_no hw2]
      have hrw : r = w := splitSchemePart_fst_nil_snd hs0w
      have h1 : pa <+: bh := splitAtFirst_fst_pre '?' bh
      have h2 : bh <+: m := splitAtFirst_fst_pre '#' m
      have hprefix : pa <+: w := by
        rw [← hrw, ← hmr]
        exact h1.trans h2
      obtain ⟨suf, hsuf⟩ := hprefix
      obtain ⟨e, pt, hept⟩ := List.exists_cons_of_ne_nil hpne
      have hwne : w ≠ [] := by
        rw [← hsuf, hept]
        simp
      have hgt : 0x20 < (w.headD ' ').toNat := strip_head_gt l hwne
      have hwhead : w.headD ' ' = e := by
        rw [← hsuf, hept]
        rfl
      rw [hept, show ((e :: pt).headD ' ') = e from rfl]
      rw [hwhead] at hgt
      exact hgt
  have c9 : ∀ c ∈ cleanQueryL q, QueryChar c :=
    fun c hc => urlencodeQs_queryChar (cleanParams (parse_qs q)) c hc
  have c10 : cleanQueryL (cleanQueryL q) = cleanQueryL q := cleanQuery_idem q
  have c11 : n ≠ [] ∨ pa.take 2 ≠ ['/', '/'] := hside
  rw [hcl]
  exact cleanUrl_fix s n pa (cleanQueryL q) c1 c2 c3 c4 c5 c6 c7 c8 c9 c10 c11

theorem string_mk_data (l : List Char) : (String.mk l).data = l := rfl

theorem clean_url_eq (u : String) : clean_url u = String.mk (cleanUrlL u.data) := rfl

/-- C6 (amended): `clean_url` is idempotent for every URL whose parse has a
non-empty netloc or whose parsed path does not begin with `//` (the one corner
CPython 3.11's `urlunsplit` does not round-trip), and on a URL carrying
`utm_source`, `fbclid` and a fragment it strips all three while preserving the
scheme, host, path and the non-tracking query parameters. -/
theorem C6_clean_url_idempotent (u : String)
    (h : (urlsplitL u.data).netloc ≠ [] ∨ (urlsplitL u.data).path.take 2 ≠ ['/', '/']) :
    clean_url (clean_url u) = clean_url u
      ∧ clean_url "https://shop.example.com/items/42?id=7&utm_source=nl&fbclid=xyz#frag"
        = "https://shop.example.com/items/42?id=7" := by
  constructor
  · rw [clean_url_eq u, clean_url_eq (String.mk (cleanUrlL u.data)), string_mk_data]
    exact congrArg String.mk (cleanUrl_idem_of u.data h)
  · decide

/-- Witness for C6's amended theorem at a concrete URL. -/
theorem C6_clean_url_idempotent_witness :
    ((urlsplitL ("https://example.com/a?b=1&utm_medium=e" : String).data).netloc ≠ []
      ∨ (urlsplitL ("https://example.com/a?b=1&utm_medium=e" : String).data).path.take 2
        ≠ ['/', '/'])
    ∧ (clean_url (clean_url "https://example.com/a?b=1&utm_medium=e")
        = clean_url "https://example.com/a?b=1&utm_medium=e"
      ∧ clean_url "https://shop.example.com/items/42?id=7&utm_source=nl&fbclid=xyz#frag"
        = "https://shop.example.com/items/42?id=7") :=
  ⟨by decide, C6_clean_url_idempotent "https://example.com/a?b=1&utm_medium=e" (by decide)⟩

/-- C6 counterexample: as literally stated the claim is false on CPython 3.11
semantics — `clean_url` is not idempotent on `"////"` (whose parse has an
empty netloc and a path starting `//`): one pass gives `"//"`, a second pass
gives `""`. -/
theorem C6_clean_url_not_idempotent :
    clean_url (clean_url "////") ≠ clean_url "////"
      ∧ clean_url "////" = "//" ∧ clean_url (clean_url "////") = "" := by
  decide

/-! # The message layer

`config.py` constants, the in-memory stores of `bot/utils/context.py`
(Python dicts modelled as insertion-ordered association lists, `time.time()`
as a `Nat` second count), the message helpers of `bot/utils/helpers.py`, and
the routing logic of `bot/handlers/messages.py`. -/

def RATE_LIMIT_SECONDS : Nat := 5
def CONTEXT_SIZE : Nat := 10
def CONTEXT_MAX_AGE : Nat := 3600
def RATE_LIMIT_MAX_AGE : Nat := 300
def EVICTION_INTERVAL : Nat := 300

/-- Python dict lookup (`d[k]` / `d.get(k)`). -/
def dictGet {α : Type} : List (Nat × α) → Nat → Option α
  | [], _ => none
  | kv :: t, k => if kv.1 = k then some kv.2 else dictGet t k

/-- Python dict assignment `d[k] = v`: update in place when the key exists
(order preserved), append otherwise. -/
def dictSet {α : Type} (d : List (Nat × α)) (k : Nat) (v : α) : List (Nat × α) :=
  if (dictGet d k).isSome
  then d.map (fun kv => if kv.1 = k then (k, v) else kv)
  else d ++ [(k, v)]

/-- `collections.defaultdict` read: a missing key materialises the default
value in the mapping.  Returns the value and the (possibly grown) mapping. -/
def ddGet {α : Type} (default : α) (d : List (Nat × α)) (k : Nat) :
    α × List (Nat × α) :=
  match dictGet d k with
  | some v => (v, d)
  | none => (default, d ++ [(k, default)])

/-- One entry of `chat_context` (the dict literal built by
`add_to_context`). -/
structure CtxEntry where
  role : List Char
  name : List Char
  content : List Char
  time : Nat
deriving DecidableEq

/-- The module-level state of `bot/utils/context.py`: `chat_context`,
`user_last_query` and `_last_eviction`. -/
structure CtxState where
  chat_context : List (Nat × List CtxEntry)
  user_last_query : List (Nat × Nat)
  last_eviction : Nat
deriving DecidableEq

/-- `add_to_context` from `bot/utils/context.py` (acting on the
`chat_context` mapping). -/
def add_to_context (chat_id : Nat) (role name content : List Char) (now : Nat)
    (cc : List (Nat × List CtxEntry)) : List (Nat × List CtxEntry) :=
  let rd := ddGet [] cc chat_id
  let appended := rd.1 ++ [⟨role, name, content.take 500, now⟩]
  let cc2 := dictSet rd.2 chat_id appended
  if CONTEXT_SIZE < appended.length then
    dictSet cc2 chat_id (appended.drop (appended.length - CONTEXT_SIZE))
  else cc2

/-- `msgs[-1].get("time", 0)` on a context list (0 when empty, as in the
eviction guard's `msgs and ...`). -/
def lastEntryTime (msgs : List CtxEntry) : Nat :=
  match msgs.getLast? with
  | some e => e.time
  | none => 0

/-- `evict_stale_data` from `bot/utils/context.py`. -/
def evict_stale_data (now : Nat) (st : CtxState) : CtxState :=
  if now - st.last_eviction < EVICTION_INTERVAL then st
  else
    { chat_context := st.chat_context.filter
        (fun kv => ¬ (kv.2 ≠ [] ∧ CONTEXT_MAX_AGE < now - lastEntryTime kv.2)),
      user_last_query := st.user_last_query.filter
        (fun kv => ¬ (RATE_LIMIT_MAX_AGE < now - kv.2)),
      last_eviction := now }

/-- `check_rate_limit` from `bot/utils/helpers.py`.  The read
`user_last_query[user_id]` goes through the defaultdict, so the (possibly
grown) mapping is part of the result. -/
def check_rate_limit (user_id now : Nat) (ulq : List (Nat × Nat)) :
    (Bool × Nat) × List (Nat × Nat) :=
  let rd := ddGet 0 ulq user_id
  if rd.1 ≠ 0 ∧ now - rd.1 < RATE_LIMIT_SECONDS
  then ((true, RATE_LIMIT_SECONDS - (now - rd.1)), rd.2)
  else ((false, 0), rd.2)

/-- `set_rate_limit` from `bot/utils/helpers.py`. -/
def set_rate_limit (user_id now : Nat) (ulq : List (Nat × Nat)) :
    List (Nat × Nat) :=
  dictSet ulq user_id now

/-- `config.USERNAME_TO_NAME`. -/
def USERNAME_TO_NAME : List (List Char × List Char) :=
  [("Vitalina_Bohaichuk", "Виталина"), ("hramus", "Миша"), ("I_lovet", "Полина"),
   ("Psychonauter", "Миша"), ("wimpex18", "Сергей")].map
    (fun kv => (kv.1.toList, kv.2.toList))

/-- A Telegram user as the handlers read it. -/
structure TgUser where
  id : Nat
  username : Option (List Char)
  first_name : List Char
deriving DecidableEq

/-- The message a `reply_to_message` points at (one level deep is all
`should_respond` inspects). -/
structure TgInnerMsg where
  text : Option (List Char)
  caption : Option (List Char)
  forward_origin : Option Unit
  photo : Option (List Nat)
  from_user : Option TgUser
deriving DecidableEq

/-- A Telegram message as the handlers read it (`chat_type` is
`message.chat.type`). -/
structure TgMessage where
  chat_type : List Char
  text : Option (List Char)
  caption : Option (List Char)
  forward_origin : Option Unit
  photo : Option (List Nat)
  reply_to_message : Option TgInnerMsg
deriving DecidableEq

/-- Python truthiness of an optional string field (`None` and `""` are
falsy). -/
def strTruthy : Option (List Char) → Bool
  | none => false
  | some s => decide (s ≠ [])

/-- `get_message_content` from `bot/utils/helpers.py`. -/
def get_message_content (m : TgMessage) : List Char :=
  if strTruthy m.text then m.text.getD []
  else if strTruthy m.caption then m.caption.getD []
  else []

/-- `is_forwarded_message` from `bot/utils/helpers.py`
(`forward_origin is not None`). -/
def is_forwarded_message (m : TgMessage) : Bool := m.forward_origin.isSome

/-- `has_photo` from `bot/utils/helpers.py`. -/
def has_photo (m : TgMessage) : Bool :=
  m.photo.isSome && decide (0 < (m.photo.getD []).length)

/-- `get_display_name` from `bot/utils/helpers.py`. -/
def get_display_name (u : TgUser) : Option (List Char) :=
  let uname := u.username.getD []
  if uname ≠ [] ∧ (USERNAME_TO_NAME.find? (fun kv => kv.1 = uname)).isSome then
    (USERNAME_TO_NAME.find? (fun kv => kv.1 = uname)).map (fun kv => kv.2)
  else if u.first_name ≠ [] then some u.first_name
  else none

/-- `should_respond` from `bot/handlers/messages.py`.  `.lower()` on
usernames is `pyLower`; `bot_id` is `None` or the id (Python also treats id
0 as falsy). -/
def should_respond (msg : Option TgMessage) (bot_username : List Char)
    (bot_id : Option Nat) : Bool :=
  match msg with
  | none => false
  | some message =>
    let content := get_message_content message
    if content = [] ∧ is_forwarded_message message = false ∧ has_photo message = false then
      false
    else if message.chat_type = "private".toList
        ∧ (content ≠ [] ∨ has_photo message = true) then
      true
    else
      let reply_hit :=
        match message.reply_to_message with
        | some reply =>
          match reply.from_user with
          | some reply_from =>
            if strTruthy reply_from.username
                ∧ pyLower (reply_from.username.getD []) = pyLower bot_username then
              true
            else
              match bot_id with
              | some bid => decide (bid ≠ 0) && decide (reply_from.id = bid)
              | none => false
          | none => false
        | none => false
      if reply_hit then true
      else if content ≠ [] ∧ listContainsSub ('@' :: bot_username) content = true then
        true
      else false

/-- The early path of `handle_message` (`bot/handlers/messages.py` up to the
routing return): eviction, routing, and the context bookkeeping for messages
the bot will not answer.  The boolean tells whether the pipeline continues
past routing. -/
def handle_message_early (message : Option TgMessage) (user : TgUser)
    (chat_id : Nat) (bot_username : List Char) (bot_id : Nat) (now : Nat)
    (st : CtxState) : CtxState × Bool :=
  match message with
  | none => (st, false)
  | some msg =>
    let st1 := evict_stale_data now st
    let user_name := get_display_name user
    let msg_content := get_message_content msg
    if should_respond (some msg) bot_username (some bot_id) = false then
      if msg_content ≠ [] ∧ msg.chat_type ≠ "private".toList then
        let cc2 := add_to_context chat_id "user".toList
          (user_name.getD "user".toList) msg_content now st1.chat_context
        ({ st1 with chat_context := cc2 }, false)
      else (st1, false)
    else (st1, true)

/-- Names defined at module level by `bot/utils/context.py`. -/
def contextModuleDefs : List String :=
  ["chat_context", "user_last_query", "_last_eviction", "add_to_context",
   "get_context_string", "evict_stale_data"]

/-- Names `bot/handlers/messages.py` line 11 imports from
`bot.utils.context`. -/
def messagesContextImportList : List String :=
  ["add_to_context", "get_context_messages", "evict_stale_data"]

/-! ### C3, C9, C10 -/

theorem dictGet_append_none {α : Type} {d : List (Nat × α)} {k : Nat}
    (h : dictGet d k = none) (v : α) : dictGet (d ++ [(k, v)]) k = some v := by
  induction d with
  | nil => simp [dictGet]
  | cons kv t ih =>
    rw [dictGet] at h
    rw [List.cons_append, dictGet]
    by_cases h1 : kv.1 = k
    · rw [if_pos h1] at h
      exact absurd h (by simp)
    · rw [if_neg h1] at h
      rw [if_neg h1]
      exact ih h

/-- C3 (amended): `check_rate_limit` can grow `user_last_query` (the
defaultdict read materialises a `0.0` entry for an unseen id), but it is
stable: a second identical call returns the same result and leaves the
mapping exactly as the first call left it, and no existing entry is ever
changed or removed. -/
theorem C3_check_rate_limit_stable (uid now : Nat) (d : List (Nat × Nat)) :
    (check_rate_limit uid now ((check_rate_limit uid now d).2)).1
        = (check_rate_limit uid now d).1
    ∧ (check_rate_limit uid now ((check_rate_limit uid now d).2)).2
        = (check_rate_limit uid now d).2
    ∧ ∀ k v, (k, v) ∈ d → (k, v) ∈ (check_rate_limit uid now d).2 := by
  rcases hd : dictGet d uid with _ | v
  · have h2 := dictGet_append_none hd (0 : Nat)
    have e1 : check_rate_limit uid now d = ((false, 0), d ++ [(uid, 0)]) := by
      simp only [check_rate_limit, ddGet, hd]
      rw [if_neg (fun hcon => hcon.1 rfl)]
    have e2 : check_rate_limit uid now (d ++ [(uid, 0)])
        = ((false, 0), d ++ [(uid, 0)]) := by
      simp only [check_rate_limit, ddGet, h2]
      rw [if_neg (fun hcon => hcon.1 rfl)]
    rw [e1]
    dsimp only
    rw [e2]
    exact ⟨rfl, rfl, fun k w hkw => List.mem_append_left _ hkw⟩
  · have e1 : check_rate_limit uid now d
        = (if v ≠ 0 ∧ now - v < RATE_LIMIT_SECONDS
           then (true, RATE_LIMIT_SECONDS - (now - v)) else (false, 0), d) := by
      simp only [check_rate_limit, ddGet, hd]
      split_ifs <;> rfl
    rw [e1]
    dsimp only
    rw [e1]
    exact ⟨rfl, rfl, fun k w hkw => hkw⟩

/-- C3 counterexample: `check_rate_limit` is not pure — on an id it has never
seen it inserts a default `0` entry into `user_last_query`. -/
theorem C3_check_rate_limit_mutates :
    (check_rate_limit 7 100 []).2 = [(7, 0)]
      ∧ (check_rate_limit 7 100 []).2 ≠ ([] : List (Nat × Nat)) := by
  decide

/-- C9 (amended): in a private chat `should_respond` is true for every
message with non-empty content or a photo, with no mention or reply-to-bot
required.  (A forwarded-only private message — no text, caption or photo —
is rejected; see the counterexample.) -/
theorem C9_private_content_responds (m : TgMessage) (bu : List Char)
    (bid : Option Nat) (hpriv : m.chat_type = "private".toList)
    (hcontent : get_message_content m ≠ [] ∨ has_photo m = true) :
    should_respond (some m) bu bid = true := by
  have h1 : ¬ (get_message_content m = [] ∧ is_forwarded_message m = false
      ∧ has_photo m = false) := by
    rcases hcontent with h | h
    · intro hcon
      exact h hcon.1
    · intro hcon
      rw [h] at hcon
      exact absurd hcon.2.2 (by decide)
  simp only [should_respond]
  rw [if_neg h1, if_pos ⟨hpriv, hcontent⟩]

/-- Witness for C9's amended theorem: a private text message. -/
theorem C9_private_content_responds_witness :
    ((⟨"private".toList, some "привет".toList, none, none, none, none⟩ :
        TgMessage).chat_type = "private".toList
      ∧ (get_message_content ⟨"private".toList, some "привет".toList, none,
          none, none, none⟩ ≠ []
        ∨ has_photo ⟨"private".toList, some "привет".toList, none, none, none,
            none⟩ = true))
    ∧ should_respond (some ⟨"private".toList, some "привет".toList, none, none,
        none, none⟩) "tallinn_bot".toList (some 42) = true :=
  ⟨⟨by decide, by decide⟩,
    C9_private_content_responds _ "tallinn_bot".toList (some 42) (by decide)
      (by decide)⟩

/-- C9 counterexample: a private message that is forwarded-only (no text, no
caption, no photo) passes the content gate via the forward marker but fails
the private branch, so `should_respond` returns false — contradicting the
claim that a forwarded-post marker suffices in a one-to-one chat. -/
theorem C9_private_forwarded_only_ignored :
    should_respond (some ⟨"private".toList, none, none, some (), none, none⟩)
      "tallinn_bot".toList (some 42) = false := by
  decide

/-- C10: `bot/handlers/messages.py` imports `get_context_messages` from
`bot.utils.context`, but `bot/utils/context.py` defines no such name (only
`chat_context`, `user_last_query`, `_last_eviction`, `add_to_context`,
`get_context_string`, `evict_stale_data`), so the module fails to load. -/
theorem C10_get_context_messages_missing :
    "get_context_messages" ∈ messagesContextImportList
      ∧ "get_context_messages" ∉ contextModuleDefs := by
  decide

/-! ### C2: the context store invariant -/

def lastN {α : Type} (n : Nat) (l : List α) : List α := l.drop (l.length - n)

theorem lastN_of_le {α : Type} {n : Nat} {l : List α} (h : l.length ≤ n) :
    lastN n l = l := by
  unfold lastN
  rw [Nat.sub_eq_zero_of_le h, List.drop_zero]

theorem lastN_length_le {α : Type} (n : Nat) (l : List α) :
    (lastN n l).length ≤ n := by
  unfold lastN
  rw [List.length_drop]
  omega

theorem lastN_append_left {α : Type} (n : Nat) (xs ys : List α) :
    lastN n (lastN n xs ++ ys) = lastN n (xs ++ ys) := by
  unfold lastN
  rw [List.drop_append_eq_append_drop, List.drop_append_eq_append_drop,
    List.drop_drop]
  simp only [List.length_append, List.length_drop]
  congr 1
  · congr 1
    omega
  · congr 1
    omega

theorem dictGet_update_same {α : Type} (d : List (Nat × α)) (k : Nat) (v : α) :
    dictGet (d.map (fun kv => if kv.1 = k then (k, v) else kv)) k
      = (dictGet d k).map (fun _ => v) := by
  induction d with
  | nil => rfl
  | cons kv t ih =>
    by_cases h1 : kv.1 = k
    · simp only [List.map_cons, if_pos h1, dictGet]
      simp
    · simp only [List.map_cons, if_neg h1, dictGet]
      exact ih

theorem dictGet_update_other {α : Type} (d : List (Nat × α)) {k c : Nat}
    (v : α) (h : c ≠ k) :
    dictGet (d.map (fun kv => if kv.1 = k then (k, v) else kv)) c
      = dictGet d c := by
  induction d with
  | nil => rfl
  | cons kv t ih =>
    by_cases h1 : kv.1 = k
    · simp only [List.map_cons, if_pos h1, dictGet]
      rw [if_neg (show ¬ ((k, v).1 = c) from fun hc => h hc.symm),
        if_neg (show ¬ (kv.1 = c) from fun hc => h (h1 ▸ hc).symm)]
      exact ih
    · simp only [List.map_cons, if_neg h1, dictGet]
      by_cases h2 : kv.1 = c
      · rw [if_pos h2, if_pos h2]
      · rw [if_neg h2, if_neg h2]
        exact ih

theorem dictGet_append_other {α : Type} (d : List (Nat × α)) {k c : Nat}
    (v : α) (h : c ≠ k) : dictGet (d ++ [(k, v)]) c = dictGet d c := by
  induction d with
  | nil =>
    show dictGet [(k, v)] c = none
    rw [dictGet, if_neg (show ¬ ((k, v).1 = c) from fun hc => h hc.symm)]
    rfl
  | cons kv t ih =>
    rw [List.cons_append, dictGet, dictGet]
    by_cases h1 : kv.1 = c
    · rw [if_pos h1, if_pos h1]
    · rw [if_neg h1, if_neg h1]
      exact ih

theorem dictGet_dictSet_same {α : Type} (d : List (Nat × α)) (k : Nat) (v : α) :
    dictGet (dictSet d k v) k = some v := by
  unfold dictSet
  rcases hd : dictGet d k with _ | w
  · simp only [Option.isSome_none, Bool.false_eq_true, if_false]
    exact dictGet_append_none hd v
  · simp only [Option.isSome_some, if_true]
    rw [dictGet_update_same, hd]
    rfl

theorem dictGet_dictSet_other {α : Type} (d : List (Nat × α)) {k c : Nat}
    (v : α) (h : c ≠ k) : dictGet (dictSet d k v) c = dictGet d c := by
  unfold dictSet
  split_ifs
  · exact dictGet_update_other d v h
  · exact dictGet_append_other d v h

theorem add_ctx_get_same (a : Nat) (r n co : List Char) (now : Nat)
    (cc : List (Nat × List CtxEntry)) :
    dictGet (add_to_context a r n co now cc) a
      = some (lastN CONTEXT_SIZE (((dictGet cc a).getD [])
          ++ [⟨r, n, co.take 500, now⟩])) := by
  unfold add_to_context ddGet
  rcases hd : dictGet cc a with _ | cur
  · dsimp only
    simp only [Option.getD_none, List.nil_append]
    split_ifs with hlen
    · exact absurd hlen (by simp [CONTEXT_SIZE])
    · rw [dictGet_dictSet_same, lastN_of_le (by simp [CONTEXT_SIZE])]
  · dsimp only
    simp only [Option.getD_some]
    split_ifs with hlen
    · rw [dictGet_dictSet_same]
      rfl
    · rw [dictGet_dictSet_same, lastN_of_le (by omega)]

theorem add_ctx_get_other (a : Nat) {c : Nat} (h : c ≠ a) (r n co : List Char)
    (now : Nat) (cc : List (Nat × List CtxEntry)) :
    dictGet (add_to_context a r n co now cc) c = dictGet cc c := by
  unfold add_to_context ddGet
  rcases hd : dictGet cc a with _ | cur
  · dsimp only
    split_ifs
    · rw [dictGet_dictSet_other _ _ h, dictGet_dictSet_other _ _ h,
        dictGet_append_other _ _ h]
    · rw [dictGet_dictSet_other _ _ h, dictGet_append_other _ _ h]
  · dsimp only
    split_ifs
    · rw [dictGet_dictSet_other _ _ h, dictGet_dictSet_other _ _ h]
    · rw [dictGet_dictSet_other _ _ h]

/-- One `add_to_context(chat, role, name, content)` call (with its
`time.time()` value). -/
structure CtxCall where
  chat : Nat
  role : List Char
  name : List Char
  content : List Char
  time : Nat

/-- The entry a call appends (content truncated to 500 characters). -/
def callEntry (k : CtxCall) : CtxEntry :=
  ⟨k.role, k.name, k.content.take 500, k.time⟩

/-- Run a sequence of `add_to_context` calls against the store. -/
def runCalls (calls : List CtxCall) (cc : List (Nat × List CtxEntry)) :
    List (Nat × List CtxEntry) :=
  calls.foldl
    (fun acc k => add_to_context k.chat k.role k.name k.content k.time acc) cc

theorem runCalls_get (calls : List CtxCall) :
    ∀ (cc : List (Nat × List CtxEntry)) (c : Nat) (s : List CtxEntry),
      (dictGet cc c).getD [] = s → s.length ≤ CONTEXT_SIZE →
      (dictGet (runCalls calls cc) c).getD []
        = lastN CONTEXT_SIZE
            (s ++ (calls.filter (fun k => k.chat = c)).map callEntry) := by
  induction calls with
  | nil =>
    intro cc c s hs hlen
    simp only [runCalls, List.foldl_nil, List.filter_nil, List.map_nil,
      List.append_nil]
    rw [hs, lastN_of_le hlen]
  | cons k ks ih =>
    intro cc c s hs hlen
    rw [show runCalls (k :: ks) cc
        = runCalls ks (add_to_context k.chat k.role k.name k.content k.time cc)
      from rfl]
    by_cases hc : k.chat = c
    · subst hc
      have hstep := add_ctx_get_same k.chat k.role k.name k.content k.time cc
      rw [hs] at hstep
      have happ := ih (add_to_context k.chat k.role k.name k.content k.time cc)
        k.chat (lastN CONTEXT_SIZE (s ++ [callEntry k]))
        (by rw [hstep]; rfl) (lastN_length_le _ _)
      rw [happ, List.filter_cons_of_pos (by simp), List.map_cons,
        lastN_append_left]
      rw [List.append_assoc, List.singleton_append]
    · have hstep := add_ctx_get_other k.chat
        (show c ≠ k.chat from fun hq => hc hq.symm) k.role k.name k.content
        k.time cc
      have happ := ih (add_to_context k.chat k.role k.name k.content k.time cc)
        c s (by rw [hstep]; exact hs) hlen
      rw [happ, List.filter_cons_of_neg (by simpa using hc)]

/-- C2: after any finite sequence of `add_to_context` calls against an empty
store, each conversation's stored list has length at most `CONTEXT_SIZE`,
equals the most recent `CONTEXT_SIZE` of that conversation's appended entries
in append order (oldest dropped first), and every stored content is the
appended text truncated to at most 500 characters. -/
theorem C2_context_store_invariant (calls : List CtxCall) (c : Nat) :
    ((dictGet (runCalls calls []) c).getD []).length ≤ CONTEXT_SIZE
    ∧ (dictGet (runCalls calls []) c).getD []
        = lastN CONTEXT_SIZE ((calls.filter (fun k => k.chat = c)).map callEntry)
    ∧ ∀ e ∈ (dictGet (runCalls calls []) c).getD [],
        e.content.length ≤ 500 := by
  have h := runCalls_get calls [] c [] rfl (by decide)
  rw [List.nil_append] at h
  refine ⟨?_, h, ?_⟩
  · rw [h]
    exact lastN_length_le _ _
  · intro e he
    rw [h] at he
    have h2 : e ∈ (calls.filter (fun k => k.chat = c)).map callEntry :=
      List.drop_subset _ _ he
    obtain ⟨kk, _, hkk⟩ := List.mem_map.mp h2
    rw [← hkk]
    show (kk.content.take 500).length ≤ 500
    rw [List.length_take]
    omega

/-! ### C8: silent group messages still land in the context store -/

theorem lastN_concat_getLast {α : Type} {n : Nat} (hn : 1 ≤ n) (xs : List α)
    (e : α) : (lastN n (xs ++ [e])).getLast? = some e := by
  unfold lastN
  simp only [List.length_append, List.length_singleton]
  rw [List.drop_append_of_le_length (by omega)]
  exact List.getLast?_concat _

/-- C8: a group (non-private) message with text content, no bot mention and
no reply-to-bot (by username or id) is not answered (`should_respond` is
false), and `handle_message` still records it into the in-memory
conversation context — the stored list for the chat ends with the message's
entry — before stopping. -/
theorem C8_group_silent_recorded (m : TgMessage) (user : TgUser)
    (chat_id bot_id : Nat) (bu : List Char) (now : Nat) (st : CtxState)
    (hgroup : m.chat_type ≠ "private".toList)
    (hcontent : get_message_content m ≠ [])
    (hmention : listContainsSub ('@' :: bu) (get_message_content m) = false)
    (hreply : ∀ reply, m.reply_to_message = some reply →
      ∀ ru, reply.from_user = some ru →
        (strTruthy ru.username = true → pyLower (ru.username.getD []) ≠ pyLower bu)
        ∧ (bot_id ≠ 0 → ru.id ≠ bot_id)) :
    should_respond (some m) bu (some bot_id) = false
    ∧ (handle_message_early (some m) user chat_id bu bot_id now st).2 = false
    ∧ ((dictGet (handle_message_early (some m) user chat_id bu bot_id now
          st).1.chat_context chat_id).getD []).getLast?
        = some ⟨"user".toList, (get_display_name user).getD "user".toList,
            (get_message_content m).take 500, now⟩ := by
  have hmen : ¬ (get_message_content m ≠ []
      ∧ listContainsSub ('@' :: bu) (get_message_content m) = true) := by
    intro hcon
    rw [hmention] at hcon
    exact absurd hcon.2 (by decide)
  have hsr : should_respond (some m) bu (some bot_id) = false := by
    simp only [should_respond]
    rw [if_neg (fun hcon => hcontent hcon.1)]
    rw [if_neg (fun hcon => hgroup hcon.1)]
    rcases hr : m.reply_to_message with _ | reply
    · dsimp only
      rw [if_neg (show ¬ (false = true) from by decide)]
      rw [if_neg hmen]
    · rcases hu : reply.from_user with _ | ru
      · dsimp only
        rw [hu]
        dsimp only
        rw [if_neg (show ¬ (false = true) from by decide)]
        rw [if_neg hmen]
      · dsimp only
        rw [hu]
        dsimp only
        have hx := hreply reply hr ru hu
        have hinner : (if strTruthy ru.username = true
              ∧ pyLower (ru.username.getD []) = pyLower bu then true
            else decide (bot_id ≠ 0) && decide (ru.id = bot_id)) = false := by
          rw [if_neg (fun hcon => hx.1 hcon.1 hcon.2)]
          by_cases hb : bot_id = 0
          · simp [hb]
          · simp [hx.2 hb]
        rw [hinner]
        rw [if_neg (show ¬ (false = true) from by decide)]
        rw [if_neg hmen]
  have he : handle_message_early (some m) user chat_id bu bot_id now st
      = ({ evict_stale_data now st with
            chat_context := add_to_context chat_id "user".toList
              ((get_display_name user).getD "user".toList)
              (get_message_content m) now
              (evict_stale_data now st).chat_context }, false) := by
    simp only [handle_message_early]
    rw [if_pos hsr, if_pos ⟨hcontent, hgroup⟩]
  refine ⟨hsr, ?_, ?_⟩
  · rw [he]
  · rw [he]
    dsimp only
    rw [add_ctx_get_same, Option.getD_some]
    exact lastN_concat_getLast (by decide) _ _

/-- Witness for C8 at a concrete group message and state. -/
theorem C8_group_silent_recorded_witness :
    (("group".toList : List Char) ≠ "private".toList
      ∧ get_message_content ⟨"group".toList, some "как дела".toList, none, none,
          none, none⟩ ≠ []
      ∧ listContainsSub ('@' :: "tallinn_bot".toList)
          (get_message_content ⟨"group".toList, some "как дела".toList, none,
            none, none, none⟩) = false)
    ∧ (should_respond (some ⟨"group".toList, some "как дела".toList, none, none,
          none, none⟩) "tallinn_bot".toList (some 42) = false
      ∧ (handle_message_early (some ⟨"group".toList, some "как дела".toList,
            none, none, none, none⟩) ⟨7, none, "Оля".toList⟩ 99
            "tallinn_bot".toList 42 1000 ⟨[], [], 1000⟩).2 = false
      ∧ ((dictGet (handle_message_early (some ⟨"group".toList,
            some "как дела".toList, none, none, none, none⟩)
            ⟨7, none, "Оля".toList⟩ 99 "tallinn_bot".toList 42 1000
            ⟨[], [], 1000⟩).1.chat_context 99).getD []).getLast?
          = some ⟨"user".toList,
              (get_display_name ⟨7, none, "Оля".toList⟩).getD "user".toList,
              (get_message_content ⟨"group".toList, some "как дела".toList,
                none, none, none, none⟩).take 500, 1000⟩) :=
  ⟨⟨by decide, by decide, by decide⟩,
    C8_group_silent_recorded ⟨"group".toList, some "как дела".toList, none,
      none, none, none⟩ ⟨7, none, "Оля".toList⟩ 99 42 "tallinn_bot".toList
      1000 ⟨[], [], 1000⟩ (by decide) (by decide) (by decide)
      (fun reply hr => by simp at hr)⟩

/-! ### C4: the fact memory caps (`bot/services/memory.py`)

A Redis sorted set is a list of (member, score) pairs kept in rank order:
ascending score, ties broken by the lexicographic byte order of the member
(for UTF-8 encoded members, bytewise order equals code-point order). -/

def lexLtChars : List Char → List Char → Bool
  | [], [] => false
  | [], _ :: _ => true
  | _ :: _, [] => false
  | a :: as, b :: bs =>
    if a.toNat < b.toNat then true
    else if b.toNat < a.toNat then false
    else lexLtChars as bs

/-- Rank order of a Redis zset: by score, then member. -/
def zless (a b : List Char × Nat) : Bool :=
  decide (a.2 < b.2) || (decide (a.2 = b.2) && lexLtChars a.1 b.1)

def zinsert : List (List Char × Nat) → (List Char × Nat) → List (List Char × Nat)
  | [], e => [e]
  | x :: xs, e => if zless e x then e :: x :: xs else x :: zinsert xs e

/-- `ZADD key {member: score}`: any previous entry for the member is
replaced, the new one lands at its rank position. -/
def zadd (z : List (List Char × Nat)) (member : List Char) (score : Nat) :
    List (List Char × Nat) :=
  zinsert (z.filter (fun e => ¬ e.1 = member)) (member, score)

/-- `ZREMRANGEBYRANK key 0 -(cap+1)` on a zset of `n` members removes the
`n - cap` lowest-ranked members (a no-op when `n ≤ cap`), keeping the `cap`
highest-ranked. -/
def zremrangebyrank_tail (z : List (List Char × Nat)) (cap : Nat) :
    List (List Char × Nat) :=
  z.drop (z.length - cap)

/-- `ZRANGE key 0 -1`: all members in rank order (oldest score first). -/
def zrange_all (z : List (List Char × Nat)) : List (List Char) :=
  z.map (fun e => e.1)

/-- `save_user_fact` (the Redis-connected, non-raising path): `zadd`, then
trim to the 20 newest when the count exceeds 20. -/
def save_user_fact (z : List (List Char × Nat)) (fact : List Char)
    (now : Nat) : List (List Char × Nat) :=
  let z1 := zadd z fact now
  if 20 < z1.length then zremrangebyrank_tail z1 20 else z1

/-- `save_group_fact`: the same with cap 30. -/
def save_group_fact (z : List (List Char × Nat)) (fact : List Char)
    (now : Nat) : List (List Char × Nat) :=
  let z1 := zadd z fact now
  if 30 < z1.length then zremrangebyrank_tail z1 30 else z1

/-- `get_user_facts` / `get_group_facts` (connected path): `ZRANGE 0 -1`,
oldest → newest. -/
def get_facts (z : List (List Char × Nat)) : List (List Char) := zrange_all z

def runFacts (cap : Nat) (calls : List (List Char × Nat))
    (z : List (List Char × Nat)) : List (List Char × Nat) :=
  calls.foldl
    (fun acc fk =>
      let z1 := zadd acc fk.1 fk.2
      if cap < z1.length then zremrangebyrank_tail z1 cap else z1) z

theorem runFacts_user (calls : List (List Char × Nat))
    (z : List (List Char × Nat)) :
    calls.foldl (fun acc fk => save_user_fact acc fk.1 fk.2) z
      = runFacts 20 calls z := rfl

theorem runFacts_group (calls : List (List Char × Nat))
    (z : List (List Char × Nat)) :
    calls.foldl (fun acc fk => save_group_fact acc fk.1 fk.2) z
      = runFacts 30 calls z := rfl

theorem zinsert_last {z : List (List Char × Nat)} {e : List Char × Nat}
    (h : ∀ x ∈ z, zless e x = false) : zinsert z e = z ++ [e] := by
  induction z with
  | nil => rfl
  | cons x xs ih =>
    rw [zinsert, if_neg (by rw [h x (List.mem_cons_self x xs)]; decide),
      ih (fun y hy => h y (List.mem_cons_of_mem x hy)), List.cons_append]

theorem zadd_fresh {z : List (List Char × Nat)} {fact : List Char} {now : Nat}
    (hfresh : ∀ x ∈ z, x.1 ≠ fact) (hnew : ∀ x ∈ z, x.2 < now) :
    zadd z fact now = z ++ [(fact, now)] := by
  unfold zadd
  rw [List.filter_eq_self.mpr (fun x hx => by
    simp only [decide_eq_true_eq]
    exact hfresh x hx)]
  apply zinsert_last
  intro x hx
  have := hnew x hx
  simp only [zless, Bool.or_eq_false_iff, Bool.and_eq_false_iff]
  constructor
  · simp only [decide_eq_false_iff_not]
    omega
  · left
    simp only [decide_eq_false_iff_not]
    omega

theorem runFacts_lastN (cap : Nat) (calls : List (List Char × Nat)) :
    ∀ z, calls.Pairwise (fun a b => a.2 < b.2 ∧ a.1 ≠ b.1) →
      (∀ x ∈ z, ∀ k ∈ calls, x.2 < k.2 ∧ x.1 ≠ k.1) →
      z.length ≤ cap →
      runFacts cap calls z = lastN cap (z ++ calls) := by
  induction calls with
  | nil =>
    intro z _ _ hlen
    rw [List.append_nil]
    exact (lastN_of_le hlen).symm
  | cons k ks ih =>
    intro z hpw hz hlen
    obtain ⟨hk, hks⟩ := List.pairwise_cons.mp hpw
    have hstep : zadd z k.1 k.2 = z ++ [k] := by
      have := zadd_fresh (fun x hx => (hz x hx k (List.mem_cons_self k ks)).2)
        (fun x hx => (hz x hx k (List.mem_cons_self k ks)).1)
      rw [this]
    rw [show runFacts cap (k :: ks) z
        = runFacts cap ks
            (let z1 := zadd z k.1 k.2
             if cap < z1.length then zremrangebyrank_tail z1 cap else z1)
      from rfl]
    have htrim : (let z1 := zadd z k.1 k.2
        if cap < z1.length then zremrangebyrank_tail z1 cap else z1)
        = lastN cap (z ++ [k]) := by
      dsimp only
      rw [hstep]
      split_ifs with hl
      · rfl
      · rw [lastN_of_le (by omega)]
    rw [htrim]
    have hmem : ∀ x ∈ lastN cap (z ++ [k]), ∀ kk ∈ ks,
        x.2 < kk.2 ∧ x.1 ≠ kk.1 := by
      intro x hx kk hkk
      have hx2 : x ∈ z ++ [k] := List.drop_subset _ _ hx
      rcases List.mem_append.mp hx2 with h1 | h1
      · exact hz x h1 kk (List.mem_cons_of_mem k hkk)
      · have hxk : x = k := by simpa using h1
        rw [hxk]
        exact hk kk hkk
    rw [ih (lastN cap (z ++ [k])) hks hmem (lastN_length_le _ _),
      lastN_append_left, List.append_assoc, List.singleton_append]

/-- C4: with strictly increasing insertion times and distinct facts, any
sequence of `save_user_fact` (cap 20) or `save_group_fact` (cap 30) calls
leaves at most cap facts; the survivors are exactly the newest cap calls in
order (each trim removes precisely the oldest by score), and
`get_user_facts` / `get_group_facts` return them oldest → newest. -/
theorem C4_fact_caps (calls : List (List Char × Nat))
    (hpw : calls.Pairwise (fun a b => a.2 < b.2 ∧ a.1 ≠ b.1)) :
    (calls.foldl (fun acc fk => save_user_fact acc fk.1 fk.2) []).length ≤ 20
    ∧ calls.foldl (fun acc fk => save_user_fact acc fk.1 fk.2) []
        = lastN 20 calls
    ∧ get_facts (calls.foldl (fun acc fk => save_user_fact acc fk.1 fk.2) [])
        = (lastN 20 calls).map (fun e => e.1)
    ∧ (calls.foldl (fun acc fk => save_group_fact acc fk.1 fk.2) []).length ≤ 30
    ∧ calls.foldl (fun acc fk => save_group_fact acc fk.1 fk.2) []
        = lastN 30 calls
    ∧ get_facts (calls.foldl (fun acc fk => save_group_fact acc fk.1 fk.2) [])
        = (lastN 30 calls).map (fun e => e.1) := by
  have h20 := runFacts_lastN 20 calls [] hpw (by simp) (by simp)
  have h30 := runFacts_lastN 30 calls [] hpw (by simp) (by simp)
  rw [List.nil_append] at h20 h30
  rw [runFacts_user calls [], runFacts_group calls [], h20, h30]
  exact ⟨lastN_length_le _ _, rfl, rfl, lastN_length_le _ _, rfl, rfl⟩

/-- Witness for C4 at a concrete call sequence. -/
theorem C4_fact_caps_witness :
    ([(("люблю кофе" : String).toList, 1), (("живёт в Таллинне" : String).toList, 2)].Pairwise
        (fun a b => a.2 < b.2 ∧ a.1 ≠ b.1))
    ∧ get_facts ([(("люблю кофе" : String).toList, 1),
          (("живёт в Таллинне" : String).toList, 2)].foldl
          (fun acc fk => save_user_fact acc fk.1 fk.2) [])
        = (lastN 20 [(("люблю кофе" : String).toList, 1),
            (("живёт в Таллинне" : String).toList, 2)]).map (fun e => e.1) :=
  ⟨by decide,
    (C4_fact_caps [(("люблю кофе" : String).toList, 1),
      (("живёт в Таллинне" : String).toList, 2)] (by decide)).2.2.1⟩

/-! ### C7: the spontaneous-reply scheduler (`bot/handlers/observer.py`) -/

def SPONTANEOUS_REPLY_PROBABILITY : ℚ := 3 / 100
def SPONTANEOUS_REPLY_KEYWORD_BOOST : ℚ := 12 / 100
def SPONTANEOUS_REPLY_COOLDOWN : Nat := 600
def SPONTANEOUS_REPLY_MIN_MESSAGES : Nat := 5
def PROACTIVE_MAX_PER_HOUR : Nat := 3
def OBSERVER_MAX_CHATS : Nat := 500
def OBSERVER_STALE_AGE : Nat := 7200

def INTERESTING_TOPICS : List (List Char) :=
  ["таллинн", "tallinn", "эстони", "estonia", "бар", "ресторан",
   "кафе", "клуб", "кино", "концерт", "мероприят", "фестивал",
   "погод", "рекоменд", "посоветуй", "сходить", "пойти",
   "event", "weekend", "выходн"].map String.toList

/-- The observer's module-level dicts. -/
structure ObsState where
  last_spontaneous : List (Nat × Nat)
  messages_since_reply : List (Nat × Nat)
  hourly_sends : List (Nat × List Nat)
deriving DecidableEq

/-- `_check_rate_ok`: cooldown, minimum message count, hourly cap.  The
hourly-cap step materialises and filters `_hourly_sends[chat_id]`, so the
updated state is part of the result. -/
def check_rate_ok (chat_id now : Nat) (st : ObsState) : Bool × ObsState :=
  let last := (dictGet st.last_spontaneous chat_id).getD 0
  if now - last < SPONTANEOUS_REPLY_COOLDOWN then (false, st)
  else if (dictGet st.messages_since_reply chat_id).getD 0
      < SPONTANEOUS_REPLY_MIN_MESSAGES then (false, st)
  else
    let filtered := ((dictGet st.hourly_sends chat_id).getD []).filter
      (fun t => now - t < 3600)
    let st2 := { st with hourly_sends := dictSet st.hourly_sends chat_id filtered }
    if PROACTIVE_MAX_PER_HOUR ≤ filtered.length then (false, st2)
    else (true, st2)

/-- `evict_stale_observer_data`. -/
def evict_stale_observer_data (now : Nat) (st : ObsState) : ObsState :=
  if st.last_spontaneous.length ≤ OBSERVER_MAX_CHATS then st
  else
    let stale := (st.last_spontaneous.filter
      (fun kv => OBSERVER_STALE_AGE < now - kv.2)).map (fun kv => kv.1)
    { last_spontaneous := st.last_spontaneous.filter
        (fun kv => ¬ stale.contains kv.1),
      messages_since_reply := st.messages_since_reply.filter
        (fun kv => ¬ stale.contains kv.1),
      hourly_sends := st.hourly_sends.filter
        (fun kv => ¬ stale.contains kv.1) }

/-- `record_bot_replied`. -/
def record_bot_replied (chat_id : Nat) (st : ObsState) : ObsState :=
  { st with messages_since_reply := dictSet st.messages_since_reply chat_id 0 }

/-- `user.username == BOT_USERNAME` (None never equals a string). -/
def username_matches_bot (u : TgUser) (bot_username : List Char) : Bool :=
  match u.username with
  | some un => decide (un = bot_username)
  | none => false

/-- `any(kw in text_lower for kw in INTERESTING_TOPICS)`. -/
def has_interesting_topic (text : List Char) : Bool :=
  INTERESTING_TOPICS.any (fun kw => listContainsSub kw (pyLower text))

/-- `observe_and_learn`, with the environment made explicit: `quiet_hours`
is `_is_quiet_hours()`, `draw` is `random.random()`, `quiet` is
`is_quiet_mode(chat_id)`, and `comment` is what
`_generate_spontaneous_comment` returned.  The boolean of the result tells
whether a spontaneous reply was sent. -/
def observe_and_learn (message : Option TgMessage) (chat_id : Nat)
    (user : Option TgUser) (bot_username : List Char) (quiet_hours : Bool)
    (draw : ℚ) (quiet : Bool) (comment : Option (List Char)) (now : Nat)
    (st : ObsState) : ObsState × Bool :=
  match message with
  | none => (st, false)
  | some msg =>
    if msg.chat_type = "private".toList then (st, false)
    else
      let text := get_message_content msg
      if text = [] then (st, false)
      else
        match user with
        | none => (st, false)
        | some u =>
          let msr := dictSet st.messages_since_reply chat_id
            ((dictGet st.messages_since_reply chat_id).getD 0 + 1)
          let st1 := { st with messages_since_reply := msr }
          let st2 := evict_stale_observer_data now st1
          if username_matches_bot u bot_username then (st2, false)
          else if quiet_hours then (st2, false)
          else
            let rc := check_rate_ok chat_id now st2
            if rc.1 = false then (rc.2, false)
            else
              let probability := SPONTANEOUS_REPLY_PROBABILITY
                + (if has_interesting_topic text then
                    SPONTANEOUS_REPLY_KEYWORD_BOOST else 0)
              if probability < draw then (rc.2, false)
              else if quiet then (rc.2, false)
              else
                match comment with
                | some c =>
                  if c ≠ [] then
                    let ls2 := dictSet rc.2.last_spontaneous chat_id now
                    let msr2 := dictSet rc.2.messages_since_reply chat_id 0
                    let hs2 := dictSet rc.2.hourly_sends chat_id
                      ((dictGet rc.2.hourly_sends chat_id).getD [] ++ [now])
                    (⟨ls2, msr2, hs2⟩, true)
                  else (rc.2, false)
                | none => (rc.2, false)

theorem dictGet_none_of_absent {α : Type} {l : List (Nat × α)} {k : Nat}
    (h : ∀ x ∈ l, x.1 ≠ k) : dictGet l k = none := by
  induction l with
  | nil => rfl
  | cons kv t ih =>
    rw [dictGet, if_neg (h kv (List.mem_cons_self kv t))]
    exact ih (fun x hx => h x (List.mem_cons_of_mem kv hx))

theorem absent_of_dictGet_none {α : Type} {l : List (Nat × α)} {k : Nat}
    (h : dictGet l k = none) : ∀ x ∈ l, x.1 ≠ k := by
  induction l with
  | nil => simp
  | cons kv t ih =>
    rw [dictGet] at h
    intro x hx
    by_cases h1 : kv.1 = k
    · rw [if_pos h1] at h
      exact absurd h (by simp)
    · rw [if_neg h1] at h
      rcases List.mem_cons.mp hx with h2 | h2
      · rw [h2]
        exact h1
      · exact ih h x h2

theorem dictGet_filter_unique {α : Type} {l : List (Nat × α)}
    (p : Nat × α → Bool) (k : Nat) (hu : l.Pairwise (fun a b => a.1 ≠ b.1)) :
    dictGet (l.filter p) k = none ∨ dictGet (l.filter p) k = dictGet l k := by
  induction l with
  | nil => left; rfl
  | cons kv t ih =>
    obtain ⟨hk, ht⟩ := List.pairwise_cons.mp hu
    by_cases hp : p kv = true
    · rw [List.filter_cons_of_pos hp, dictGet, dictGet]
      by_cases h1 : kv.1 = k
      · rw [if_pos h1, if_pos h1]
        right
        rfl
      · rw [if_neg h1, if_neg h1]
        exact ih ht
    · rw [List.filter_cons_of_neg (by simpa using hp), dictGet]
      by_cases h1 : kv.1 = k
      · rw [if_pos h1]
        left
        exact dictGet_none_of_absent (fun x hx hc =>
          hk x (List.mem_of_mem_filter hx) (h1.trans hc.symm))
      · rw [if_neg h1]
        exact ih ht

theorem dictSet_pairwise {α : Type} {d : List (Nat × α)} (k : Nat) (v : α)
    (hu : d.Pairwise (fun a b => a.1 ≠ b.1)) :
    (dictSet d k v).Pairwise (fun a b => a.1 ≠ b.1) := by
  unfold dictSet
  split_ifs with hs
  · rw [List.pairwise_map]
    refine hu.imp ?_
    intro a b hab
    by_cases ha : a.1 = k <;> by_cases hb : b.1 = k
    · exact absurd (ha.trans hb.symm) hab
    · simp only [if_pos ha, if_neg hb]
      intro hc
      exact hab (ha.trans hc)
    · simp only [if_neg ha, if_pos hb]
      intro hc
      exact ha hc
    · simp only [if_neg ha, if_neg hb]
      exact hab
  · have habs : ∀ x ∈ d, x.1 ≠ k := by
      apply absent_of_dictGet_none
      rcases he : dictGet d k with _ | w
      · rfl
      · rw [he] at hs
        simp at hs
    refine List.pairwise_append.mpr ⟨hu, by simp, ?_⟩
    intro a ha b hb
    rw [show b = (k, v) from by simpa using hb]
    exact habs a ha

theorem evict_msr_get (now : Nat) (st : ObsState) (k : Nat)
    (hu : st.messages_since_reply.Pairwise (fun a b => a.1 ≠ b.1)) :
    dictGet (evict_stale_observer_data now st).messages_since_reply k = none
    ∨ dictGet (evict_stale_observer_data now st).messages_since_reply k
        = dictGet st.messages_since_reply k := by
  unfold evict_stale_observer_data
  split_ifs
  · right
    rfl
  · dsimp only
    exact dictGet_filter_unique _ k hu

/-- C7: (1) while the incremented messages-since-last-reply counter is below
`SPONTANEOUS_REPLY_MIN_MESSAGES`, `observe_and_learn` never sends a
spontaneous reply, whatever the probability draw, quiet flags or comment;
(2) on the message that brings the counter to exactly 5, with the draw
passing (`draw ≤ SPONTANEOUS_REPLY_PROBABILITY`), cooldown elapsed, hourly
quota open, no quiet hours, no quiet mode and a real comment, it sends,
resets the counter to zero and records the send in the cooldown and
hourly-quota state. -/
theorem C7_scheduler_gate (msg : TgMessage) (chat_id : Nat) (u : TgUser)
    (bu : List Char) (quiet_hours : Bool) (draw : ℚ) (quiet : Bool)
    (comment : Option (List Char)) (now : Nat) (st : ObsState)
    (hwf : st.messages_since_reply.Pairwise (fun a b => a.1 ≠ b.1)) :
    ((dictGet st.messages_since_reply chat_id).getD 0 + 1
        < SPONTANEOUS_REPLY_MIN_MESSAGES →
      (observe_and_learn (some msg) chat_id (some u) bu quiet_hours draw quiet
        comment now st).2 = false)
    ∧ (∀ c, msg.chat_type ≠ "private".toList → get_message_content msg ≠ [] →
        username_matches_bot u bu = false → quiet_hours = false →
        st.last_spontaneous.length ≤ OBSERVER_MAX_CHATS →
        SPONTANEOUS_REPLY_COOLDOWN
          ≤ now - (dictGet st.last_spontaneous chat_id).getD 0 →
        (dictGet st.messages_since_reply chat_id).getD 0 + 1
          = SPONTANEOUS_REPLY_MIN_MESSAGES →
        (((dictGet st.hourly_sends chat_id).getD []).filter
            (fun t => now - t < 3600)).length < PROACTIVE_MAX_PER_HOUR →
        draw ≤ SPONTANEOUS_REPLY_PROBABILITY → quiet = false →
        comment = some c → c ≠ [] →
        (observe_and_learn (some msg) chat_id (some u) bu quiet_hours draw
            quiet comment now st).2 = true
        ∧ dictGet (observe_and_learn (some msg) chat_id (some u) bu quiet_hours
            draw quiet comment now st).1.messages_since_reply chat_id = some 0
        ∧ dictGet (observe_and_learn (some msg) chat_id (some u) bu quiet_hours
            draw quiet comment now st).1.last_spontaneous chat_id = some now
        ∧ ∃ hl, dictGet (observe_and_learn (some msg) chat_id (some u) bu
            quiet_hours draw quiet comment now st).1.hourly_sends chat_id
            = some (hl ++ [now])) := by
  constructor
  · intro hcount
    have hwf1 := dictSet_pairwise chat_id
      ((dictGet st.messages_since_reply chat_id).getD 0 + 1) hwf
    have hev := evict_msr_get now ⟨st.last_spontaneous,
      dictSet st.messages_since_reply chat_id
        ((dictGet st.messages_since_reply chat_id).getD 0 + 1),
      st.hourly_sends⟩ chat_id hwf1
    have hlt : (dictGet (evict_stale_observer_data now ⟨st.last_spontaneous,
        dictSet st.messages_since_reply chat_id
          ((dictGet st.messages_since_reply chat_id).getD 0 + 1),
        st.hourly_sends⟩).messages_since_reply chat_id).getD 0
        < SPONTANEOUS_REPLY_MIN_MESSAGES := by
      rcases hev with h | h
      · rw [h]
        exact (by decide : (0:Nat) < SPONTANEOUS_REPLY_MIN_MESSAGES)
      · rw [h]
        rw [show dictGet (ObsState.mk st.last_spontaneous
            (dictSet st.messages_since_reply chat_id
              ((dictGet st.messages_since_reply chat_id).getD 0 + 1))
            st.hourly_sends).messages_since_reply chat_id
          = some ((dictGet st.messages_since_reply chat_id).getD 0 + 1)
          from dictGet_dictSet_same _ _ _]
        exact hcount
    have hrc1 : (check_rate_ok chat_id now (evict_stale_observer_data now
        ⟨st.last_spontaneous, dictSet st.messages_since_reply chat_id
          ((dictGet st.messages_since_reply chat_id).getD 0 + 1),
        st.hourly_sends⟩)).1 = false := by
      unfold check_rate_ok
      dsimp only
      by_cases h1 : now - (dictGet (evict_stale_observer_data now
          ⟨st.last_spontaneous, dictSet st.messages_since_reply chat_id
            ((dictGet st.messages_since_reply chat_id).getD 0 + 1),
          st.hourly_sends⟩).last_spontaneous chat_id).getD 0
          < SPONTANEOUS_REPLY_COOLDOWN
      · rw [if_pos h1]
      · rw [if_neg h1, if_pos hlt]
    simp only [observe_and_learn]
    by_cases h1 : msg.chat_type = "private".toList
    · rw [if_pos h1]
    · rw [if_neg h1]
      by_cases h2 : get_message_content msg = []
      · rw [if_pos h2]
      · rw [if_neg h2]
        by_cases h3 : username_matches_bot u bu = true
        · rw [if_pos h3]
        · rw [if_neg h3]
          by_cases h4 : quiet_hours = true
          · rw [if_pos h4]
          · rw [if_neg h4]
            rw [if_pos hrc1]
  · intro c hpriv htext hbot hqh hlen hcool hcount hhour hdraw hquiet hcm hc
    have hevict : evict_stale_observer_data now ⟨st.last_spontaneous,
        dictSet st.messages_since_reply chat_id
          ((dictGet st.messages_since_reply chat_id).getD 0 + 1),
        st.hourly_sends⟩ = ⟨st.last_spontaneous,
        dictSet st.messages_since_reply chat_id
          ((dictGet st.messages_since_reply chat_id).getD 0 + 1),
        st.hourly_sends⟩ := by
      unfold evict_stale_observer_data
      rw [if_pos hlen]
    have hrc : check_rate_ok chat_id now ⟨st.last_spontaneous,
        dictSet st.messages_since_reply chat_id
          ((dictGet st.messages_since_reply chat_id).getD 0 + 1),
        st.hourly_sends⟩
        = (true, ⟨st.last_spontaneous,
            dictSet st.messages_since_reply chat_id
              ((dictGet st.messages_since_reply chat_id).getD 0 + 1),
            dictSet st.hourly_sends chat_id
              (((dictGet st.hourly_sends chat_id).getD []).filter
                (fun t => now - t < 3600))⟩) := by
      unfold check_rate_ok
      rw [if_neg (by
        dsimp only
        omega)]
      rw [if_neg (by
        dsimp only
        rw [dictGet_dictSet_same]
        simp only [Option.getD_some]
        omega)]
      rw [if_neg (by
        dsimp only
        omega)]
    have he : observe_and_learn (some msg) chat_id (some u) bu quiet_hours
        draw quiet comment now st
        = (⟨dictSet st.last_spontaneous chat_id now,
            dictSet (dictSet st.messages_since_reply chat_id
              ((dictGet st.messages_since_reply chat_id).getD 0 + 1)) chat_id 0,
            dictSet (dictSet st.hourly_sends chat_id
              (((dictGet st.hourly_sends chat_id).getD []).filter
                (fun t => now - t < 3600))) chat_id
              (((dictGet (dictSet st.hourly_sends chat_id
                  (((dictGet st.hourly_sends chat_id).getD []).filter
                    (fun t => now - t < 3600))) chat_id).getD []) ++ [now])⟩,
           true) := by
      simp only [observe_and_learn]
      rw [if_neg hpriv, if_neg htext]
      rw [if_neg (show ¬ (username_matches_bot u bu = true) from by
        rw [hbot]; decide)]
      rw [if_neg (show ¬ (quiet_hours = true) from by rw [hqh]; decide)]
      rw [hevict, hrc]
      rw [if_neg (show ¬ ((true, (⟨st.last_spontaneous,
          dictSet st.messages_since_reply chat_id
            ((dictGet st.messages_since_reply chat_id).getD 0 + 1),
          dictSet st.hourly_sends chat_id
            (((dictGet st.hourly_sends chat_id).getD []).filter
              (fun t => now - t < 3600))⟩ : ObsState)).1 = false) from by
        intro hcon
        exact absurd hcon (by simp))]
      have hboost : (0:ℚ) ≤ (if has_interesting_topic (get_message_content msg)
          then SPONTANEOUS_REPLY_KEYWORD_BOOST else 0) := by
        split_ifs
        · norm_num [SPONTANEOUS_REPLY_KEYWORD_BOOST]
        · norm_num
      rw [if_neg (show ¬ (SPONTANEOUS_REPLY_PROBABILITY
          + (if has_interesting_topic (get_message_content msg) then
              SPONTANEOUS_REPLY_KEYWORD_BOOST else 0) < draw) from by
        intro hcon
        have : draw ≤ SPONTANEOUS_REPLY_PROBABILITY
            + (if has_interesting_topic (get_message_content msg) then
                SPONTANEOUS_REPLY_KEYWORD_BOOST else 0) :=
          le_trans hdraw (le_add_of_nonneg_right hboost)
        exact absurd hcon (not_lt.mpr this))]
      rw [if_neg (show ¬ (quiet = true) from by rw [hquiet]; decide)]
      rw [hcm]
      dsimp only
      rw [if_pos hc]
    rw [he]
    refine ⟨rfl, ?_, ?_, ?_⟩
    · exact dictGet_dictSet_same _ _ _
    · exact dictGet_dictSet_same _ _ _
    · exact ⟨_, dictGet_dictSet_same _ _ _⟩

/-- Witness for C7 at a concrete message, user and observer state. -/
theorem C7_scheduler_gate_witness :
    (((⟨[], [(1, 4)], []⟩ : ObsState)).messages_since_reply.Pairwise (fun a b => a.1 ≠ b.1))
    ∧ (((dictGet ((⟨[], [(1, 4)], []⟩ : ObsState)).messages_since_reply 1).getD 0 + 1
          < SPONTANEOUS_REPLY_MIN_MESSAGES →
        (observe_and_learn (some (⟨"group".toList, some "погода".toList, none, none, none, none⟩ : TgMessage)) 1 (some (⟨7, none, "Оля".toList⟩ : TgUser)) "tallinn_bot".toList false (1/100) false (some "норм".toList) 10000 (⟨[], [(1, 4)], []⟩ : ObsState)).2 = false)
      ∧ (∀ c, ((⟨"group".toList, some "погода".toList, none, none, none, none⟩ : TgMessage)).chat_type ≠ "private".toList →
          get_message_content (⟨"group".toList, some "погода".toList, none, none, none, none⟩ : TgMessage) ≠ [] →
          username_matches_bot (⟨7, none, "Оля".toList⟩ : TgUser) "tallinn_bot".toList = false →
          false = false →
          ((⟨[], [(1, 4)], []⟩ : ObsState)).last_spontaneous.length ≤ OBSERVER_MAX_CHATS →
          SPONTANEOUS_REPLY_COOLDOWN
            ≤ 10000 - (dictGet ((⟨[], [(1, 4)], []⟩ : ObsState)).last_spontaneous 1).getD 0 →
          (dictGet ((⟨[], [(1, 4)], []⟩ : ObsState)).messages_since_reply 1).getD 0 + 1
            = SPONTANEOUS_REPLY_MIN_MESSAGES →
          (((dictGet ((⟨[], [(1, 4)], []⟩ : ObsState)).hourly_sends 1).getD []).filter
              (fun t => 10000 - t < 3600)).length < PROACTIVE_MAX_PER_HOUR →
          (1/100 : ℚ) ≤ SPONTANEOUS_REPLY_PROBABILITY → false = false →
          (some "норм".toList : Option (List Char)) = some c → c ≠ [] →
          (observe_and_learn (some (⟨"group".toList, some "погода".toList, none, none, none, none⟩ : TgMessage)) 1 (some (⟨7, none, "Оля".toList⟩ : TgUser)) "tallinn_bot".toList false (1/100) false (some "норм".toList) 10000 (⟨[], [(1, 4)], []⟩ : ObsState)).2 = true
          ∧ dictGet (observe_and_learn (some (⟨"group".toList, some "погода".toList, none, none, none, none⟩ : TgMessage)) 1 (some (⟨7, none, "Оля".toList⟩ : TgUser)) "tallinn_bot".toList false (1/100) false (some "норм".toList) 10000 (⟨[], [(1, 4)], []⟩ : ObsState)).1.messages_since_reply 1 = some 0
          ∧ dictGet (observe_and_learn (some (⟨"group".toList, some "погода".toList, none, none, none, none⟩ : TgMessage)) 1 (some (⟨7, none, "Оля".toList⟩ : TgUser)) "tallinn_bot".toList false (1/100) false (some "норм".toList) 10000 (⟨[], [(1, 4)], []⟩ : ObsState)).1.last_spontaneous 1 = some 10000
          ∧ ∃ hl, dictGet (observe_and_learn (some (⟨"group".toList, some "погода".toList, none, none, none, none⟩ : TgMessage)) 1 (some (⟨7, none, "Оля".toList⟩ : TgUser)) "tallinn_bot".toList false (1/100) false (some "норм".toList) 10000 (⟨[], [(1, 4)], []⟩ : ObsState)).1.hourly_sends 1 = some (hl ++ [10000]))) :=
  ⟨by decide,
    C7_scheduler_gate (⟨"group".toList, some "погода".toList, none, none, none, none⟩ : TgMessage) 1 (⟨7, none, "Оля".toList⟩ : TgUser) "tallinn_bot".toList false (1/100) false
      (some "норм".toList) 10000 (⟨[], [(1, 4)], []⟩ : ObsState) (by decide)⟩

/-! ### C1 and C5: the URL fetcher (`bot/services/url_fetcher.py`) and the
degraded payload (`extract_url_info` in `bot/utils/helpers.py`) -/

def URL_CACHE_TTL : Nat := 300

/-- `str.upper` on one character (ASCII and Cyrillic, mirroring
`pyLowerChar`). -/
def pyUpperChar (c : Char) : Char :=
  if 'a' ≤ c ∧ c ≤ 'z' then Char.ofNat (c.toNat - 32)
  else if 0x430 ≤ c.toNat ∧ c.toNat ≤ 0x44F then Char.ofNat (c.toNat - 0x20)
  else if c.toNat = 0x451 then Char.ofNat 0x401
  else c

/-- A cased letter for `str.title` (ASCII and Cyrillic, the ranges occurring
in this repository's data). -/
def pyIsCased (c : Char) : Bool :=
  isAsciiAlphaB c ∨ (0x410 ≤ c.toNat ∧ c.toNat ≤ 0x44F)
    ∨ c.toNat = 0x401 ∨ c.toNat = 0x451

/-- `str.title`: first cased letter of every run upper-cased, the rest
lower-cased. -/
def pyTitleGo : Bool → List Char → List Char
  | _, [] => []
  | prevCased, c :: cs =>
    if pyIsCased c then
      (if prevCased then pyLowerChar c else pyUpperChar c) :: pyTitleGo true cs
    else c :: pyTitleGo false cs

def pyTitle (l : List Char) : List Char := pyTitleGo false l

/-- `s.split(pat)[0]` for a non-empty separator: the prefix before the first
occurrence. -/
def splitBeforeSub (pat : List Char) : List Char → List Char
  | [] => []
  | c :: cs => if pat.isPrefixOf (c :: cs) then [] else c :: splitBeforeSub pat cs

/-- The `platform_names` table of `extract_url_info`. -/
def platform_names : List (List Char × List Char) :=
  [("tickettailor.com", "TicketTailor (ticket sales platform)"),
   ("eventbrite.com", "Eventbrite (event platform)"),
   ("facebook.com", "Facebook"),
   ("piletilevi.ee", "Piletilevi (Estonian ticket platform)"),
   ("fienta.com", "Fienta (Baltic ticket platform)"),
   ("piletimaailm.com", "Piletimaailm (Estonian ticket platform)")].map
    (fun kv => (kv.1.toList, kv.2.toList))

/-- `extract_url_info` from `bot/utils/helpers.py` (the non-raising path;
`urlparse`'s `;parameters` split never fires on these URLs and the netloc and
query are as in `urlsplit`). -/
def extract_url_info (url : List Char) : List Char :=
  let parsed := urlsplitL url
  let domain := pyReplace "www.".toList [] parsed.netloc
  let platform := (platform_names.find?
    (fun kv => listContainsSub kv.1 domain)).map (fun kv => kv.2)
  let info := ["[PAGE NOT ACCESSIBLE - content could not be loaded]".toList,
    "Site: ".toList ++ platform.getD domain,
    "URL: ".toList ++ url]
  let info := if listContainsSub "eventbrite.com".toList domain then
      match ((splitOnC '/' parsed.path).filter (fun p => ¬ p = [])).find?
          (fun part => listContainsSub "-tickets-".toList part) with
      | some part => info ++ ["Possible event name from URL: ".toList
          ++ pyTitle (pyReplace "-".toList " ".toList
            (splitBeforeSub "-tickets-".toList part))]
      | none => info
    else info
  let info := info ++ [[],
    "CRITICAL: The page content is NOT available. URL path segments are NOT reliable.".toList,
    "You MUST search the web for this URL or event to find actual details.".toList,
    "DO NOT interpret or guess based on URL slugs, organizer IDs, or path fragments.".toList]
  joinC '\n' info

/-- String-keyed Python dict lookup. -/
def sGet {α : Type} : List (List Char × α) → List Char → Option α
  | [], _ => none
  | kv :: t, k => if kv.1 = k then some kv.2 else sGet t k

/-- String-keyed Python dict assignment. -/
def sSet {α : Type} (d : List (List Char × α)) (k : List Char) (v : α) :
    List (List Char × α) :=
  if (sGet d k).isSome
  then d.map (fun kv => if kv.1 = k then (k, v) else kv)
  else d ++ [(k, v)]

/-- `del d[k]`. -/
def sDel {α : Type} (d : List (List Char × α)) (k : List Char) :
    List (List Char × α) :=
  d.filter (fun kv => ¬ kv.1 = k)

/-- One completed `_curl_fetch` task: `(html, None)` on success, `(None,
error)` on failure (`error = "cloudflare"` for a detected block). -/
def FetchDone : Type := Option (List Char) × Option (List Char)

/-- The `while pending` race loop over task completions, in completion
order: a cloudflare error cancels everything with no result; an html payload
ends the race with the extracted content (the empty string when extraction
yields nothing); other errors just skip to the next completion. -/
def raceLoop (ext : List Char → List Char) : List FetchDone → Option (List Char)
  | [] => none
  | (html, err) :: rest =>
    if err = some "cloudflare".toList then none
    else match html with
      | some h => some (ext h)
      | none => raceLoop ext rest

/-- What `fetch_url_content` returns, paired with the cache it leaves behind
and whether it ran the network race. -/
structure FetchResult where
  content : List Char
  cache : List (List Char × (List Char × Nat))
  raced : Bool
deriving DecidableEq

/-- The post-cache-check part of `fetch_url_content`: race, degrade to
`extract_url_info` when the race produced nothing, store (also failures),
prune expired entries when the cache exceeds 50. -/
def fetchCore (cu : List Char) (completions : List FetchDone)
    (ext : List Char → List Char) (now : Nat)
    (cache : List (List Char × (List Char × Nat))) : FetchResult :=
  let result := match raceLoop ext completions with
    | some r => r
    | none =>
      let url_info := extract_url_info cu
      if url_info ≠ [] then url_info else []
  let cache2 := sSet cache cu (result, now)
  let cache3 := if 50 < cache2.length then
      cache2.filter (fun kv => ¬ (URL_CACHE_TTL < now - kv.2.2))
    else cache2
  ⟨result, cache3, true⟩

/-- `fetch_url_content`, with the environment explicit: `completions` is the
sequence of `_curl_fetch` completions the race would observe, `ext` is
`_extract_content_from_html` applied to the fetched html, `now` is
`time.time()`. -/
def fetch_url_content (url : List Char) (completions : List FetchDone)
    (ext : List Char → List Char) (now : Nat)
    (cache : List (List Char × (List Char × Nat))) : FetchResult :=
  let cu := cleanUrlL url
  match sGet cache cu with
  | some cached =>
    if now - cached.2 < URL_CACHE_TTL then ⟨cached.1, cache, false⟩
    else fetchCore cu completions ext now (sDel cache cu)
  | none => fetchCore cu completions ext now cache

theorem containsSub_of_isPrefixOf {sub l : List Char}
    (h : sub.isPrefixOf l = true) : listContainsSub sub l = true := by
  rcases l with _ | ⟨c, cs⟩
  · rcases sub with _ | ⟨d, ds⟩
    · rfl
    · simp [List.isPrefixOf] at h
  · rw [listContainsSub, h, Bool.true_or]

theorem containsSub_self (l : List Char) : listContainsSub l l = true :=
  containsSub_of_isPrefixOf (List.isPrefixOf_iff_prefix.mpr (List.prefix_refl l))

theorem containsSub_append_left (pre : List Char) {sub t : List Char}
    (h : listContainsSub sub t = true) :
    listContainsSub sub (pre ++ t) = true := by
  induction pre with
  | nil => simpa using h
  | cons c cs ih =>
    rw [List.cons_append, listContainsSub, ih, Bool.or_true]

theorem containsSub_append_right {sub a : List Char} (b : List Char)
    (h : listContainsSub sub a = true) :
    listContainsSub sub (a ++ b) = true := by
  induction a with
  | nil =>
    have hsub : sub = [] := by
      rcases sub with _ | ⟨d, ds⟩
      · rfl
      · simp [listContainsSub] at h
    rw [hsub, List.nil_append]
    rcases b with _ | ⟨c, cs⟩
    · rfl
    · rw [listContainsSub]
      simp
  | cons c cs ih =>
    rw [listContainsSub] at h
    rw [List.cons_append, listContainsSub]
    rcases (Bool.or_eq_true _ _).mp h with h1 | h1
    · have h2 : sub.isPrefixOf (c :: (cs ++ b)) = true := by
        rw [List.isPrefixOf_iff_prefix] at h1 ⊢
        exact h1.trans (List.prefix_append (c :: cs) b)
      rw [h2, Bool.true_or]
    · rw [ih h1, Bool.or_true]

theorem joinC_decomp {sep : Char} {x : List Char} :
    ∀ {parts : List (List Char)}, x ∈ parts →
      ∃ pre post, joinC sep parts = pre ++ (x ++ post) := by
  intro parts
  induction parts with
  | nil => simp
  | cons y ys ih =>
    intro hx
    rcases List.mem_cons.mp hx with h1 | h1
    · subst h1
      rcases ys with _ | ⟨z, zs⟩
      · exact ⟨[], [], by simp [joinC]⟩
      · exact ⟨[], sep :: joinC sep (z :: zs), by
          rw [show joinC sep (x :: z :: zs)
            = x ++ sep :: joinC sep (z :: zs) from rfl]
          simp⟩
    · obtain ⟨pre, post, hp⟩ := ih h1
      rcases ys with _ | ⟨z, zs⟩
      · simp at h1
      · refine ⟨y ++ sep :: pre, post, ?_⟩
        rw [show joinC sep (y :: z :: zs)
          = y ++ sep :: joinC sep (z :: zs) from rfl, hp]
        simp

theorem containsSub_joinC {sep : Char} {sub x : List Char}
    {parts : List (List Char)} (hx : x ∈ parts)
    (h : listContainsSub sub x = true) :
    listContainsSub sub (joinC sep parts) = true := by
  obtain ⟨pre, post, hp⟩ := joinC_decomp hx
  rw [hp]
  exact containsSub_append_left pre (containsSub_append_right post h)

theorem raceLoop_none {ext : List Char → List Char}
    {completions : List FetchDone} (h : ∀ comp ∈ completions, comp.1 = none) :
    raceLoop ext completions = none := by
  induction completions with
  | nil => rfl
  | cons comp rest ih =>
    rcases comp with ⟨html, err⟩
    have h1 : html = none := h (html, err) (List.mem_cons_self _ _)
    subst h1
    rw [raceLoop]
    split_ifs
    · rfl
    · exact ih (fun c hc => h c (List.mem_cons_of_mem _ hc))

theorem sGet_singleton {α : Type} (k : List Char) (v : α) :
    sGet [(k, v)] k = some v := by
  rw [sGet, if_pos rfl]

theorem sGet_append_none {α : Type} {d : List (List Char × α)} {k : List Char}
    (h : sGet d k = none) (v : α) : sGet (d ++ [(k, v)]) k = some v := by
  induction d with
  | nil => simp [sGet]
  | cons kv t ih =>
    rw [sGet] at h
    rw [List.cons_append, sGet]
    by_cases h1 : kv.1 = k
    · rw [if_pos h1] at h
      exact absurd h (by simp)
    · rw [if_neg h1] at h
      rw [if_neg h1]
      exact ih h

theorem absent_of_sGet_none {α : Type} {l : List (List Char × α)}
    {k : List Char} (h : sGet l k = none) : ∀ x ∈ l, x.1 ≠ k := by
  induction l with
  | nil => simp
  | cons kv t ih =>
    rw [sGet] at h
    intro x hx
    by_cases h1 : kv.1 = k
    · rw [if_pos h1] at h
      exact absurd h (by simp)
    · rw [if_neg h1] at h
      rcases List.mem_cons.mp hx with h2 | h2
      · rw [h2]
        exact h1
      · exact ih h x h2

theorem sGet_none_of_absent {α : Type} {l : List (List Char × α)}
    {k : List Char} (h : ∀ x ∈ l, x.1 ≠ k) : sGet l k = none := by
  induction l with
  | nil => rfl
  | cons kv t ih =>
    rw [sGet, if_neg (h kv (List.mem_cons_self kv t))]
    exact ih (fun x hx => h x (List.mem_cons_of_mem kv hx))

/-- The degraded payload, written as the explicit line list (`mid` is the
optional Eventbrite event-name line). -/
theorem extract_url_info_eq (cu : List Char) :
    ∃ mid : List (List Char),
      extract_url_info cu
        = joinC '\n' ("[PAGE NOT ACCESSIBLE - content could not be loaded]".toList
            :: ("Site: ".toList ++ ((platform_names.find?
                  (fun kv => listContainsSub kv.1
                    (pyReplace "www.".toList [] (urlsplitL cu).netloc))).map
                (fun kv => kv.2)).getD
                  (pyReplace "www.".toList [] (urlsplitL cu).netloc))
            :: ("URL: ".toList ++ cu)
            :: (mid ++ [[],
              "CRITICAL: The page content is NOT available. URL path segments are NOT reliable.".toList,
              "You MUST search the web for this URL or event to find actual details.".toList,
              "DO NOT interpret or guess based on URL slugs, organizer IDs, or path fragments.".toList])) := by
  unfold extract_url_info
  dsimp only
  by_cases hev : listContainsSub "eventbrite.com".toList
      (pyReplace "www.".toList [] (urlsplitL cu).netloc) = true
  · rw [if_pos hev]
    rcases hfind : ((splitOnC '/' (urlsplitL cu).path).filter
        (fun p => ¬ p = [])).find?
        (fun part => listContainsSub "-tickets-".toList part) with _ | part
    · rw [hfind]
      exact ⟨[], by simp⟩
    · rw [hfind]
      refine ⟨["Possible event name from URL: ".toList
        ++ pyTitle (pyReplace "-".toList " ".toList
          (splitBeforeSub "-tickets-".toList part))], ?_⟩
      simp
  · rw [if_neg hev]
    exact ⟨[], by simp⟩

theorem joinC_head_ne_nil {sep : Char} {x : List Char} (hx : x ≠ [])
    (xs : List (List Char)) : joinC sep (x :: xs) ≠ [] := by
  rcases xs with _ | ⟨y, ys⟩
  · simpa [joinC]
  · rw [show joinC sep (x :: y :: ys) = x ++ sep :: joinC sep (y :: ys) from rfl]
    simp

/-- C1: `fetch_url_content` (a total function here — the Python code catches
every exception) returns, whenever the race completes with no successful
fetch (every completion failed or was hard-blocked), the degraded payload of
`extract_url_info`: a string carrying the platform label when the domain
matches the fixed table (the bare domain otherwise) and the explicit
do-not-guess instruction text; and it stores exactly that payload in the
cache under the normalized URL. -/
theorem C1_degraded_payload (url : List Char) (completions : List FetchDone)
    (ext : List Char → List Char) (now : Nat)
    (cache : List (List Char × (List Char × Nat)))
    (hmiss : sGet cache (cleanUrlL url) = none)
    (hfail : ∀ comp ∈ completions, comp.1 = none) :
    (fetch_url_content url completions ext now cache).content
        = extract_url_info (cleanUrlL url)
    ∧ sGet (fetch_url_content url completions ext now cache).cache
        (cleanUrlL url)
        = some (extract_url_info (cleanUrlL url), now)
    ∧ listContainsSub
        (((platform_names.find? (fun kv => listContainsSub kv.1
            (pyReplace "www.".toList [] (urlsplitL (cleanUrlL url)).netloc))).map
          (fun kv => kv.2)).getD
            (pyReplace "www.".toList [] (urlsplitL (cleanUrlL url)).netloc))
        (fetch_url_content url completions ext now cache).content = true
    ∧ listContainsSub
        "DO NOT interpret or guess based on URL slugs, organizer IDs, or path fragments.".toList
        (fetch_url_content url completions ext now cache).content = true := by
  have hrace := @raceLoop_none ext completions hfail
  have hne : extract_url_info (cleanUrlL url) ≠ [] := by
    obtain ⟨mid, hm⟩ := extract_url_info_eq (cleanUrlL url)
    rw [hm]
    exact joinC_head_ne_nil (by decide) _
  have hfc : fetch_url_content url completions ext now cache
      = fetchCore (cleanUrlL url) completions ext now cache := by
    unfold fetch_url_content
    dsimp only
    rw [hmiss]
  have hset : sSet cache (cleanUrlL url) (extract_url_info (cleanUrlL url), now)
      = cache ++ [(cleanUrlL url, (extract_url_info (cleanUrlL url), now))] := by
    unfold sSet
    rw [hmiss]
    rfl
  have hres : (fetchCore (cleanUrlL url) completions ext now cache).content
      = extract_url_info (cleanUrlL url) := by
    unfold fetchCore
    dsimp only
    rw [hrace]
    dsimp only
    rw [if_pos hne]
  have hcache : sGet (fetchCore (cleanUrlL url) completions ext now
      cache).cache (cleanUrlL url)
      = some (extract_url_info (cleanUrlL url), now) := by
    unfold fetchCore
    dsimp only
    rw [hrace]
    dsimp only
    rw [if_pos hne, hset]
    split_ifs with hlen
    · rw [List.filter_append]
      have hp : ([(cleanUrlL url, (extract_url_info (cleanUrlL url),
          now))].filter (fun kv => ¬ (URL_CACHE_TTL < now - kv.2.2)))
          = [(cleanUrlL url, (extract_url_info (cleanUrlL url), now))] := by
        simp [Nat.sub_self]
      rw [hp]
      apply sGet_append_none
      apply sGet_none_of_absent
      intro x hx
      exact absent_of_sGet_none hmiss x (List.mem_of_mem_filter hx)
    · exact sGet_append_none hmiss _
  obtain ⟨mid, hm⟩ := extract_url_info_eq (cleanUrlL url)
  have hsite : listContainsSub
      (((platform_names.find? (fun kv => listContainsSub kv.1
          (pyReplace "www.".toList [] (urlsplitL (cleanUrlL url)).netloc))).map
        (fun kv => kv.2)).getD
          (pyReplace "www.".toList [] (urlsplitL (cleanUrlL url)).netloc))
      (extract_url_info (cleanUrlL url)) = true := by
    rw [hm]
    exact containsSub_joinC (by simp)
      (containsSub_append_left "Site: ".toList (containsSub_self _))
  have hdonot : listContainsSub
      "DO NOT interpret or guess based on URL slugs, organizer IDs, or path fragments.".toList
      (extract_url_info (cleanUrlL url)) = true := by
    rw [hm]
    refine containsSub_joinC ?_ (containsSub_self _)
    simp
  rw [hfc, hres]
  exact ⟨rfl, hcache, hsite, hdonot⟩

/-- C5: with a cold cache, the first `fetch_url_content` call races the
network and stores its payload; a second call within `URL_CACHE_TTL` of it —
whatever completions the network would now deliver — runs no race, returns
the identical payload (success or failure alike), and leaves the cache
untouched. -/
theorem C5_cache_round_trip (url : List Char)
    (completions completions2 : List FetchDone)
    (ext ext2 : List Char → List Char) (now1 now2 : Nat)
    (h12 : now2 - now1 < URL_CACHE_TTL) :
    (fetch_url_content url completions ext now1 []).raced = true
    ∧ (fetch_url_content url completions2 ext2 now2
        (fetch_url_content url completions ext now1 []).cache).content
      = (fetch_url_content url completions ext now1 []).content
    ∧ (fetch_url_content url completions2 ext2 now2
        (fetch_url_content url completions ext now1 []).cache).raced = false
    ∧ (fetch_url_content url completions2 ext2 now2
        (fetch_url_content url completions ext now1 []).cache).cache
      = (fetch_url_content url completions ext now1 []).cache := by
  obtain ⟨r, hcore⟩ : ∃ r, fetch_url_content url completions ext now1 []
      = ⟨r, [(cleanUrlL url, (r, now1))], true⟩ :=
    ⟨(match raceLoop ext completions with
      | some r => r
      | none =>
        let url_info := extract_url_info (cleanUrlL url)
        if url_info ≠ [] then url_info else []), rfl⟩
  rw [hcore]
  have h2 : fetch_url_content url completions2 ext2 now2
      [(cleanUrlL url, (r, now1))] = ⟨r, [(cleanUrlL url, (r, now1))], false⟩ := by
    unfold fetch_url_content
    dsimp only
    rw [sGet_singleton]
    dsimp only
    rw [if_pos h12]
  rw [h2]
  exact ⟨rfl, rfl, rfl, rfl⟩

/-- Witness for C1 at a concrete blocked fetch. -/
theorem C1_degraded_payload_witness :
    (sGet ([] : List (List Char × (List Char × Nat)))
        (cleanUrlL "https://www.facebook.com/events/123?utm_source=x".toList) = none
      ∧ (∀ comp ∈ ([((none : Option (List Char)), some "HTTP 403".toList), (none, some "timeout".toList)] : List FetchDone), comp.1 = none))
    ∧ ((fetch_url_content "https://www.facebook.com/events/123?utm_source=x".toList [((none : Option (List Char)), some "HTTP 403".toList), (none, some "timeout".toList)] (fun h => h) 50 []).content
        = extract_url_info (cleanUrlL "https://www.facebook.com/events/123?utm_source=x".toList)
      ∧ sGet (fetch_url_content "https://www.facebook.com/events/123?utm_source=x".toList [((none : Option (List Char)), some "HTTP 403".toList), (none, some "timeout".toList)] (fun h => h) 50 []).cache (cleanUrlL "https://www.facebook.com/events/123?utm_source=x".toList)
        = some (extract_url_info (cleanUrlL "https://www.facebook.com/events/123?utm_source=x".toList), 50)
      ∧ listContainsSub
          (((platform_names.find? (fun kv => listContainsSub kv.1
              (pyReplace "www.".toList []
                (urlsplitL (cleanUrlL "https://www.facebook.com/events/123?utm_source=x".toList)).netloc))).map
            (fun kv => kv.2)).getD
              (pyReplace "www.".toList []
                (urlsplitL (cleanUrlL "https://www.facebook.com/events/123?utm_source=x".toList)).netloc))
          (fetch_url_content "https://www.facebook.com/events/123?utm_source=x".toList [((none : Option (List Char)), some "HTTP 403".toList), (none, some "timeout".toList)] (fun h => h) 50 []).content = true
      ∧ listContainsSub
          "DO NOT interpret or guess based on URL slugs, organizer IDs, or path fragments.".toList
          (fetch_url_content "https://www.facebook.com/events/123?utm_source=x".toList [((none : Option (List Char)), some "HTTP 403".toList), (none, some "timeout".toList)] (fun h => h) 50 []).content = true) :=
  ⟨⟨by decide, by decide⟩,
    C1_degraded_payload "https://www.facebook.com/events/123?utm_source=x".toList [((none : Option (List Char)), some "HTTP 403".toList), (none, some "timeout".toList)] (fun h => h) 50 [] (by decide) (by decide)⟩

/-- Witness for C5 at a concrete fetch and re-fetch. -/
theorem C5_cache_round_trip_witness :
    ((250 : Nat) - 100 < URL_CACHE_TTL)
    ∧ ((fetch_url_content "https://example.com/a?b=1".toList [(some "<html>hi</html>".toList, (none : Option (List Char)))] (fun h => h) 100 []).raced = true
      ∧ (fetch_url_content "https://example.com/a?b=1".toList [] (fun h => h) 250 (fetch_url_content "https://example.com/a?b=1".toList [(some "<html>hi</html>".toList, (none : Option (List Char)))] (fun h => h) 100 []).cache).content = (fetch_url_content "https://example.com/a?b=1".toList [(some "<html>hi</html>".toList, (none : Option (List Char)))] (fun h => h) 100 []).content
      ∧ (fetch_url_content "https://example.com/a?b=1".toList [] (fun h => h) 250 (fetch_url_content "https://example.com/a?b=1".toList [(some "<html>hi</html>".toList, (none : Option (List Char)))] (fun h => h) 100 []).cache).raced = false
      ∧ (fetch_url_content "https://example.com/a?b=1".toList [] (fun h => h) 250 (fetch_url_content "https://example.com/a?b=1".toList [(some "<html>hi</html>".toList, (none : Option (List Char)))] (fun h => h) 100 []).cache).cache = (fetch_url_content "https://example.com/a?b=1".toList [(some "<html>hi</html>".toList, (none : Option (List Char)))] (fun h => h) 100 []).cache) :=
  ⟨by decide,
    C5_cache_round_trip "https://example.com/a?b=1".toList [(some "<html>hi</html>".toList, (none : Option (List Char)))] [] (fun h => h) (fun h => h) 100 250
      (by decide)⟩

end TallinnBot
